import Mathlib

/-!
Verification of the `vague-search` dictionary engine against its
natural-language specification.

The Rust sources are shallowly embedded:
* characters are modelled by their Unicode code points (`Nat`);
* Rust `&str` / `String` values are modelled by `List Nat` (their sequence of
  code points);
* `Option<NonZeroU32>` frequencies are modelled by `Option Nat`;
* the `u16` distance type of the search driver is modelled by `Nat`, with the
  `Distance::MAX` sentinel kept as the literal `65535` that the code uses;
* fallible or possibly diverging loops take an explicit fuel argument.
-/

/-- The `Distance::MAX` sentinel of the `u16` distance type
(`search_approx.rs` uses it as the "cannot transpose" cost). -/
def distanceMax : Nat := 65535

/-! ## `compute_layer` (src/src/search_approx.rs, lines 96-149) -/

/-- The transposition cost of `compute_layer`: `parent_layer[i-2] + 1` when the
parent row is non-empty, both a previous query character and a previous trie
character exist, and they cross-match the current characters; otherwise the
`Distance::MAX` sentinel so that the minimum ignores it. The addition is the
source's `u16` addition, which wraps modulo `2^16` in release builds (a parent
cell of 65535 makes it wrap to 0; debug builds panic instead). -/
def transCost (parentLayer : List Nat) (lastChar : Option Nat) (curTrieChar : Nat)
    (curWordChar : Nat) (i : Nat) (prevWordCharOpt : Option Nat) : Nat :=
  match prevWordCharOpt, lastChar with
  | some wordPrev, some triePrev =>
      if parentLayer.isEmpty = false ∧ wordPrev = curTrieChar ∧ curWordChar = triePrev
      then (parentLayer.getD (i - 2) 0 + 1) % 2 ^ 16
      else distanceMax
  | _, _ => distanceMax

/-- One cell of the `compute_layer` loop body:
`min(min(insert, delete), min(replace, transpose))`. -/
def computeCell (lastLayer parentLayer : List Nat) (lastChar : Option Nat)
    (curTrieChar : Nat) (curWordChar : Nat) (i prev : Nat)
    (prevWordCharOpt : Option Nat) : Nat :=
  let diffCharacter : Nat := if curWordChar = curTrieChar then 0 else 1
  let insertCost := prev + 1
  let deleteCost := lastLayer.getD i 0 + 1
  let replaceCost := lastLayer.getD (i - 1) 0 + diffCharacter
  min (min insertCost deleteCost)
    (min replaceCost
      (transCost parentLayer lastChar curTrieChar curWordChar i prevWordCharOpt))

/-- The body of the `for i in 1..layer.len()` loop of `compute_layer`.
`i` is the current cell index, `prev` the value just written to `layer[i-1]`,
and `prevWordCharOpt` the previously consumed query character. -/
def computeLayerGo (lastLayer parentLayer : List Nat) (lastChar : Option Nat)
    (curTrieChar : Nat) : List Nat → Nat → Nat → Option Nat → List Nat
  | [], _, _, _ => []
  | curWordChar :: rest, i, prev, prevWordCharOpt =>
      let cell := computeCell lastLayer parentLayer lastChar curTrieChar
        curWordChar i prev prevWordCharOpt
      cell :: computeLayerGo lastLayer parentLayer lastChar curTrieChar rest
        (i + 1) cell (some curWordChar)

/-- The `compute_layer` function: fill a Damerau-Levenshtein row for the trie
path extended by `curTrieChar`, given the previous row `lastLayer`, the row two
characters up `parentLayer` (empty if unavailable), the query `word` and the
previous trie-path character `lastChar`. -/
def computeLayer (lastLayer parentLayer : List Nat) (word : List Nat)
    (lastChar : Option Nat) (curTrieChar : Nat) : List Nat :=
  let cell0 := lastLayer.getD 0 0 + 1
  cell0 :: computeLayerGo lastLayer parentLayer lastChar curTrieChar word 1 cell0 none

/-- The row update exactly as the specification (§4.6) words it: for each `i`,
`layer[i] = min(insert, delete, replace, transpose)` where the transposition
term constrains the minimum only when the parent row is non-empty, a previous
query character exists and equals the current trie character, and the current
query character equals the previous trie character. -/
def specCell (lastLayer parentLayer : List Nat) (lastChar : Option Nat)
    (curTrieChar : Nat) (qi : Nat) (i prev : Nat) (qPrevOpt : Option Nat) : Nat :=
  let diff : Nat := if qi = curTrieChar then 0 else 1
  let base := min (prev + 1)
    (min (lastLayer.getD i 0 + 1) (lastLayer.getD (i - 1) 0 + diff))
  match qPrevOpt, lastChar with
  | some qPrev, some tPrev =>
      if parentLayer.isEmpty = false ∧ qPrev = curTrieChar ∧ qi = tPrev then
        min base (parentLayer.getD (i - 2) 0 + 1)
      else base
  | _, _ => base

/-- Row cells per the specification formula. -/
def specRowGo (lastLayer parentLayer : List Nat) (lastChar : Option Nat)
    (curTrieChar : Nat) : List Nat → Nat → Nat → Option Nat → List Nat
  | [], _, _, _ => []
  | qi :: rest, i, prev, qPrevOpt =>
      let cell := specCell lastLayer parentLayer lastChar curTrieChar qi i prev qPrevOpt
      cell :: specRowGo lastLayer parentLayer lastChar curTrieChar rest
        (i + 1) cell (some qi)

/-- Row update per the specification formula, including
`layer[0] = last_layer[0] + 1`. -/
def specRow (lastLayer parentLayer : List Nat) (word : List Nat)
    (lastChar : Option Nat) (curTrieChar : Nat) : List Nat :=
  let cell0 := lastLayer.getD 0 0 + 1
  cell0 :: specRowGo lastLayer parentLayer lastChar curTrieChar word 1 cell0 none

/-- Successive rows produced by `compute_layer` along a trie path, mirroring
the iteration of the reference test harness (`check_compute_layer_word`):
the first row is `[0, 1, ..., |word|]`, and after each path character the
previous row becomes `last_layer` and the one before it `parent_layer`. -/
def computeRowsGo (word : List Nat) : List Nat → List Nat → List Nat →
    Option Nat → List (List Nat)
  | [], _, _, _ => []
  | ch :: rest, lastLayer, parentLayer, lastChar =>
      let row := computeLayer lastLayer parentLayer word lastChar ch
      row :: computeRowsGo word rest row lastLayer (some ch)

/-- All rows for a query `word` against the trie path `trieWord`. -/
def computeRows (word trieWord : List Nat) : List (List Nat) :=
  computeRowsGo word trieWord (List.range (word.length + 1)) [] none

/-! ## `cmp_min_with_max_dist` (src/src/search_approx.rs, lines 383-410) -/

/-- The scanning loop of `cmp_min_with_max_dist`: `i` is the index of the head
of the remaining layer, `equals` the indices of threshold-equal cells found so
far. A cell below the threshold returns `Less` immediately with no indices. -/
def cmpMinGo (distMax : Nat) : List Nat → Nat → List Nat → Ordering × List Nat
  | [], _, equals => if equals.isEmpty then (.gt, equals) else (.eq, equals)
  | e :: rest, i, equals =>
      if e < distMax then (.lt, [])
      else if e = distMax then cmpMinGo distMax rest (i + 1) (equals ++ [i])
      else cmpMinGo distMax rest (i + 1) equals

/-- The `cmp_min_with_max_dist` function: classify the minimum of a distance
row against the threshold, returning the indices of threshold-equal cells in
the `Equal` case. -/
def cmpMinWithMaxDist (curLayer : List Nat) (distMax : Nat) : Ordering × List Nat :=
  cmpMinGo distMax curLayer 0 []

/-- Indices (offset by `i`) of the cells of `l` that are equal to `d`. -/
def eqIndicesFrom (d : Nat) : List Nat → Nat → List Nat
  | [], _ => []
  | e :: rest, i =>
      if e = d then i :: eqIndicesFrom d rest (i + 1) else eqIndicesFrom d rest (i + 1)

/-- Code points of a string literal, for readable concrete instances.
Characters are modelled throughout by their Unicode code points as `Nat`. -/
def strCp (s : String) : List Nat := s.toList.map Char.toNat

/-! ## Proof of C1 -/

/-- Every `getD`-read of a list of bounded entries is bounded (the default is 0). -/
theorem getD_le_of_forall_le {l : List Nat} {b : Nat} (h : ∀ x ∈ l, x ≤ b) :
    ∀ i, l.getD i 0 ≤ b := by
  induction l with
  | nil => intro i; simp [List.getD]
  | cons a t ih =>
      intro i
      cases i with
      | zero => simpa using h a (by simp)
      | succ j =>
          simp only [List.getD_cons_succ]
          exact ih (fun x hx => h x (by simp [hx])) j

/-- One cell of `compute_layer` agrees with the specification cell, provided
the previous and parent rows' entries stay below the `u16` sentinel (so the
wrapping `u16` addition in the transposition term is exact). -/
theorem computeCell_eq_specCell (lastLayer parentLayer : List Nat)
    (lastChar : Option Nat) (t q : Nat) (i prev : Nat) (qPrev : Option Nat)
    (hlast : ∀ x ∈ lastLayer, x ≤ 65533)
    (hpar : ∀ x ∈ parentLayer, x ≤ 65533) :
    computeCell lastLayer parentLayer lastChar t q i prev qPrev =
      specCell lastLayer parentLayer lastChar t q i prev qPrev := by
  have h1 : lastLayer.getD i 0 ≤ 65533 := getD_le_of_forall_le hlast i
  have h2 : lastLayer.getD (i - 1) 0 ≤ 65533 := getD_le_of_forall_le hlast (i - 1)
  have h3 : parentLayer.getD (i - 2) 0 ≤ 65533 := getD_le_of_forall_le hpar (i - 2)
  unfold computeCell specCell transCost
  cases qPrev <;> cases lastChar <;>
    simp only [distanceMax] <;> split_ifs <;> omega

/-- The loop of `compute_layer` agrees cell by cell with the specification
formula, provided the previous and parent rows' entries stay below the `u16`
sentinel. -/
theorem computeLayerGo_eq_specRowGo (lastLayer parentLayer : List Nat)
    (lastChar : Option Nat) (t : Nat) (hlast : ∀ x ∈ lastLayer, x ≤ 65533)
    (hpar : ∀ x ∈ parentLayer, x ≤ 65533) :
    ∀ (word : List Nat) (i prev : Nat) (qPrev : Option Nat),
    computeLayerGo lastLayer parentLayer lastChar t word i prev qPrev =
      specRowGo lastLayer parentLayer lastChar t word i prev qPrev := by
  intro word
  induction word with
  | nil => intro i prev qPrev; rfl
  | cons q rest ih =>
      intro i prev qPrev
      simp only [computeLayerGo, specRowGo]
      rw [computeCell_eq_specCell lastLayer parentLayer lastChar t q i prev qPrev
        hlast hpar, ih]

/-- C1: for every query word, rows and characters, with the previous and
parent rows' entries in `u16` range (below the sentinel, so the source's
wrapping `u16` additions are exact), `compute_layer` fills
`current[0] = last[0] + 1` and each
`current[i] = min(current[i-1]+1, last[i]+1, last[i-1]+(qᵢ≠t), transpose)`,
where the transposition term applies exactly when the parent row is non-empty,
the previous query character equals the current trie character and the current
query character equals the previous trie character; and for query "abaca"
against trie path "alabama" the successive rows are the seven listed rows. -/
theorem claim_C1_compute_layer :
    (∀ (lastLayer parentLayer : List Nat) (word : List Nat)
        (lastChar : Option Nat) (t : Nat),
      (∀ x ∈ lastLayer, x ≤ 65533) →
      (∀ x ∈ parentLayer, x ≤ 65533) →
      computeLayer lastLayer parentLayer word lastChar t =
        specRow lastLayer parentLayer word lastChar t)
    ∧ computeRows (strCp "abaca") (strCp "alabama") =
      [[1,0,1,2,3,4], [2,1,1,2,3,4], [3,2,2,1,2,3], [4,3,2,2,2,3],
       [5,4,3,2,3,2], [6,5,4,3,3,3], [7,6,5,4,4,3]] := by
  constructor
  · intro lastLayer parentLayer word lastChar t hlast hpar
    simp only [computeLayer, specRow]
    rw [computeLayerGo_eq_specRowGo lastLayer parentLayer lastChar t hlast hpar]
  · decide

/-- Witness for C1 at concrete rows and query (with a non-empty parent row, so
the transposition branch is exercised). -/
theorem claim_C1_compute_layer_witness :
    ((∀ x ∈ [(0:Nat), 1, 2], x ≤ 65533) ∧ (∀ x ∈ [(0:Nat), 1, 2], x ≤ 65533)) ∧
    computeLayer [0, 1, 2] [0, 1, 2] (strCp "ab") (some 98) 97 =
      specRow [0, 1, 2] [0, 1, 2] (strCp "ab") (some 98) 97 :=
  ⟨⟨by decide, by decide⟩,
    claim_C1_compute_layer.1 [0, 1, 2] [0, 1, 2] (strCp "ab") (some 98) 97
      (by decide) (by decide)⟩

/-! ## Proof of C4 -/

/-- Membership in `eqIndicesFrom`: exactly the (offset) positions of the cells
equal to the threshold. -/
theorem eqIndicesFrom_mem (d : Nat) :
    ∀ (l : List Nat) (i j : Nat),
    j ∈ eqIndicesFrom d l i ↔ ∃ k, k < l.length ∧ l.getD k 0 = d ∧ j = i + k := by
  intro l
  induction l with
  | nil => intro i j; simp [eqIndicesFrom]
  | cons e rest ih =>
      intro i j
      simp only [eqIndicesFrom]
      by_cases he : e = d
      · rw [if_pos he]
        simp only [List.mem_cons, ih]
        constructor
        · intro h
          rcases h with rfl | ⟨k, hk, hget, rfl⟩
          · exact ⟨0, by simp only [List.length_cons]; omega,
              by simpa only [List.getD_cons_zero] using he, by omega⟩
          · refine ⟨k + 1, ?_, ?_, by omega⟩
            · simp only [List.length_cons]; omega
            · simpa only [List.getD_cons_succ] using hget
        · rintro ⟨k, hk, hget, hj⟩
          cases k with
          | zero => left; omega
          | succ m =>
              right
              refine ⟨m, ?_, ?_, by omega⟩
              · simp only [List.length_cons] at hk; omega
              · simpa only [List.getD_cons_succ] using hget
      · rw [if_neg he, ih]
        constructor
        · rintro ⟨k, hk, hget, hj⟩
          refine ⟨k + 1, ?_, ?_, by omega⟩
          · simp only [List.length_cons]; omega
          · simpa only [List.getD_cons_succ] using hget
        · rintro ⟨k, hk, hget, hj⟩
          cases k with
          | zero =>
              exact absurd (by simpa only [List.getD_cons_zero] using hget) he
          | succ m =>
              refine ⟨m, ?_, ?_, by omega⟩
              · simp only [List.length_cons] at hk; omega
              · simpa only [List.getD_cons_succ] using hget

/-- The equal-index list is empty exactly when no cell equals the threshold. -/
theorem eqIndicesFrom_eq_nil (d : Nat) :
    ∀ (l : List Nat) (i : Nat), eqIndicesFrom d l i = [] ↔ ∀ x ∈ l, x ≠ d := by
  intro l
  induction l with
  | nil => intro i; simp [eqIndicesFrom]
  | cons e rest ih =>
      intro i
      simp only [eqIndicesFrom]
      by_cases he : e = d
      · simp [he]
      · simp [he, ih (i + 1)]

/-- Characterization of the scanning loop of `cmp_min_with_max_dist`. -/
theorem cmpMinGo_spec (d : Nat) :
    ∀ (l : List Nat) (i : Nat) (acc : List Nat),
    cmpMinGo d l i acc =
      if ∃ x ∈ l, x < d then (.lt, [])
      else if acc = [] ∧ eqIndicesFrom d l i = [] then (.gt, acc)
      else (.eq, acc ++ eqIndicesFrom d l i) := by
  intro l
  induction l with
  | nil =>
      intro i acc
      simp only [cmpMinGo, eqIndicesFrom]
      by_cases hacc : acc = []
      · simp [hacc]
      · simp [hacc, List.isEmpty_iff]
  | cons e rest ih =>
      intro i acc
      simp only [cmpMinGo, eqIndicesFrom]
      by_cases hlt : e < d
      · simp only [if_pos hlt]
        rw [if_pos ⟨e, by simp, hlt⟩]
      · simp only [if_neg hlt]
        have hex : (∃ x ∈ e :: rest, x < d) ↔ (∃ x ∈ rest, x < d) := by
          simp only [List.mem_cons]
          constructor
          · rintro ⟨x, rfl | hx, hxd⟩
            · exact absurd hxd hlt
            · exact ⟨x, hx, hxd⟩
          · rintro ⟨x, hx, hxd⟩
            exact ⟨x, Or.inr hx, hxd⟩
        by_cases heq : e = d
        · simp only [if_pos heq]
          rw [ih]
          simp only [hex]
          by_cases hrest : ∃ x ∈ rest, x < d
          · simp only [if_pos hrest]
          · simp only [if_neg hrest]
            have h1 : ¬(acc ++ [i] = [] ∧ eqIndicesFrom d rest (i + 1) = []) := by
              simp
            have h2 : ¬(acc = [] ∧ i :: eqIndicesFrom d rest (i + 1) = []) := by
              simp
            simp only [if_neg h1, if_neg h2]
            simp
        · simp only [if_neg heq]
          rw [ih]
          simp only [hex]

/-- C4: the minimum-versus-threshold classification returns `Less` with no
positions when some cell is strictly below the threshold, `Equal` with exactly
the positions of the threshold-equal cells when no cell is below but some cell
equals it, and `Greater` with no positions when every cell is strictly above;
in particular `[5,3,4,6]` at 3 gives `Equal` at `{1}`, `[5,6,4,4]` gives
`Greater`, and `[5,3,2,6]` gives `Less`. -/
theorem claim_C4_cmp_min_with_max_dist :
    (∀ (l : List Nat) (d : Nat), cmpMinWithMaxDist l d =
      if ∃ x ∈ l, x < d then (.lt, [])
      else if ∃ x ∈ l, x = d then (.eq, eqIndicesFrom d l 0)
      else (.gt, []))
    ∧ (∀ (l : List Nat) (d j : Nat),
        j ∈ eqIndicesFrom d l 0 ↔ j < l.length ∧ l.getD j 0 = d)
    ∧ cmpMinWithMaxDist [5, 3, 4, 6] 3 = (.eq, [1])
    ∧ cmpMinWithMaxDist [5, 6, 4, 4] 3 = (.gt, [])
    ∧ cmpMinWithMaxDist [5, 3, 2, 6] 3 = (.lt, []) := by
  refine ⟨?_, ?_, by decide, by decide, by decide⟩
  · intro l d
    have hiff : eqIndicesFrom d l 0 = [] ↔ ¬∃ x ∈ l, x = d := by
      rw [eqIndicesFrom_eq_nil]
      constructor
      · rintro h ⟨x, hx, hxd⟩
        exact h x hx hxd
      · intro h x hx hxd
        exact h ⟨x, hx, hxd⟩
    unfold cmpMinWithMaxDist
    rw [cmpMinGo_spec]
    split_ifs with h1 h2 h3 h4
    · rfl
    · exact absurd h3 (hiff.mp h2.2)
    · rfl
    · simp
    · exact absurd (not_not.mp (fun hn => (h2 ⟨rfl, hiff.mpr hn⟩))) h4
  · intro l d j
    rw [eqIndicesFrom_mem]
    constructor
    · rintro ⟨k, hk, hget, hj⟩
      have hjk : j = k := by omega
      subst hjk
      exact ⟨hk, hget⟩
    · rintro ⟨hj, hget⟩
      exact ⟨j, hj, hget, by omega⟩

/-! ## Compiled trie nodes (vague-search-core/src/trie/trie_node.rs)

`IndexNodeNonZero` values are modelled as plain `Nat` node indices (the
non-zero niche is captured by `Option`: `none` is the absent child), and
`IndexChar` / `IndexRange` as `Nat` indices into the character and
range-element arrays. -/

/-- The `NaiveNode` payload. -/
structure NaiveNode where
  index_first_child : Option Nat
  word_freq : Option Nat
  character : Nat
deriving DecidableEq, Repr, Inhabited

/-- The `PatriciaNode` payload. -/
structure PatriciaNode where
  index_first_child : Option Nat
  word_freq : Option Nat
  start_index : Nat
deriving DecidableEq, Repr, Inhabited

/-- The `RangeNode` payload. -/
structure RangeNode where
  first_char : Nat
  start_index : Nat
  end_index : Nat
deriving DecidableEq, Repr, Inhabited

/-- An element of the range array (`RangeElement`). -/
structure RangeElement where
  index_first_child : Option Nat
  word_freq : Option Nat
deriving DecidableEq, Repr, Inhabited

/-- The payload union of a compiled trie node (`NodeUnion`); as a sum type
carrying the variant, which the 2 header tag bits mirror (proved below). -/
inductive NodeUnion where
  | naive : NaiveNode → NodeUnion
  | patricia : PatriciaNode → NodeUnion
  | range : RangeNode → NodeUnion
deriving DecidableEq, Repr, Inhabited

/-- A compiled trie node: the packed 32-bit header plus the payload. -/
structure CompiledTrieNode where
  nb_siblings_with_flags : Nat
  node_union : NodeUnion
deriving DecidableEq, Repr, Inhabited

/-- Mask of the 2 variant-tag bits (bits 31..30). -/
def MASK_NODE_TYPE : Nat := 0xC0000000

/-- Mask of the 12 substring-length bits (bits 29..18). -/
def MASK_PAT_STR_LENGTH : Nat := 0x3FFC0000

/-- Mask of the 18 sibling-count bits (bits 17..0). -/
def MASK_NB_SIBLINGS : Nat := 0x0003FFFF

/-- Tag of the naive variant. -/
def NODE_TYPE_NAIVE : Nat := 0

/-- Tag of the patricia (substring) variant. -/
def NODE_TYPE_PATRICIA : Nat := 0x40000000

/-- Tag of the range variant. -/
def NODE_TYPE_RANGE : Nat := 0x80000000

/-- Number of trailing zero bits of a 32-bit value (`u32::trailing_zeros`). -/
def trailingZeros32 (n : Nat) : Nat :=
  (List.range 32).findIdx (fun i => n.testBit i)

/-- The `value_to_mask` helper: shift a value into a mask's position. -/
def valueToMask (value mask : Nat) : Nat :=
  (value <<< trailingZeros32 mask) &&& mask

/-- The `get_masked_flags` helper: extract a masked field from the header. -/
def getMaskedFlags (header mask : Nat) : Nat :=
  (header &&& mask) >>> trailingZeros32 mask

/-- The `new_naive` constructor (release semantics: the header packing).
The `debug_assert` capacity check is modelled by `new_naive_checked`. -/
def CompiledTrieNode.new_naive (data : NaiveNode) (nb_siblings : Nat) :
    CompiledTrieNode where
  nb_siblings_with_flags :=
    NODE_TYPE_NAIVE ||| valueToMask nb_siblings MASK_NB_SIBLINGS
  node_union := .naive data

/-- The `new_patricia` constructor (release semantics: the header packing). -/
def CompiledTrieNode.new_patricia (data : PatriciaNode) (nb_siblings str_len : Nat) :
    CompiledTrieNode where
  nb_siblings_with_flags :=
    NODE_TYPE_PATRICIA ||| valueToMask nb_siblings MASK_NB_SIBLINGS |||
      valueToMask str_len MASK_PAT_STR_LENGTH
  node_union := .patricia data

/-- The `new_range` constructor (release semantics: the header packing). -/
def CompiledTrieNode.new_range (data : RangeNode) (nb_siblings : Nat) :
    CompiledTrieNode where
  nb_siblings_with_flags :=
    NODE_TYPE_RANGE ||| valueToMask nb_siblings MASK_NB_SIBLINGS
  node_union := .range data

/-- The `debug_assert!(nb_siblings < (1 << 18))` guard of `new_naive`,
modelled as a loud (`Except.error`) failure. -/
def CompiledTrieNode.new_naive_checked (data : NaiveNode) (nb_siblings : Nat) :
    Except String CompiledTrieNode :=
  if nb_siblings < 1 <<< 18 then .ok (.new_naive data nb_siblings)
  else .error "Too many siblings"

/-- The two `debug_assert!` guards of `new_patricia`, modelled as loud
failures. -/
def CompiledTrieNode.new_patricia_checked (data : PatriciaNode)
    (nb_siblings str_len : Nat) : Except String CompiledTrieNode :=
  if nb_siblings < 1 <<< 18 then
    if str_len < 1 <<< 12 then .ok (.new_patricia data nb_siblings str_len)
    else .error "String too long"
  else .error "Too many siblings"

/-- The `debug_assert!(nb_siblings < (1 << 18))` guard of `new_range`,
modelled as a loud failure. -/
def CompiledTrieNode.new_range_checked (data : RangeNode) (nb_siblings : Nat) :
    Except String CompiledTrieNode :=
  if nb_siblings < 1 <<< 18 then .ok (.new_range data nb_siblings)
  else .error "Too many siblings"

/-- The borrowed view of a node's payload (`NodeValue`). -/
inductive NodeValue where
  | naive : NaiveNode → NodeValue
  | patricia : PatriciaNode → NodeValue
  | range : RangeNode → NodeValue
deriving DecidableEq, Repr

/-- The `node_value` accessor. The source dispatches on the 2 header tag bits
and then reads the matching union field (coherent by construction: the tag
always matches the stored union variant, see `claim_C8`); the model reads the
sum-type payload, which is that same coherent dispatch. -/
def CompiledTrieNode.node_value (n : CompiledTrieNode) : NodeValue :=
  match n.node_union with
  | .naive d => .naive d
  | .patricia d => .patricia d
  | .range d => .range d

/-- The `nb_siblings` accessor: bits 17..0 of the header. -/
def CompiledTrieNode.nb_siblings (n : CompiledTrieNode) : Nat :=
  getMaskedFlags n.nb_siblings_with_flags MASK_NB_SIBLINGS

/-- The `patricia_range` accessor: the substring length is bits 29..18 of the
header, the start index is the payload's; meaningful only for patricia nodes
(the source marks other uses undefined). -/
def CompiledTrieNode.patricia_range (n : CompiledTrieNode) : Nat × Nat :=
  let pat_str_len := getMaskedFlags n.nb_siblings_with_flags MASK_PAT_STR_LENGTH
  let start_index :=
    match n.node_union with
    | .patricia d => d.start_index
    | _ => 0
  (start_index, start_index + pat_str_len)

/-! ## Proofs of C6 and C8 (header bit-packing) -/

/-- C6: the checked constructors fail loudly exactly when the packed capacity
constraints are violated: a sibling count at or above 2^18, or a patricia
substring length at or above 2^12; every smaller combination succeeds. -/
theorem claim_C6_capacity_checks :
    (∀ (d : NaiveNode) (n : Nat),
      (CompiledTrieNode.new_naive_checked d n).isOk = true ↔ n < 2 ^ 18)
    ∧ (∀ (d : PatriciaNode) (n l : Nat),
      (CompiledTrieNode.new_patricia_checked d n l).isOk = true ↔
        n < 2 ^ 18 ∧ l < 2 ^ 12)
    ∧ (∀ (d : RangeNode) (n : Nat),
      (CompiledTrieNode.new_range_checked d n).isOk = true ↔ n < 2 ^ 18) := by
  refine ⟨?_, ?_, ?_⟩
  · intro d n
    unfold CompiledTrieNode.new_naive_checked
    split_ifs with h
    · simpa [Except.isOk, Except.toBool] using by omega
    · simpa [Except.isOk, Except.toBool] using by omega
  · intro d n l
    unfold CompiledTrieNode.new_patricia_checked
    split_ifs with h1 h2
    · simpa [Except.isOk, Except.toBool] using by omega
    · simpa [Except.isOk, Except.toBool] using by omega
    · simpa [Except.isOk, Except.toBool] using by omega
  · intro d n
    unfold CompiledTrieNode.new_range_checked
    split_ifs with h
    · simpa [Except.isOk, Except.toBool] using by omega
    · simpa [Except.isOk, Except.toBool] using by omega

/-- Trailing zeros of the sibling-count mask. -/
theorem trailingZeros32_MASK_NB : trailingZeros32 MASK_NB_SIBLINGS = 0 := by decide

/-- Trailing zeros of the substring-length mask. -/
theorem trailingZeros32_MASK_PAT : trailingZeros32 MASK_PAT_STR_LENGTH = 18 := by
  decide

/-- Trailing zeros of the variant-tag mask. -/
theorem trailingZeros32_MASK_TYPE : trailingZeros32 MASK_NODE_TYPE = 30 := by decide

/-- Masking with a shifted all-ones window extracts the corresponding bit
field in place. -/
theorem and_mask_window (x k s : Nat) :
    x &&& ((2 ^ k - 1) <<< s) = ((x >>> s) % 2 ^ k) <<< s := by
  apply Nat.eq_of_testBit_eq
  intro i
  simp only [Nat.testBit_and, Nat.testBit_shiftLeft, Nat.testBit_mod_two_pow,
    Nat.testBit_shiftRight, Nat.testBit_two_pow_sub_one]
  by_cases hsi : s ≤ i
  · have hadd : s + (i - s) = i := by omega
    simp only [hadd, ge_iff_le, hsi, decide_True, Bool.true_and]
    cases x.testBit i <;> cases (decide (i - s < k)) <;> simp
  · simp [hsi]

/-- Dropping an `s`-bit left shift with a right shift. -/
theorem shiftLeft_shiftRight_self (a s : Nat) : (a <<< s) >>> s = a := by
  rw [Nat.shiftLeft_eq, Nat.shiftRight_eq_div_pow]
  exact Nat.mul_div_cancel a (Nat.two_pow_pos s)

/-- Normal form of the `new_naive` header. -/
theorem header_new_naive (d : NaiveNode) (n : Nat) (hn : n < 2 ^ 18) :
    (CompiledTrieNode.new_naive d n).nb_siblings_with_flags = n := by
  show NODE_TYPE_NAIVE ||| valueToMask n MASK_NB_SIBLINGS = n
  unfold valueToMask
  rw [trailingZeros32_MASK_NB, Nat.shiftLeft_zero]
  have hm : MASK_NB_SIBLINGS = 2 ^ 18 - 1 := by decide
  rw [hm, Nat.and_pow_two_sub_one_eq_mod, Nat.mod_eq_of_lt hn]
  show 0 ||| n = n
  exact Nat.zero_or n

/-- Normal form of the `new_range` header. -/
theorem header_new_range (d : RangeNode) (n : Nat) (hn : n < 2 ^ 18) :
    (CompiledTrieNode.new_range d n).nb_siblings_with_flags = 2 ^ 31 + n := by
  show NODE_TYPE_RANGE ||| valueToMask n MASK_NB_SIBLINGS = 2 ^ 31 + n
  unfold valueToMask
  rw [trailingZeros32_MASK_NB, Nat.shiftLeft_zero]
  have hm : MASK_NB_SIBLINGS = 2 ^ 18 - 1 := by decide
  rw [hm, Nat.and_pow_two_sub_one_eq_mod, Nat.mod_eq_of_lt hn]
  have hlt : n < 2 ^ 31 := by omega
  have h := Nat.mul_add_lt_is_or hlt 1
  have htag : NODE_TYPE_RANGE = 2 ^ 31 * 1 := by decide
  rw [htag, ← h]
  omega

/-- Normal form of the `new_patricia` header. -/
theorem header_new_patricia (d : PatriciaNode) (n l : Nat) (hn : n < 2 ^ 18)
    (hl : l < 2 ^ 12) :
    (CompiledTrieNode.new_patricia d n l).nb_siblings_with_flags =
      2 ^ 30 + 2 ^ 18 * l + n := by
  show NODE_TYPE_PATRICIA ||| valueToMask n MASK_NB_SIBLINGS |||
      valueToMask l MASK_PAT_STR_LENGTH = 2 ^ 30 + 2 ^ 18 * l + n
  unfold valueToMask
  rw [trailingZeros32_MASK_NB, trailingZeros32_MASK_PAT, Nat.shiftLeft_zero]
  have hm : MASK_NB_SIBLINGS = 2 ^ 18 - 1 := by decide
  rw [hm, Nat.and_pow_two_sub_one_eq_mod, Nat.mod_eq_of_lt hn]
  have hmp : MASK_PAT_STR_LENGTH = (2 ^ 12 - 1) <<< 18 := by decide
  rw [hmp, and_mask_window, shiftLeft_shiftRight_self, Nat.mod_eq_of_lt hl]
  rw [Nat.lor_assoc, Nat.lor_comm n _, Nat.shiftLeft_eq]
  have h1 : 2 ^ 18 * l + n = l * 2 ^ 18 ||| n := by
    have := Nat.mul_add_lt_is_or hn l
    calc 2 ^ 18 * l + n = 2 ^ 18 * l ||| n := Nat.mul_add_lt_is_or hn l
    _ = l * 2 ^ 18 ||| n := by rw [Nat.mul_comm]
  rw [← h1]
  have h2 : 2 ^ 18 * l + n < 2 ^ 30 := by
    have : l ≤ 2 ^ 12 - 1 := by omega
    have : 2 ^ 18 * l ≤ 2 ^ 18 * (2 ^ 12 - 1) := by
      exact Nat.mul_le_mul_left _ this
    omega
  have h3 := Nat.mul_add_lt_is_or h2 1
  have htag : NODE_TYPE_PATRICIA = 2 ^ 30 * 1 := by decide
  rw [htag, ← h3]
  omega

/-- Sibling-count recovery for `new_naive`. -/
theorem nb_siblings_new_naive (d : NaiveNode) (n : Nat) (hn : n < 2 ^ 18) :
    (CompiledTrieNode.new_naive d n).nb_siblings = n := by
  unfold CompiledTrieNode.nb_siblings getMaskedFlags
  rw [trailingZeros32_MASK_NB, header_new_naive d n hn, Nat.shiftRight_zero]
  have hm : MASK_NB_SIBLINGS = 2 ^ 18 - 1 := by decide
  rw [hm, Nat.and_pow_two_sub_one_eq_mod, Nat.mod_eq_of_lt hn]

/-- Sibling-count recovery for `new_patricia`. -/
theorem nb_siblings_new_patricia (d : PatriciaNode) (n l : Nat) (hn : n < 2 ^ 18)
    (hl : l < 2 ^ 12) :
    (CompiledTrieNode.new_patricia d n l).nb_siblings = n := by
  unfold CompiledTrieNode.nb_siblings getMaskedFlags
  rw [trailingZeros32_MASK_NB, header_new_patricia d n l hn hl, Nat.shiftRight_zero]
  have hm : MASK_NB_SIBLINGS = 2 ^ 18 - 1 := by decide
  rw [hm, Nat.and_pow_two_sub_one_eq_mod]
  omega

/-- Sibling-count recovery for `new_range`. -/
theorem nb_siblings_new_range (d : RangeNode) (n : Nat) (hn : n < 2 ^ 18) :
    (CompiledTrieNode.new_range d n).nb_siblings = n := by
  unfold CompiledTrieNode.nb_siblings getMaskedFlags
  rw [trailingZeros32_MASK_NB, header_new_range d n hn, Nat.shiftRight_zero]
  have hm : MASK_NB_SIBLINGS = 2 ^ 18 - 1 := by decide
  rw [hm, Nat.and_pow_two_sub_one_eq_mod]
  omega

/-- Tag bits of a `new_naive` header. -/
theorem tag_new_naive (d : NaiveNode) (n : Nat) (hn : n < 2 ^ 18) :
    (CompiledTrieNode.new_naive d n).nb_siblings_with_flags &&& MASK_NODE_TYPE =
      NODE_TYPE_NAIVE := by
  rw [header_new_naive d n hn]
  have hm : MASK_NODE_TYPE = (2 ^ 2 - 1) <<< 30 := by decide
  rw [hm, and_mask_window, Nat.shiftRight_eq_div_pow]
  have h0 : n / 2 ^ 30 = 0 := Nat.div_eq_of_lt (by omega)
  rw [h0]
  decide

/-- Tag bits of a `new_patricia` header. -/
theorem tag_new_patricia (d : PatriciaNode) (n l : Nat) (hn : n < 2 ^ 18)
    (hl : l < 2 ^ 12) :
    (CompiledTrieNode.new_patricia d n l).nb_siblings_with_flags &&& MASK_NODE_TYPE =
      NODE_TYPE_PATRICIA := by
  rw [header_new_patricia d n l hn hl]
  have hm : MASK_NODE_TYPE = (2 ^ 2 - 1) <<< 30 := by decide
  rw [hm, and_mask_window, Nat.shiftRight_eq_div_pow]
  have h0 : (2 ^ 30 + 2 ^ 18 * l + n) / 2 ^ 30 = 1 := by
    have : 2 ^ 18 * l ≤ 2 ^ 18 * (2 ^ 12 - 1) := Nat.mul_le_mul_left _ (by omega)
    omega
  rw [h0]
  decide

/-- Tag bits of a `new_range` header. -/
theorem tag_new_range (d : RangeNode) (n : Nat) (hn : n < 2 ^ 18) :
    (CompiledTrieNode.new_range d n).nb_siblings_with_flags &&& MASK_NODE_TYPE =
      NODE_TYPE_RANGE := by
  rw [header_new_range d n hn]
  have hm : MASK_NODE_TYPE = (2 ^ 2 - 1) <<< 30 := by decide
  rw [hm, and_mask_window, Nat.shiftRight_eq_div_pow]
  have h0 : (2 ^ 31 + n) / 2 ^ 30 = 2 := by omega
  rw [h0]
  decide

/-- Substring-length recovery from a `new_patricia` header. -/
theorem pat_len_new_patricia (d : PatriciaNode) (n l : Nat) (hn : n < 2 ^ 18)
    (hl : l < 2 ^ 12) :
    getMaskedFlags (CompiledTrieNode.new_patricia d n l).nb_siblings_with_flags
      MASK_PAT_STR_LENGTH = l := by
  unfold getMaskedFlags
  rw [trailingZeros32_MASK_PAT, header_new_patricia d n l hn hl]
  have hmp : MASK_PAT_STR_LENGTH = (2 ^ 12 - 1) <<< 18 := by decide
  rw [hmp, and_mask_window, shiftLeft_shiftRight_self, Nat.shiftRight_eq_div_pow]
  omega

/-- The `patricia_range` accessor recovers the stored start index and length. -/
theorem patricia_range_new_patricia (d : PatriciaNode) (n l : Nat)
    (hn : n < 2 ^ 18) (hl : l < 2 ^ 12) :
    (CompiledTrieNode.new_patricia d n l).patricia_range =
      (d.start_index, d.start_index + l) := by
  unfold CompiledTrieNode.patricia_range
  rw [pat_len_new_patricia d n l hn hl]
  rfl

/-- C8: for every sibling count `n < 2^18` and substring length `l < 2^12`,
the constructors pack the variant tag into bits 31..30 (`00` naive, `01`
substring, `10` range), the substring length into bits 29..18 and the sibling
count into bits 17..0 of the 32-bit header, and the accessors recover them:
`nb_siblings()` returns `n`, `node_value()` the constructed variant, and
`patricia_range()` the range of length `l` from the stored start index. -/
theorem claim_C8_header_packing :
    ∀ (n l : Nat) (dn : NaiveNode) (dp : PatriciaNode) (dr : RangeNode),
    n < 2 ^ 18 → l < 2 ^ 12 →
    ((CompiledTrieNode.new_naive dn n).nb_siblings_with_flags &&& MASK_NODE_TYPE =
        NODE_TYPE_NAIVE
      ∧ (CompiledTrieNode.new_patricia dp n l).nb_siblings_with_flags &&&
          MASK_NODE_TYPE = NODE_TYPE_PATRICIA
      ∧ (CompiledTrieNode.new_range dr n).nb_siblings_with_flags &&&
          MASK_NODE_TYPE = NODE_TYPE_RANGE)
    ∧ getMaskedFlags (CompiledTrieNode.new_patricia dp n l).nb_siblings_with_flags
        MASK_PAT_STR_LENGTH = l
    ∧ ((CompiledTrieNode.new_naive dn n).nb_siblings = n
      ∧ (CompiledTrieNode.new_patricia dp n l).nb_siblings = n
      ∧ (CompiledTrieNode.new_range dr n).nb_siblings = n)
    ∧ ((CompiledTrieNode.new_naive dn n).node_value = .naive dn
      ∧ (CompiledTrieNode.new_patricia dp n l).node_value = .patricia dp
      ∧ (CompiledTrieNode.new_range dr n).node_value = .range dr)
    ∧ (CompiledTrieNode.new_patricia dp n l).patricia_range =
        (dp.start_index, dp.start_index + l) := by
  intro n l dn dp dr hn hl
  exact ⟨⟨tag_new_naive dn n hn, tag_new_patricia dp n l hn hl,
      tag_new_range dr n hn⟩,
    pat_len_new_patricia dp n l hn hl,
    ⟨nb_siblings_new_naive dn n hn, nb_siblings_new_patricia dp n l hn hl,
      nb_siblings_new_range dr n hn⟩,
    ⟨rfl, rfl, rfl⟩,
    patricia_range_new_patricia dp n l hn hl⟩

/-- Witness for C8 at concrete values. -/
theorem claim_C8_header_packing_witness :
    (3 < 2 ^ 18 ∧ 6 < 2 ^ 12) ∧
    ((CompiledTrieNode.new_naive ⟨none, none, 98⟩ 3).nb_siblings = 3
      ∧ (CompiledTrieNode.new_patricia ⟨none, none, 40⟩ 3 6).patricia_range =
          (40, 46)) := by
  refine ⟨⟨by decide, by decide⟩, ?_, ?_⟩
  · exact (claim_C8_header_packing 3 6 ⟨none, none, 98⟩ ⟨none, none, 40⟩
      ⟨98, 0, 5⟩ (by decide) (by decide)).2.2.1.1
  · exact (claim_C8_header_packing 3 6 ⟨none, none, 98⟩ ⟨none, none, 40⟩
      ⟨98, 0, 5⟩ (by decide) (by decide)).2.2.2.2

/-! ## Compiled trie container (vague-search-core/src/trie/compiled_trie.rs) -/

/-- The compiled trie: the three parallel arrays. -/
structure CompiledTrie where
  nodes : List CompiledTrieNode
  chars : List Nat
  ranges : List RangeElement
deriving DecidableEq, Repr, Inhabited

/-- The `get_siblings_unchecked` accessor: the node at `index` and its right
siblings, `nodes[index .. index + nb_siblings + 1]`. -/
def CompiledTrie.get_siblings_unchecked (t : CompiledTrie) (index : Nat) :
    List CompiledTrieNode :=
  let first_node := t.nodes.getD index default
  (t.nodes.drop index).take (first_node.nb_siblings + 1)

/-- The `get_root_siblings` accessor: `None` iff the trie is empty. -/
def CompiledTrie.get_root_siblings (t : CompiledTrie) :
    Option (List CompiledTrieNode) :=
  if t.nodes.isEmpty then none else some (t.get_siblings_unchecked 0)

/-- The `get_siblings` accessor. -/
def CompiledTrie.get_siblings (t : CompiledTrie) (index : Nat) :
    List CompiledTrieNode :=
  t.get_siblings_unchecked index

/-- The `get_chars` accessor: the substring `chars[start..end]`, empty when
`start >= end`. -/
def CompiledTrie.get_chars (t : CompiledTrie) (s e : Nat) : List Nat :=
  if s ≥ e then [] else (t.chars.drop s).take (e - s)

/-- The `get_char_unchecked` accessor: the character starting at the index. -/
def CompiledTrie.get_char_unchecked (t : CompiledTrie) (i : Nat) : Nat :=
  (t.chars.drop i).headD 0

/-- The `get_range` accessor: the slab `ranges[start..end]`, empty when
`start >= end`. -/
def CompiledTrie.get_range (t : CompiledTrie) (s e : Nat) : List RangeElement :=
  if s ≥ e then [] else (t.ranges.drop s).take (e - s)

/-- The `get_range_element_unchecked` accessor. -/
def CompiledTrie.get_range_element_unchecked (t : CompiledTrie)
    (start off : Nat) : RangeElement :=
  t.ranges.getD (start + off) default

/-! ## Exact search (src/src/search_exact.rs) -/

/-- The `compare_keys` comparator of the exact-search descent: a naive node
compares its character with the query character, a patricia node its first
substring character, and a range node classifies the query character against
the interval `[first_char, first_char + range_len)`. -/
def compare_keys (trie_node : CompiledTrieNode) (node_value : NodeValue)
    (character : Nat) (trie : CompiledTrie) : Ordering :=
  match node_value with
  | .naive node => compare node.character character
  | .patricia _ =>
      let pat_range := trie_node.patricia_range
      compare (trie.get_char_unchecked pat_range.1) character
  | .range node =>
      let range_len := node.end_index - node.start_index
      if node.first_char > character then .gt
      else if node.first_char + range_len ≤ character then .lt
      else .eq

/-- The custom binary-search loop of `search_child` (derived from the std
slice search): window `[base, base + size)`, shrinking while `size > 1`.
Fuel bounds the iteration count (the window provably shrinks). -/
def search_child_loop (trie : CompiledTrie) (children : List CompiledTrieNode)
    (first_char : Nat) : Nat → Nat → Nat → Option (CompiledTrieNode × NodeValue)
  | 0, _, _ => none
  | fuel + 1, base, size =>
      if 1 < size then
        let half := size / 2
        let mid := base + half
        let trie_node := children.getD mid default
        let node_value := trie_node.node_value
        match compare_keys trie_node node_value first_char trie with
        | .lt => search_child_loop trie children first_char fuel mid (size - half)
        | .eq => some (trie_node, node_value)
        | .gt => search_child_loop trie children first_char fuel base (size - half)
      else
        let trie_node := children.getD base default
        let node_value := trie_node.node_value
        if compare_keys trie_node node_value first_char trie = .eq then
          some (trie_node, node_value)
        else none

/-- The `search_child` binary search over a sibling slice. -/
def search_child (trie : CompiledTrie) (children : List CompiledTrieNode)
    (first_char : Nat) : Option (CompiledTrieNode × NodeValue) :=
  search_child_loop trie children first_char (children.length + 1) 0
    children.length

/-- The descent loop of `search_exact_children`. One fuel unit per loop
iteration; under the well-formed tries produced by the compiler each
iteration consumes at least one query character, so `word.length` fuel is
exact. -/
def search_exact_children (trie : CompiledTrie) : Nat → List Nat →
    List CompiledTrieNode → Option Nat
  | 0, _, _ => none
  | fuel + 1, word, children =>
      match word.head? with
      | none => none
      | some first_char =>
          match search_child trie children first_char with
          | none => none
          | some (child, child_value) =>
              let step :
                  Option (Option Nat × Option Nat × Nat) :=
                match child_value with
                | .naive node => some (node.index_first_child, node.word_freq, 1)
                | .patricia _ =>
                    let pr := child.patricia_range
                    let chars := trie.get_chars pr.1 pr.2
                    if chars.isPrefixOf word then
                      match child_value with
                      | .patricia node =>
                          some (node.index_first_child, node.word_freq,
                            chars.length)
                      | _ => none
                    else none
                | .range node =>
                    let relem := trie.get_range_element_unchecked
                      node.start_index (first_char - node.first_char)
                    some (relem.index_first_child, relem.word_freq, 1)
              match step with
              | none => none
              | some (index_first_child, word_freq, substr_len) =>
                  let word' := word.drop substr_len
                  if word'.isEmpty then word_freq
                  else
                    match index_first_child with
                    | none => none
                    | some i =>
                        search_exact_children trie fuel word'
                          (trie.get_siblings i)

/-- The `search_exact` entry point (`index` selects a starting layer). -/
def search_exact (trie : CompiledTrie) (word : List Nat) (index : Option Nat) :
    Option Nat :=
  match index with
  | none =>
      match trie.get_root_siblings with
      | none => none
      | some children => search_exact_children trie word.length word children
  | some i => search_exact_children trie word.length word (trie.get_siblings i)

/-- C5: the sibling comparator of the exact-search descent. For a range node
it returns `Less` exactly when the query character is at or past
`first_char + range_length`, `Greater` exactly when it is strictly below
`first_char`, and `Equal` exactly inside `[first_char, first_char +
range_length)`; naive and patricia (substring) nodes return the ordering of
the node's (first) character versus the query character. -/
theorem claim_C5_compare_keys :
    (∀ (tn : CompiledTrieNode) (node : NaiveNode) (c : Nat) (trie : CompiledTrie),
      compare_keys tn (.naive node) c trie = compare node.character c)
    ∧ (∀ (tn : CompiledTrieNode) (node : PatriciaNode) (c : Nat)
        (trie : CompiledTrie),
      compare_keys tn (.patricia node) c trie =
        compare (trie.get_char_unchecked tn.patricia_range.1) c)
    ∧ (∀ (tn : CompiledTrieNode) (node : RangeNode) (c : Nat)
        (trie : CompiledTrie),
      (compare_keys tn (.range node) c trie = .lt ↔
        node.first_char + (node.end_index - node.start_index) ≤ c)
      ∧ (compare_keys tn (.range node) c trie = .gt ↔ c < node.first_char)
      ∧ (compare_keys tn (.range node) c trie = .eq ↔
        node.first_char ≤ c ∧
          c < node.first_char + (node.end_index - node.start_index))) := by
  refine ⟨fun _ _ _ _ => rfl, fun _ _ _ _ => rfl, ?_⟩
  intro tn node c trie
  have hck : compare_keys tn (.range node) c trie =
      if node.first_char > c then Ordering.gt
      else if node.first_char + (node.end_index - node.start_index) ≤ c then
        Ordering.lt
      else Ordering.eq := rfl
  rw [hck]
  refine ⟨?_, ?_, ?_⟩ <;> split_ifs with h1 h2 <;> constructor <;> intro h <;>
    first
      | rfl
      | omega
      | (exact absurd h (by decide))

/-! ## Layer stack (src/src/layer_stack.rs)

The element buffer, the per-layer sizes and the concatenated word are Rust
`Vec`s / `String`; they are modelled as lists whose *end* is the stack top,
so `push` is an append and `pop` drops the last entry. -/

/-- The `LayerStack` of distance rows. -/
structure LayerStack where
  elements : List Nat
  layers : List Nat
  word : List Nat
deriving DecidableEq, Repr, Inhabited

/-- The empty layer stack (a cleared, reusable buffer). -/
def emptyLayerStack : LayerStack := ⟨[], [], []⟩

/-- The `push_layer` operation, with the layer's contents already computed
(the source pushes `size` default cells and then overwrites every cell via
`compute_layer`; pushing the computed row is the composition of the two). -/
def LayerStack.push_computed (ls : LayerStack) (layer_char : Option Nat)
    (row : List Nat) : LayerStack where
  elements := ls.elements ++ row
  layers := ls.layers ++ [row.length]
  word :=
    match layer_char with
    | some ch => ls.word ++ [ch]
    | none => ls.word

/-- The `pop_layer` operation: drop the top layer's cells, its size entry and
its character. -/
def LayerStack.pop_layer (ls : LayerStack) : LayerStack :=
  match ls.layers.getLast? with
  | none => ls
  | some size =>
      { elements := ls.elements.take (ls.elements.length - size)
        layers := ls.layers.dropLast
        word := ls.word.dropLast }

/-- The `fetch_layer` operation: the top layer as a slice. -/
def LayerStack.fetch_layer (ls : LayerStack) : Option (List Nat) :=
  match ls.layers.getLast? with
  | none => none
  | some size => some (ls.elements.drop (ls.elements.length - size))

/-- The top layer of the stack, empty when there is none (the `last_layer`
slice that `fetch_last_3_layers` hands to `compute_layer` right after the new
layer is pushed). -/
def LayerStack.top_layer (ls : LayerStack) : List Nat :=
  (ls.fetch_layer).getD []

/-- The layer below the top, empty when there is none (the `parent_layer`
slice of `fetch_last_3_layers`). -/
def LayerStack.second_layer (ls : LayerStack) : List Nat :=
  match ls.layers.reverse with
  | csize :: lsize :: _ =>
      let n := ls.elements.length
      (ls.elements.take (n - csize)).drop (n - csize - lsize)
  | _ => []

/-! ## Approximate search (src/src/search_approx.rs) -/

/-- An `IterationElement` of the iteration stack. -/
structure IterationElement where
  node : CompiledTrieNode
  last_char : Option Nat
  range_offset : Nat
deriving DecidableEq, Repr

/-- The iteration stack; `none` is the end-of-layer dummy element. The list
end is the stack top. -/
abbrev IterationStack := List (Option IterationElement)

/-- A found word of the result buffer. -/
structure FoundWord where
  word : List Nat
  freq : Nat
  dist : Nat
deriving DecidableEq, Repr

/-- The `push_layer_nodes` helper: push an end-of-layer dummy, then the nodes
in reverse so that they pop in order. -/
def push_layer_nodes (iter_stack : IterationStack)
    (nodes : List CompiledTrieNode) (last_char : Option Nat) : IterationStack :=
  (iter_stack ++ [none]) ++
    (nodes.reverse.map (fun n => some ⟨n, last_char, 0⟩))

/-- The `push_first_layer` helper: the row `[0, 1, ..., char_count]`. -/
def push_first_layer (ls : LayerStack) (layer_char : Option Nat)
    (char_count : Nat) : LayerStack :=
  ls.push_computed layer_char (List.range (char_count + 1))

/-- The `push_layers_naive` helper: one computed row for the node's single
character. -/
def push_layers_naive (node : NaiveNode) (iter_elem : IterationElement)
    (word : List Nat) (layer_stack : LayerStack) : LayerStack :=
  let row := computeLayer layer_stack.top_layer layer_stack.second_layer word
    iter_elem.last_char node.character
  layer_stack.push_computed (some node.character) row

/-- The `push_layers_patricia` helper: one computed row per substring
character, an end-of-layer dummy after each, dropping the trailing dummy when
the substring has more than one character (the driver consumes one at
return). -/
def push_layers_patricia (iter_elem : IterationElement) (word : List Nat)
    (layer_stack : LayerStack) (iter_stack : IterationStack)
    (trie : CompiledTrie) : LayerStack × IterationStack :=
  let range_chars := iter_elem.node.patricia_range
  let pat_chars := trie.get_chars range_chars.1 range_chars.2
  let step := fun (acc : LayerStack × IterationStack × Option Nat) (ch : Nat) =>
    let (ls, istk, last_char) := acc
    let row := computeLayer ls.top_layer ls.second_layer word last_char ch
    (ls.push_computed (some ch) row, istk ++ [none], some ch)
  let folded := pat_chars.foldl step (layer_stack, iter_stack, iter_elem.last_char)
  let has_multiple_chars := 1 < pat_chars.length
  if has_multiple_chars then (folded.1, folded.2.1.dropLast)
  else (folded.1, folded.2.1)

/-- The `find_next_range_node` helper: index of the next present range
element at or after the given index. -/
def find_next_range_node (trie_ranges : List RangeElement)
    (current_range_index : Nat) : Option Nat :=
  match (trie_ranges.drop current_range_index).findIdx?
      (fun n => n.index_first_child.isSome || n.word_freq.isSome) with
  | none => none
  | some pos => some (current_range_index + pos)

/-- The `is_last_index_of_range` helper. -/
def is_last_index_of_range (index : Nat) (range_node : RangeNode) : Bool :=
  let range_len := range_node.end_index - range_node.start_index
  decide (index + 1 ≥ range_len)

/-- The `push_layers_range` helper: one computed row for the current range
character; when present elements remain, push the sibling visit with the next
present offset (no dummy: same layer). -/
def push_layers_range (node : RangeNode) (iter_elem : IterationElement)
    (word : List Nat) (layer_stack : LayerStack) (iter_stack : IterationStack)
    (trie : CompiledTrie) : LayerStack × IterationStack :=
  let cur_trie_char := node.first_char + iter_elem.range_offset
  let row := computeLayer layer_stack.top_layer layer_stack.second_layer word
    iter_elem.last_char cur_trie_char
  let ls := layer_stack.push_computed (some cur_trie_char) row
  if is_last_index_of_range iter_elem.range_offset node then (ls, iter_stack)
  else
    let trie_ranges := trie.get_range node.start_index node.end_index
    let next_possible_i := iter_elem.range_offset + 1
    match find_next_range_node trie_ranges next_possible_i with
    | some next_elem_i =>
        (ls, iter_stack ++ [some { iter_elem with range_offset := next_elem_i }])
    | none => (ls, iter_stack)

/-- The `push_layers_current_node` dispatch. -/
def push_layers_current_node (iter_elem : IterationElement) (word : List Nat)
    (trie : CompiledTrie) (layer_stack : LayerStack)
    (iter_stack : IterationStack) : LayerStack × IterationStack :=
  match iter_elem.node.node_value with
  | .naive n => (push_layers_naive n iter_elem word layer_stack, iter_stack)
  | .patricia _ => push_layers_patricia iter_elem word layer_stack iter_stack trie
  | .range n => push_layers_range n iter_elem word layer_stack iter_stack trie

/-- The `get_node_frequency` helper. -/
def get_node_frequency (iter_elem : IterationElement) (trie : CompiledTrie) :
    Option Nat :=
  match iter_elem.node.node_value with
  | .naive n => n.word_freq
  | .patricia n => n.word_freq
  | .range n =>
      let slice := trie.get_range n.start_index n.end_index
      (slice.getD iter_elem.range_offset default).word_freq

/-- The `get_current_distance` helper: the row's last cell. -/
def get_current_distance (cur_layer : List Nat) : Nat :=
  cur_layer.getLast?.getD 0

/-- The `check_add_word_to_result` helper. -/
def check_add_word_to_result (iter_elem : IterationElement)
    (cur_layer : List Nat) (dist_max : Nat) (layer_word : List Nat)
    (trie : CompiledTrie) (result_buffer : List FoundWord) : List FoundWord :=
  let dist := get_current_distance cur_layer
  if dist ≤ dist_max then
    match get_node_frequency iter_elem trie with
    | some freq => result_buffer ++ [⟨layer_word, freq, dist⟩]
    | none => result_buffer
  else result_buffer

/-- The `get_node_children` helper. -/
def get_node_children (trie : CompiledTrie) (iter_elem : IterationElement) :
    List CompiledTrieNode :=
  let index :=
    match iter_elem.node.node_value with
    | .naive n => n.index_first_child
    | .patricia n => n.index_first_child
    | .range n =>
        let slice := trie.get_range n.start_index n.end_index
        (slice.getD iter_elem.range_offset default).index_first_child
  match index with
  | none => []
  | some i => trie.get_siblings i

/-- The `get_current_last_char` helper. -/
def get_current_last_char (trie : CompiledTrie) (iter_elem : IterationElement) :
    Nat :=
  match iter_elem.node.node_value with
  | .naive n => n.character
  | .patricia _ =>
      let pat_range := iter_elem.node.patricia_range
      (trie.get_chars pat_range.1 pat_range.2).getLast?.getD 0
  | .range n => n.first_char + iter_elem.range_offset

/-- The exact-search bailout of the `Ordering::Equal` branch: for each
threshold-equal position, exact-search the query suffix from that position
among the children; each hit is appended with the threshold as distance.
Positions at the end of the word are skipped (`char_indices().nth` returns
`None`; that case was already handled by `check_add_word_to_result`). -/
def equal_bailout (trie : CompiledTrie) (word : List Nat) (dist_max : Nat)
    (layer_word : List Nat) (children : List CompiledTrieNode)
    (equals : List Nat) (result_buffer : List FoundWord) : List FoundWord :=
  equals.foldl
    (fun buf equal_i =>
      if equal_i < word.length then
        let subword_to_search := word.drop equal_i
        match search_exact_children trie subword_to_search.length
            subword_to_search children with
        | some freq => buf ++ [⟨layer_word ++ subword_to_search, freq, dist_max⟩]
        | none => buf
      else buf)
    result_buffer

/-- The driver loop of `search_approx`: pop the top iteration element; a
dummy pops one layer; a node visit pushes its rows, may add its word, then
descends, bails out to exact search, or prunes according to the row minimum
versus the threshold. Note that the `Ordering::Equal` arm of the source does
not pop the current row. One fuel unit per loop iteration. -/
def search_approx_loop (trie : CompiledTrie) (word : List Nat)
    (dist_max : Nat) : Nat → LayerStack → IterationStack → List FoundWord →
    Option (List FoundWord)
  | 0, _, _, _ => none
  | fuel + 1, layer_stack, iter_stack, result_buffer =>
      match iter_stack.getLast? with
      | none => some result_buffer
      | some iter_elem_opt =>
          let iter_stack := iter_stack.dropLast
          match iter_elem_opt with
          | none =>
              search_approx_loop trie word dist_max fuel layer_stack.pop_layer
                iter_stack result_buffer
          | some iter_elem =>
              let pushed := push_layers_current_node iter_elem word trie
                layer_stack iter_stack
              let layer_stack := pushed.1
              let iter_stack := pushed.2
              let cur_layer := layer_stack.fetch_layer.getD []
              let layer_word := layer_stack.word
              let result_buffer := check_add_word_to_result iter_elem cur_layer
                dist_max layer_word trie result_buffer
              let children := get_node_children trie iter_elem
              if children.isEmpty then
                search_approx_loop trie word dist_max fuel layer_stack.pop_layer
                  iter_stack result_buffer
              else
                match cmpMinWithMaxDist cur_layer dist_max with
                | (.lt, _) =>
                    let last_char := get_current_last_char trie iter_elem
                    let iter_stack := push_layer_nodes iter_stack children
                      (some last_char)
                    search_approx_loop trie word dist_max fuel layer_stack
                      iter_stack result_buffer
                | (.eq, equals) =>
                    let result_buffer := equal_bailout trie word dist_max
                      layer_word children equals result_buffer
                    search_approx_loop trie word dist_max fuel layer_stack
                      iter_stack result_buffer
                | (.gt, _) =>
                    search_approx_loop trie word dist_max fuel
                      layer_stack.pop_layer iter_stack result_buffer

/-- The `search_approx` entry point: early return of the untouched result
buffer for the empty query; otherwise seed both stacks with the root layer
and run the driver loop. -/
def search_approx (fuel : Nat) (trie : CompiledTrie) (word : List Nat)
    (dist_max : Nat) (layer_stack : LayerStack) (iter_stack : IterationStack)
    (result_buffer : List FoundWord) : Option (List FoundWord) :=
  if word.isEmpty then some result_buffer
  else
    match trie.get_root_siblings with
    | none => none
    | some roots =>
        let word_char_count := word.length
        let iter_stack := push_layer_nodes iter_stack roots none
        let layer_stack := push_first_layer layer_stack none word_char_count
        search_approx_loop trie word dist_max fuel layer_stack iter_stack
          result_buffer

/-- C9: approximate search of the empty query returns the result buffer
unchanged (the early return fires before any trie traversal), for every trie,
threshold, buffer and fuel. -/
theorem claim_C9_empty_query (fuel : Nat) (trie : CompiledTrie)
    (dist_max : Nat) (layer_stack : LayerStack) (iter_stack : IterationStack)
    (result_buffer : List FoundWord) :
    search_approx fuel trie [] dist_max layer_stack iter_stack result_buffer =
      some result_buffer := rfl

/-- A well-formed compiled trie storing the dictionary `{("ab", 1), ("z", 2)}`
with naive nodes only: a root layer `'a'` (not a word, child `'b'` of
frequency 1) and `'z'` (frequency 2). It is laid out by hand — the compiler
itself would merge the single-word chain "ab" into a patricia node — but it is
a valid compiled trie (its exact search yields exactly that dictionary), and
the same missing-pop bug also fires on compiler-produced tries such as the
compile of `{("ab", 1), ("ac", 2), ("z", 5)}`. -/
def trieAbz : CompiledTrie where
  nodes :=
    [ CompiledTrieNode.new_naive ⟨some 2, none, 97⟩ 1,
      CompiledTrieNode.new_naive ⟨none, some 2, 122⟩ 0,
      CompiledTrieNode.new_naive ⟨none, some 1, 98⟩ 0 ]
  chars := []
  ranges := []

/-- C3 fails on the code: on the trie above (dictionary `{("ab", 1), ("z", 2)}`
as naive nodes) and
query "bz", threshold 1 returns the single result `("az", freq 2, dist 1)` —
a string that is not even a dictionary word, produced because the
`Ordering::Equal` bailout arm forgets to pop the current row, corrupting the
layer stack for the following sibling — while threshold 2 ≥ 1 returns
`[("ab", 1, 2), ("z", 2, 1)]`, which does not contain `("az", 2, 1)`; so a
result returned at threshold 1 is not returned at threshold 2. -/
theorem claim_C3_monotonicity_failure :
    (1 : Nat) ≤ 2
    ∧ search_approx 64 trieAbz (strCp "bz") 1 emptyLayerStack [] [] =
        some [⟨strCp "az", 2, 1⟩]
    ∧ search_approx 64 trieAbz (strCp "bz") 2 emptyLayerStack [] [] =
        some [⟨strCp "ab", 1, 2⟩, ⟨strCp "z", 2, 1⟩]
    ∧ (⟨strCp "az", 2, 1⟩ : FoundWord) ∉
        [(⟨strCp "ab", 1, 2⟩ : FoundWord), ⟨strCp "z", 2, 1⟩]
    ∧ search_exact trieAbz (strCp "az") none = none := by
  refine ⟨by decide, by decide, by decide, by decide, by decide⟩

/-! ## Dictionary file (vague-search-core/src/dictionary_file.rs)

The file is modelled as a list of bytes. Fixed-size records are encoded
little-endian in the declaration order of their Rust struct fields;
`Option<NonZeroU32>` fields use the all-zero niche for `None` (as the
specification's file format states). -/

/-- Little-endian bytes of a 32-bit value. -/
def u32LE (n : Nat) : List Nat :=
  [n % 256, n / 2 ^ 8 % 256, n / 2 ^ 16 % 256, n / 2 ^ 24 % 256]

/-- Little-endian bytes of a 64-bit (`usize`) value. -/
def u64LE (n : Nat) : List Nat :=
  [n % 256, n / 2 ^ 8 % 256, n / 2 ^ 16 % 256, n / 2 ^ 24 % 256,
   n / 2 ^ 32 % 256, n / 2 ^ 40 % 256, n / 2 ^ 48 % 256, n / 2 ^ 56 % 256]

/-- Little-endian value of a byte list. -/
def leVal (bytes : List Nat) : Nat :=
  bytes.foldr (fun b acc => b + 256 * acc) 0

/-- Encoding of an `Option` index/frequency (all-zero means absent). -/
def optU32LE (o : Option Nat) : List Nat := u32LE (o.getD 0)

/-- Decoding of an `Option` index/frequency. -/
def decodeOpt (n : Nat) : Option Nat := if n = 0 then none else some n

/-- The 16-byte record of a `CompiledTrieNode`: 4-byte header, then the
12-byte union payload. -/
def encodeNode (n : CompiledTrieNode) : List Nat :=
  u32LE n.nb_siblings_with_flags ++
    match n.node_union with
    | .naive d =>
        optU32LE d.index_first_child ++ optU32LE d.word_freq ++ u32LE d.character
    | .patricia d =>
        optU32LE d.index_first_child ++ optU32LE d.word_freq ++
          u32LE d.start_index
    | .range d => u32LE d.first_char ++ u32LE d.start_index ++ u32LE d.end_index

/-- Decoding of a 16-byte node record; the union variant is recovered from
the header's tag bits. -/
def decodeNode (bytes : List Nat) : Option CompiledTrieNode :=
  let header := leVal (bytes.take 4)
  let f1 := leVal ((bytes.drop 4).take 4)
  let f2 := leVal ((bytes.drop 8).take 4)
  let f3 := leVal ((bytes.drop 12).take 4)
  let tag := header &&& MASK_NODE_TYPE
  if tag = NODE_TYPE_NAIVE then
    some ⟨header, .naive ⟨decodeOpt f1, decodeOpt f2, f3⟩⟩
  else if tag = NODE_TYPE_PATRICIA then
    some ⟨header, .patricia ⟨decodeOpt f1, decodeOpt f2, f3⟩⟩
  else if tag = NODE_TYPE_RANGE then
    some ⟨header, .range ⟨f1, f2, f3⟩⟩
  else none

/-- The 8-byte record of a `RangeElement`. -/
def encodeRangeElement (e : RangeElement) : List Nat :=
  optU32LE e.index_first_child ++ optU32LE e.word_freq

/-- Decoding of an 8-byte range-element record. -/
def decodeRangeElement (bytes : List Nat) : RangeElement :=
  ⟨decodeOpt (leVal (bytes.take 4)), decodeOpt (leVal ((bytes.drop 4).take 4))⟩

/-- UTF-8 bytes of one code point (what `str::as_bytes` stores). -/
def utf8EncodeChar (c : Nat) : List Nat :=
  if c < 0x80 then [c]
  else if c < 0x800 then [0xC0 ||| (c >>> 6), 0x80 ||| (c &&& 0x3F)]
  else if c < 0x10000 then
    [0xE0 ||| (c >>> 12), 0x80 ||| ((c >>> 6) &&& 0x3F), 0x80 ||| (c &&& 0x3F)]
  else
    [0xF0 ||| (c >>> 18), 0x80 ||| ((c >>> 12) &&& 0x3F),
     0x80 ||| ((c >>> 6) &&& 0x3F), 0x80 ||| (c &&& 0x3F)]

/-- The dictionary file header: the three array lengths, 8 bytes each. -/
structure Header where
  nb_nodes : Nat
  nb_chars : Nat
  nb_ranges : Nat
deriving DecidableEq, Repr

/-- The `write_file` path: header, then the node records, then the UTF-8
bytes of the character string (`nb_chars` is its **byte** count, by
`str::len`), then the range-element records. -/
def write_file (trie : CompiledTrie) : List Nat :=
  let char_bytes := (trie.chars.map utf8EncodeChar).flatten
  let header : Header :=
    ⟨trie.nodes.length, char_bytes.length, trie.ranges.length⟩
  u64LE header.nb_nodes ++ u64LE header.nb_chars ++ u64LE header.nb_ranges ++
    (trie.nodes.map encodeNode).flatten ++ char_bytes ++
    (trie.ranges.map encodeRangeElement).flatten

/-- Decode `k` node records of 16 bytes each. -/
def decodeNodes : Nat → List Nat → Option (List CompiledTrieNode)
  | 0, _ => some []
  | k + 1, bytes =>
      match decodeNode (bytes.take 16), decodeNodes k (bytes.drop 16) with
      | some n, some rest => some (n :: rest)
      | _, _ => none

/-- Decode `k` characters, 4 bytes each: the read path types the character
region as `*const char`, an array of `nb_chars` 4-byte values. -/
def decodeChars : Nat → List Nat → List Nat
  | 0, _ => []
  | k + 1, bytes => leVal (bytes.take 4) :: decodeChars k (bytes.drop 4)

/-- Decode `k` range-element records of 8 bytes each. -/
def decodeRanges : Nat → List Nat → List RangeElement
  | 0, _ => []
  | k + 1, bytes =>
      decodeRangeElement (bytes.take 8) :: decodeRanges k (bytes.drop 8)

/-- The `read_file` path: read the header at offset 0, then type each region
at the offsets `get_offsets_ptr` computes — nodes at 24, characters at
`24 + nb_nodes * size_of::<Node>()`, ranges at
`chars + nb_chars * size_of::<char>()` (i.e. `4 * nb_chars`). Reading a
region that falls outside the mapped file fails. -/
def read_file (bytes : List Nat) : Option (Header × CompiledTrie) :=
  let nb_nodes := leVal (bytes.take 8)
  let nb_chars := leVal ((bytes.drop 8).take 8)
  let nb_ranges := leVal ((bytes.drop 16).take 8)
  let nodes_off := 24
  let chars_off := nodes_off + nb_nodes * 16
  let ranges_off := chars_off + nb_chars * 4
  if bytes.length < ranges_off + nb_ranges * 8 then none
  else
    match decodeNodes nb_nodes (bytes.drop nodes_off) with
    | none => none
    | some nodes =>
        some (⟨nb_nodes, nb_chars, nb_ranges⟩,
          ⟨nodes, decodeChars nb_chars (bytes.drop chars_off),
            decodeRanges nb_ranges (bytes.drop ranges_off)⟩)

/-- The compiled trie of the one-word dictionary `{("ab", 1)}`: a single
patricia node whose substring "ab" lives in the character array. -/
def trieAb : CompiledTrie where
  nodes := [CompiledTrieNode.new_patricia ⟨none, some 1, 0⟩ 0 2]
  chars := strCp "ab"
  ranges := []

/-- C7 fails on the code: the write path stores the characters as
`nb_chars` UTF-8 **bytes**, but the read path types the character region as
`nb_chars` 4-byte `char`s and reads the range region at offset
`24 + 16·nb_nodes + 4·nb_chars`; for any trie with a non-empty character
array (here the dictionary `{("ab", 1)}`) the regions the reader types
overrun the written file, so the round trip cannot return the original trie.
A trie with no characters (here the all-naive `trieAbz` layout of
`{("ab",1),("z",2)}`)
does round-trip, which confirms the embedded read path agrees with the write
path on everything except the character-region typing. -/
theorem claim_C7_round_trip_failure :
    (write_file trieAb).length = 42
    ∧ read_file (write_file trieAb) = none
    ∧ read_file (write_file trieAbz) = some (⟨3, 0, 0⟩, trieAbz) := by
  refine ⟨by decide, by decide, ?_⟩
  decide

/-! ## Generic std binary search (`slice::binary_search_by`)

Used by `PatriciaNode::insert` of the index crate. Window `[left, right)`;
fuel bounds the iteration count (the window provably shrinks). -/

/-- The std binary-search loop: `Except.error` carries the insertion point. -/
def binary_search_loop {α : Type} [Inhabited α] (xs : List α)
    (cmp : α → Ordering) : Nat → Nat → Nat → Except Nat Nat
  | 0, left, _ => .error left
  | fuel + 1, left, right =>
      if left < right then
        let mid := (left + right) / 2
        match cmp (xs.getD mid default) with
        | .lt => binary_search_loop xs cmp fuel (mid + 1) right
        | .eq => .ok mid
        | .gt => binary_search_loop xs cmp fuel left mid
      else .error left

/-- The `binary_search_by` entry point. -/
def binary_search_by {α : Type} [Inhabited α] (xs : List α)
    (cmp : α → Ordering) : Except Nat Nat :=
  binary_search_loop xs cmp (xs.length + 1) 0 xs.length

/-! ## Intermediate patricia trie (vague-search-index/src/patricia_trie.rs)

The build-time `PatriciaNode` of the index crate (distinct from the compiled
`PatriciaNode` payload above). String byte positions coincide with character
positions in the code-point model; this is exact for one-byte (ASCII)
characters, which is the regime in which the source's byte-indexed
`split_off` calls are well-defined. -/

/-- The mutable patricia-trie node: a label, sorted children, an optional
frequency. -/
inductive Index.PatriciaNode where
  | mk (letters : List Nat) (children : List Index.PatriciaNode)
      (freq : Option Nat)

instance : Inhabited Index.PatriciaNode := ⟨.mk [] [] none⟩

/-- The node's label. -/
def Index.PatriciaNode.letters : Index.PatriciaNode → List Nat
  | .mk l _ _ => l

/-- The node's children. -/
def Index.PatriciaNode.children : Index.PatriciaNode → List Index.PatriciaNode
  | .mk _ c _ => c

/-- The node's frequency. -/
def Index.PatriciaNode.freq : Index.PatriciaNode → Option Nat
  | .mk _ _ f => f

/-- The `create_empty` constructor (the root). -/
def Index.PatriciaNode.create_empty : Index.PatriciaNode := .mk [] [] none

/-- The `index_difference` helper: position of the first differing character
of the zipped strings. -/
def index_difference : List Nat → List Nat → Option Nat
  | a :: as', b :: bs =>
      if a ≠ b then some 0 else (index_difference as' bs).map (· + 1)
  | _, _ => none

/-- `Option<char>` comparison (`None` sorts first), as used by the insert and
search comparators of the index crate. -/
def cmpOpt : Option Nat → Option Nat → Ordering
  | none, none => .eq
  | none, some _ => .lt
  | some _, none => .gt
  | some x, some y => compare x y

/-- The `divide_node` helper: split the node's label at `ind`, moving its
children and frequency into the second part; the word remainder either marks
the first part as a word (empty remainder) or becomes a sibling of the second
part, ordered by first character. The `Ordering::Equal` arm is unreachable in
the source (`unreachable!`). -/
def Index.PatriciaNode.divide_node (self : Index.PatriciaNode)
    (word : List Nat) (ind : Nat) (frequency : Nat) : Index.PatriciaNode :=
  let second_part := self.letters.drop ind
  let first_part := self.letters.take ind
  let second_part_node : Index.PatriciaNode :=
    .mk second_part self.children self.freq
  let second_word := word.drop ind
  if second_word.isEmpty then
    .mk first_part [second_part_node] (some frequency)
  else
    let new_word_node : Index.PatriciaNode := .mk second_word [] (some frequency)
    let sec_first_char := second_part.headD 0
    let new_first_char := second_word.headD 0
    match compare new_first_char sec_first_char with
    | .lt => .mk first_part [new_word_node, second_part_node] none
    | .eq => .mk first_part [new_word_node, second_part_node] none
    | .gt => .mk first_part [second_part_node, new_word_node] none

/-- The `create_and_insert_at` helper: insert a fresh leaf child at `index`. -/
def Index.PatriciaNode.create_and_insert_at (self : Index.PatriciaNode)
    (index : Nat) (word : List Nat) (frequency : Nat) : Index.PatriciaNode :=
  .mk self.letters
    (self.children.take index ++ (.mk word [] (some frequency)) ::
      self.children.drop index)
    self.freq

/-- The `divide` helper: returns the updated node and whether the insertion
finished here (`false` means the word strictly extends the label and the
caller must descend). -/
def Index.PatriciaNode.divide (self : Index.PatriciaNode) (word : List Nat)
    (frequency : Nat) : Index.PatriciaNode × Bool :=
  match index_difference self.letters word,
      compare word.length self.letters.length with
  | some ind, _ => (self.divide_node word ind frequency, true)
  | none, .lt => (self.divide_node word word.length frequency, true)
  | none, .eq => (.mk self.letters self.children (some frequency), true)
  | none, .gt => (self, false)

/-- Replace the child at `i`. -/
def Index.PatriciaNode.set_child (self : Index.PatriciaNode) (i : Nat)
    (c : Index.PatriciaNode) : Index.PatriciaNode :=
  .mk self.letters (self.children.set i c) self.freq

/-- The loop of `PatriciaNode::insert`, descending with a mutable parent
pointer in the source; one fuel unit per descent (each descent strips a
non-empty child label off the word, so `word.length` fuel is exact). -/
def Index.PatriciaNode.insert_go : Nat → Index.PatriciaNode → List Nat →
    Nat → Index.PatriciaNode
  | 0, parent, _, _ => parent
  | fuel + 1, parent, word_cpy, frequency =>
      match binary_search_by parent.children
          (fun child => cmpOpt child.letters.head? word_cpy.head?) with
      | .error r => parent.create_and_insert_at r word_cpy frequency
      | .ok r =>
          let child := parent.children.getD r default
          let divided := child.divide word_cpy frequency
          if divided.2 then parent.set_child r divided.1
          else
            let word' := word_cpy.drop child.letters.length
            parent.set_child r
              (Index.PatriciaNode.insert_go fuel child word' frequency)

/-- The `insert` entry point: empty words are ignored. -/
def Index.PatriciaNode.insert (self : Index.PatriciaNode) (word : List Nat)
    (frequency : Nat) : Index.PatriciaNode :=
  if word.isEmpty then self
  else Index.PatriciaNode.insert_go (word.length + 1) self word frequency

/-- Build the intermediate trie by inserting every pair in order into the
empty root. -/
def buildTrie (pairs : List (List Nat × Nat)) : Index.PatriciaNode :=
  pairs.foldl (fun t p => t.insert p.1 p.2) Index.PatriciaNode.create_empty

/-- The sort key of a child: the first character of its label. -/
def keyOf (c : Index.PatriciaNode) : Nat := c.letters.headD 0

/-- The invariant of C10, recursively at every node: children are sorted
strictly ascending by the first character of their labels (hence no two share
a first character), and every child's label is non-empty. -/
inductive SortedTrie : Index.PatriciaNode → Prop where
  | mk : ∀ (letters : List Nat) (children : List Index.PatriciaNode)
      (freq : Option Nat),
      children.Pairwise (fun a b => keyOf a < keyOf b) →
      (∀ c ∈ children, c.letters ≠ []) →
      (∀ c ∈ children, SortedTrie c) →
      SortedTrie (.mk letters children freq)

/-! ## Correctness of the std binary search on comparator-monotone lists -/

/-- Specification of the std binary-search loop, under comparator
monotonicity and the window invariants: `Ok` lands on an `Equal` element,
`Err` is the exact insertion point. -/
theorem binary_search_loop_spec {α : Type} [Inhabited α] (xs : List α)
    (cmp : α → Ordering)
    (Hlt : ∀ i j, i ≤ j → j < xs.length →
      cmp (xs.getD j default) = .lt → cmp (xs.getD i default) = .lt)
    (Hgt : ∀ i j, i ≤ j → j < xs.length →
      cmp (xs.getD i default) = .gt → cmp (xs.getD j default) = .gt) :
    ∀ (fuel left right : Nat),
    left ≤ right → right ≤ xs.length → right - left < fuel →
    (∀ i, i < left → cmp (xs.getD i default) = .lt) →
    (∀ i, right ≤ i → i < xs.length → cmp (xs.getD i default) = .gt) →
    (match binary_search_loop xs cmp fuel left right with
     | .ok r => r < xs.length ∧ cmp (xs.getD r default) = .eq
     | .error r => r ≤ xs.length ∧
        (∀ i, i < xs.length → (i < r ↔ cmp (xs.getD i default) = .lt)) ∧
        (∀ i, r ≤ i → i < xs.length → cmp (xs.getD i default) = .gt)) := by
  intro fuel
  induction fuel with
  | zero => intro left right h1 h2 h3 _ _; omega
  | succ fuel ih =>
      intro left right h1 h2 h3 inv1 inv2
      simp only [binary_search_loop]
      by_cases hlr : left < right
      · rw [if_pos hlr]
        cases hcmp : cmp (xs.getD ((left + right) / 2) default) with
        | lt =>
            refine ih ((left + right) / 2 + 1) right (by omega) h2 (by omega)
              ?_ inv2
            intro i hi
            by_cases hil : i < left
            · exact inv1 i hil
            · exact Hlt i ((left + right) / 2) (by omega) (by omega) hcmp
        | eq => exact ⟨by omega, hcmp⟩
        | gt =>
            refine ih left ((left + right) / 2) (by omega) (by omega) (by omega)
              inv1 ?_
            intro i hi hilen
            exact Hgt ((left + right) / 2) i hi (by omega) hcmp
      · rw [if_neg hlr]
        have heq : left = right := by omega
        refine ⟨by omega, ?_, ?_⟩
        · intro i hilen
          constructor
          · intro hir
            exact inv1 i hir
          · intro hcmp
            by_contra hge
            have := inv2 i (by omega) hilen
            rw [this] at hcmp
            exact absurd hcmp (by decide)
        · intro i hi hilen
          exact inv2 i (by omega) hilen

/-- Specification of `binary_search_by` on comparator-monotone lists. -/
theorem binary_search_by_spec {α : Type} [Inhabited α] (xs : List α)
    (cmp : α → Ordering)
    (Hlt : ∀ i j, i ≤ j → j < xs.length →
      cmp (xs.getD j default) = .lt → cmp (xs.getD i default) = .lt)
    (Hgt : ∀ i j, i ≤ j → j < xs.length →
      cmp (xs.getD i default) = .gt → cmp (xs.getD j default) = .gt) :
    match binary_search_by xs cmp with
    | .ok r => r < xs.length ∧ cmp (xs.getD r default) = .eq
    | .error r => r ≤ xs.length ∧
        (∀ i, i < xs.length → (i < r ↔ cmp (xs.getD i default) = .lt)) ∧
        (∀ i, r ≤ i → i < xs.length → cmp (xs.getD i default) = .gt) := by
  exact binary_search_loop_spec xs cmp Hlt Hgt (xs.length + 1) 0 xs.length
    (by omega) (by omega) (by omega) (by omega) (by intro i h1 h2; omega)

/-! ## Proof of C10: sortedness invariant of the intermediate trie -/

/-- Setting an index to the value already stored there is the identity. -/
theorem set_getD_self {α : Type} : ∀ (l : List α) (i : Nat) (d : α),
    l.set i (l.getD i d) = l
  | [], _, _ => by simp
  | a :: t, 0, d => by simp [List.getD_cons_zero]
  | a :: t, i + 1, d => by
      simp only [List.getD_cons_succ, List.set_cons_succ]
      rw [set_getD_self t i d]

/-- `getD` through `map` (with the mapped default). -/
theorem getD_map {α β : Type} (f : α → β) : ∀ (l : List α) (i : Nat) (d : α),
    (l.map f).getD i (f d) = f (l.getD i d)
  | [], i, d => by simp
  | a :: t, 0, d => by simp
  | a :: t, i + 1, d => by
      simp only [List.map_cons, List.getD_cons_succ]
      exact getD_map f t i d

/-- The head of a non-trivial `take` is the head. -/
theorem headD_take (l : List Nat) (i : Nat) (hi : 1 ≤ i) (d : Nat) :
    (l.take i).headD d = l.headD d := by
  cases l with
  | nil => simp
  | cons a t =>
      cases i with
      | zero => omega
      | succ j => simp

/-- Inserting a value between the strictly smaller and strictly larger parts
of a strictly sorted list keeps it strictly sorted. -/
theorem pairwise_lt_insert : ∀ (ks : List Nat) (w r : Nat),
    ks.Pairwise (· < ·) →
    (∀ j, j < r → j < ks.length → ks.getD j 0 < w) →
    (∀ j, r ≤ j → j < ks.length → w < ks.getD j 0) →
    (ks.take r ++ w :: ks.drop r).Pairwise (· < ·) := by
  intro ks
  induction ks with
  | nil => intro w r _ _ _; simp
  | cons k t ih =>
      intro w r hp hlt hgt
      rcases List.pairwise_cons.mp hp with ⟨hk, hpt⟩
      cases r with
      | zero =>
          simp only [List.take_zero, List.drop_zero, List.nil_append]
          refine List.pairwise_cons.mpr ⟨?_, hp⟩
          intro b hb
          rcases List.mem_cons.mp hb with rfl | hbt
          · exact hgt 0 (by omega) (by simp)
          · exact Nat.lt_trans (hgt 0 (by omega) (by simp)) (hk b hbt)
      | succ r' =>
          simp only [List.take_succ_cons, List.drop_succ_cons, List.cons_append]
          refine List.pairwise_cons.mpr ⟨?_, ?_⟩
          · intro b hb
            rcases List.mem_append.mp hb with hbl | hbr
            · exact hk b (List.mem_of_mem_take hbl)
            · rcases List.mem_cons.mp hbr with rfl | hbt
              · exact hlt 0 (by omega) (by simp)
              · exact hk b (List.mem_of_mem_drop hbt)
          · refine ih w r' hpt ?_ ?_
            · intro j hj hjl
              have := hlt (j + 1) (by omega) (by simp; omega)
              simpa [List.getD_cons_succ] using this
            · intro j hj hjl
              have := hgt (j + 1) (by omega) (by simp; omega)
              simpa [List.getD_cons_succ] using this

/-- Characterization of `index_difference = some ind`. -/
theorem index_difference_some : ∀ (a b : List Nat) (ind : Nat),
    index_difference a b = some ind →
    ind < a.length ∧ ind < b.length ∧ a.getD ind 0 ≠ b.getD ind 0 ∧
      ∀ j, j < ind → a.getD j 0 = b.getD j 0 := by
  intro a
  induction a with
  | nil => intro b ind h; cases b <;> simp [index_difference] at h
  | cons x as' iha =>
      intro b ind h
      cases b with
      | nil => simp [index_difference] at h
      | cons y bs =>
          simp only [index_difference] at h
          by_cases hxy : x ≠ y
          · rw [if_pos hxy] at h
            cases h
            refine ⟨by simp, by simp, by simpa using hxy, fun j hj => by omega⟩
          · rw [if_neg hxy] at h
            push_neg at hxy
            cases hind : index_difference as' bs with
            | none => rw [hind] at h; simp at h
            | some m =>
                rw [hind] at h
                simp only [Option.map] at h
                cases h
                rcases iha bs m hind with ⟨h1, h2, h3, h4⟩
                refine ⟨by simpa using h1, by simpa using h2,
                  by simpa [List.getD_cons_succ] using h3, ?_⟩
                intro j hj
                cases j with
                | zero => simpa using hxy
                | succ j' =>
                    simpa [List.getD_cons_succ] using h4 j' (by omega)

/-- Characterization of `index_difference = none`: the zipped prefixes
agree. -/
theorem index_difference_none : ∀ (a b : List Nat),
    index_difference a b = none →
    ∀ j, j < a.length → j < b.length → a.getD j 0 = b.getD j 0 := by
  intro a
  induction a with
  | nil => intro b _ j hj _; simp at hj
  | cons x as' iha =>
      intro b h j hja hjb
      cases b with
      | nil => simp at hjb
      | cons y bs =>
          simp only [index_difference] at h
          by_cases hxy : x ≠ y
          · rw [if_pos hxy] at h; cases h
          · rw [if_neg hxy] at h
            push_neg at hxy
            cases j with
            | zero => simpa using hxy
            | succ j' =>
                have hnone : index_difference as' bs = none := by
                  cases hind : index_difference as' bs with
                  | none => rfl
                  | some m => rw [hind] at h; simp at h
                simpa [List.getD_cons_succ] using
                  iha bs hnone j' (by simpa using hja) (by simpa using hjb)


/-- The head of a dropped list is the element at the drop index. -/
theorem headD_drop : ∀ (l : List Nat) (i : Nat), (l.drop i).headD 0 = l.getD i 0
  | [], i => by simp
  | a :: t, 0 => by simp
  | a :: t, i + 1 => by
      simp only [List.drop_succ_cons, List.getD_cons_succ]
      exact headD_drop t i

/-- A non-trivial take of a non-empty list is non-empty. -/
theorem take_ne_nil (l : List Nat) (i : Nat) (hi : 1 ≤ i) (hl : l ≠ []) :
    l.take i ≠ [] := by
  cases l with
  | nil => exact absurd rfl hl
  | cons a t => cases i with
    | zero => omega
    | succ j => simp

/-- The optional head of a non-empty list. -/
theorem head?_eq_headD (l : List Nat) (h : l ≠ []) :
    l.head? = some (l.headD 0) := by
  cases l with
  | nil => exact absurd rfl h
  | cons a t => rfl

/-- Inversion of the sortedness invariant. -/
theorem SortedTrie.inv {n : Index.PatriciaNode} (h : SortedTrie n) :
    n.children.Pairwise (fun a b => keyOf a < keyOf b) ∧
    (∀ c ∈ n.children, c.letters ≠ []) ∧ (∀ c ∈ n.children, SortedTrie c) := by
  cases h with
  | mk letters children freq h1 h2 h3 => exact ⟨h1, h2, h3⟩

/-- Reduction of `divide` when the label and word differ at some index. -/
theorem divide_eq_some (child : Index.PatriciaNode) (word : List Nat)
    (freq ind : Nat) (h : index_difference child.letters word = some ind) :
    child.divide word freq = (child.divide_node word ind freq, true) := by
  unfold Index.PatriciaNode.divide
  rw [h]

/-- Reduction of `divide` when the word is a strict prefix of the label. -/
theorem divide_eq_none_lt (child : Index.PatriciaNode) (word : List Nat)
    (freq : Nat) (h1 : index_difference child.letters word = none)
    (h2 : compare word.length child.letters.length = .lt) :
    child.divide word freq = (child.divide_node word word.length freq, true) := by
  unfold Index.PatriciaNode.divide
  rw [h1, h2]

/-- Reduction of `divide` when the word equals the label. -/
theorem divide_eq_none_eq (child : Index.PatriciaNode) (word : List Nat)
    (freq : Nat) (h1 : index_difference child.letters word = none)
    (h2 : compare word.length child.letters.length = .eq) :
    child.divide word freq =
      (.mk child.letters child.children (some freq), true) := by
  unfold Index.PatriciaNode.divide
  rw [h1, h2]

/-- Reduction of `divide` when the word strictly extends the label. -/
theorem divide_eq_none_gt (child : Index.PatriciaNode) (word : List Nat)
    (freq : Nat) (h1 : index_difference child.letters word = none)
    (h2 : compare word.length child.letters.length = .gt) :
    child.divide word freq = (child, false) := by
  unfold Index.PatriciaNode.divide
  rw [h1, h2]

/-- `divide` with outcome `false` leaves the child unchanged and means the
word strictly extends the label. -/
theorem divide_false (child : Index.PatriciaNode) (word : List Nat)
    (freq : Nat) (h : (child.divide word freq).2 = false) :
    (child.divide word freq).1 = child ∧ child.letters.length < word.length := by
  cases hind : index_difference child.letters word with
  | some ind =>
      rw [divide_eq_some child word freq ind hind] at h
      simp at h
  | none =>
      cases hcmp : compare word.length child.letters.length with
      | lt => rw [divide_eq_none_lt child word freq hind hcmp] at h; simp at h
      | eq => rw [divide_eq_none_eq child word freq hind hcmp] at h; simp at h
      | gt =>
          rw [divide_eq_none_gt child word freq hind hcmp]
          exact ⟨rfl, Nat.compare_eq_gt.mp hcmp⟩

/-- `divide` with outcome `true` (the insertion finished at this child)
preserves the sortedness invariant, the child's first character and the
non-emptiness of its label, provided the word starts with the child's first
character. -/
theorem divide_sorted (child : Index.PatriciaNode) (word : List Nat)
    (freq : Nat) (hs : SortedTrie child) (hcl : child.letters ≠ [])
    (hw : word ≠ []) (hkey : child.letters.headD 0 = word.headD 0)
    (hdiv : (child.divide word freq).2 = true) :
    SortedTrie (child.divide word freq).1 ∧
    (child.divide word freq).1.letters.headD 0 = child.letters.headD 0 ∧
    (child.divide word freq).1.letters ≠ [] := by
  obtain ⟨hpair, hlab, hsub⟩ := SortedTrie.inv hs
  have hwlen : 1 ≤ word.length := by
    cases word with
    | nil => exact absurd rfl hw
    | cons _ _ => simp
  have hllen : 1 ≤ child.letters.length := by
    cases hl : child.letters with
    | nil => exact absurd hl hcl
    | cons _ _ => simp
  cases hind : index_difference child.letters word with
  | some ind =>
      rcases index_difference_some child.letters word ind hind with
        ⟨h1, h2, h3, _⟩
      have hind1 : 1 ≤ ind := by
        rcases Nat.eq_zero_or_pos ind with rfl | h
        · exfalso
          apply h3
          have ha : child.letters.getD 0 0 = child.letters.headD 0 := by
            cases child.letters <;> simp
          have hb : word.getD 0 0 = word.headD 0 := by cases word <;> simp
          rw [ha, hb, hkey]
        · omega
      rw [divide_eq_some child word freq ind hind]
      simp only [Index.PatriciaNode.divide_node]
      have hsw : ¬ (word.drop ind).isEmpty = true := by
        rw [List.isEmpty_iff, List.drop_eq_nil_iff]
        omega
      rw [if_neg hsw]
      have hlne : child.letters.drop ind ≠ [] := by
        rw [ne_eq, List.drop_eq_nil_iff]
        omega
      have hwne : word.drop ind ≠ [] := by
        rw [ne_eq, List.drop_eq_nil_iff]
        omega
      have hsecnode :
          SortedTrie (.mk (child.letters.drop ind) child.children child.freq) :=
        SortedTrie.mk _ _ _ hpair hlab hsub
      have hnewnode : SortedTrie (.mk (word.drop ind) [] (some freq)) :=
        SortedTrie.mk _ _ _ List.Pairwise.nil (by simp) (by simp)
      have htake : (child.letters.take ind).headD 0 = child.letters.headD 0 :=
        headD_take child.letters ind hind1 0
      have htakene : child.letters.take ind ≠ [] :=
        take_ne_nil child.letters ind hind1 hcl
      cases hcmp :
          compare ((word.drop ind).headD 0) ((child.letters.drop ind).headD 0) with
      | lt =>
          refine ⟨?_, ?_, ?_⟩
          · show SortedTrie (.mk (child.letters.take ind)
              [.mk (word.drop ind) [] (some freq),
               .mk (child.letters.drop ind) child.children child.freq] none)
            refine SortedTrie.mk _ _ _ ?_ ?_ ?_
            · refine List.pairwise_cons.mpr ⟨?_, by simp⟩
              intro b hb
              rcases List.mem_cons.mp hb with rfl | hb
              · have := Nat.compare_eq_lt.mp hcmp
                simpa [keyOf, Index.PatriciaNode.letters] using this
              · simp at hb
            · intro x hx
              rcases List.mem_cons.mp hx with rfl | hx
              · simpa [Index.PatriciaNode.letters] using hwne
              · rcases List.mem_cons.mp hx with rfl | hx
                · simpa [Index.PatriciaNode.letters] using hlne
                · simp at hx
            · intro x hx
              rcases List.mem_cons.mp hx with rfl | hx
              · exact hnewnode
              · rcases List.mem_cons.mp hx with rfl | hx
                · exact hsecnode
                · simp at hx
          · show (child.letters.take ind).headD 0 = child.letters.headD 0
            exact htake
          · show child.letters.take ind ≠ []
            exact htakene
      | eq =>
          exfalso
          have := Nat.compare_eq_eq.mp hcmp
          rw [headD_drop, headD_drop] at this
          exact h3 (this.symm)
      | gt =>
          refine ⟨?_, ?_, ?_⟩
          · show SortedTrie (.mk (child.letters.take ind)
              [.mk (child.letters.drop ind) child.children child.freq,
               .mk (word.drop ind) [] (some freq)] none)
            refine SortedTrie.mk _ _ _ ?_ ?_ ?_
            · refine List.pairwise_cons.mpr ⟨?_, by simp⟩
              intro b hb
              rcases List.mem_cons.mp hb with rfl | hb
              · have := Nat.compare_eq_gt.mp hcmp
                simpa [keyOf, Index.PatriciaNode.letters] using this
              · simp at hb
            · intro x hx
              rcases List.mem_cons.mp hx with rfl | hx
              · simpa [Index.PatriciaNode.letters] using hlne
              · rcases List.mem_cons.mp hx with rfl | hx
                · simpa [Index.PatriciaNode.letters] using hwne
                · simp at hx
            · intro x hx
              rcases List.mem_cons.mp hx with rfl | hx
              · exact hsecnode
              · rcases List.mem_cons.mp hx with rfl | hx
                · exact hnewnode
                · simp at hx
          · show (child.letters.take ind).headD 0 = child.letters.headD 0
            exact htake
          · show child.letters.take ind ≠ []
            exact htakene
  | none =>
      cases hcmp : compare word.length child.letters.length with
      | lt =>
          have hlt := Nat.compare_eq_lt.mp hcmp
          rw [divide_eq_none_lt child word freq hind hcmp]
          simp only [Index.PatriciaNode.divide_node]
          have hsw : (word.drop word.length).isEmpty = true := by simp
          rw [if_pos hsw]
          have htake :
              (child.letters.take word.length).headD 0 = child.letters.headD 0 :=
            headD_take child.letters word.length hwlen 0
          have htakene : child.letters.take word.length ≠ [] :=
            take_ne_nil child.letters word.length hwlen hcl
          have hlne : child.letters.drop word.length ≠ [] := by
            rw [ne_eq, List.drop_eq_nil_iff]
            omega
          refine ⟨?_, ?_, ?_⟩
          · show SortedTrie (.mk (child.letters.take word.length)
              [.mk (child.letters.drop word.length) child.children child.freq]
              (some freq))
            refine SortedTrie.mk _ _ _ (by simp) ?_ ?_
            · intro x hx
              rcases List.mem_cons.mp hx with rfl | hx
              · simpa [Index.PatriciaNode.letters] using hlne
              · simp at hx
            · intro x hx
              rcases List.mem_cons.mp hx with rfl | hx
              · exact SortedTrie.mk _ _ _ hpair hlab hsub
              · simp at hx
          · show (child.letters.take word.length).headD 0 = child.letters.headD 0
            exact htake
          · show child.letters.take word.length ≠ []
            exact htakene
      | eq =>
          rw [divide_eq_none_eq child word freq hind hcmp]
          exact ⟨SortedTrie.mk _ _ _ hpair hlab hsub, rfl, hcl⟩
      | gt =>
          rw [divide_eq_none_gt child word freq hind hcmp] at hdiv
          simp at hdiv

/-- Replacing a child by one with the same key, a non-empty label and the
invariant preserves the parent's invariant. -/
theorem set_child_sorted (parent : Index.PatriciaNode) (r : Nat)
    (d : Index.PatriciaNode) (hs : SortedTrie parent)
    (hk : keyOf d = keyOf (parent.children.getD r default))
    (hdn : d.letters ≠ []) (hds : SortedTrie d) :
    SortedTrie (parent.set_child r d) := by
  obtain ⟨hpair, hlab, hsub⟩ := SortedTrie.inv hs
  show SortedTrie (.mk parent.letters (parent.children.set r d) parent.freq)
  refine SortedTrie.mk _ _ _ ?_ ?_ ?_
  · have h1 : (parent.children.set r d).map keyOf =
        parent.children.map keyOf := by
      rw [List.map_set, hk, ← getD_map keyOf parent.children r default]
      exact set_getD_self _ r _
    exact List.pairwise_map.mp (by rw [h1]; exact List.pairwise_map.mpr hpair)
  · intro x hx
    rcases List.mem_or_eq_of_mem_set hx with hx | rfl
    · exact hlab x hx
    · exact hdn
  · intro x hx
    rcases List.mem_or_eq_of_mem_set hx with hx | rfl
    · exact hsub x hx
    · exact hds

/-- The insert loop preserves the sortedness invariant and never changes the
node's own label. -/
theorem insert_go_sorted : ∀ (fuel : Nat) (parent : Index.PatriciaNode)
    (word : List Nat) (freq : Nat), SortedTrie parent → word ≠ [] →
    SortedTrie (Index.PatriciaNode.insert_go fuel parent word freq) ∧
    (Index.PatriciaNode.insert_go fuel parent word freq).letters =
      parent.letters := by
  intro fuel
  induction fuel with
  | zero => intro parent word freq hs _; exact ⟨hs, rfl⟩
  | succ fuel ih =>
      intro parent word freq hs hw
      obtain ⟨hpair, hlab, hsub⟩ := SortedTrie.inv hs
      have hbridge : ∀ j, j < parent.children.length →
          cmpOpt (parent.children.getD j default).letters.head? word.head? =
            compare (keyOf (parent.children.getD j default)) (word.headD 0) := by
        intro j hj
        have hmem : parent.children.getD j default ∈ parent.children := by
          rw [List.getD_eq_getElem _ _ hj]
          exact List.getElem_mem hj
        rw [head?_eq_headD _ (hlab _ hmem), head?_eq_headD word hw]
        rfl
      have hkeys : ∀ i j, i < j → j < parent.children.length →
          keyOf (parent.children.getD i default) <
            keyOf (parent.children.getD j default) := by
        intro i j hij hj
        have hi : i < parent.children.length := by omega
        rw [List.getD_eq_getElem _ _ hi, List.getD_eq_getElem _ _ hj]
        exact List.pairwise_iff_getElem.mp hpair i j hi hj hij
      have Hlt : ∀ i j, i ≤ j → j < parent.children.length →
          cmpOpt (parent.children.getD j default).letters.head? word.head? =
            .lt →
          cmpOpt (parent.children.getD i default).letters.head? word.head? =
            .lt := by
        intro i j hij hj hlt
        rw [hbridge j hj] at hlt
        have hj' := Nat.compare_eq_lt.mp hlt
        rw [hbridge i (by omega)]
        rcases Nat.lt_or_ge i j with hij' | hij'
        · exact Nat.compare_eq_lt.mpr (lt_trans (hkeys i j hij' hj) hj')
        · have : i = j := by omega
          subst this
          exact Nat.compare_eq_lt.mpr hj'
      have Hgt : ∀ i j, i ≤ j → j < parent.children.length →
          cmpOpt (parent.children.getD i default).letters.head? word.head? =
            .gt →
          cmpOpt (parent.children.getD j default).letters.head? word.head? =
            .gt := by
        intro i j hij hj hgt
        have hi : i < parent.children.length := by omega
        rw [hbridge i hi] at hgt
        have hi' := Nat.compare_eq_gt.mp hgt
        rw [hbridge j hj]
        rcases Nat.lt_or_ge i j with hij' | hij'
        · exact Nat.compare_eq_gt.mpr (lt_trans hi' (hkeys i j hij' hj))
        · have : i = j := by omega
          subst this
          exact Nat.compare_eq_gt.mpr hi'
      have hspec := binary_search_by_spec parent.children
        (fun child => cmpOpt child.letters.head? word.head?) Hlt Hgt
      cases hres : binary_search_by parent.children
          (fun child => cmpOpt child.letters.head? word.head?) with
      | error r =>
          simp only [hres] at hspec
          obtain ⟨hrle, hltiff, hgtall⟩ := hspec
          have heq : Index.PatriciaNode.insert_go (fuel + 1) parent word freq =
              parent.create_and_insert_at r word freq := by
            simp only [Index.PatriciaNode.insert_go]
            rw [hres]
          rw [heq]
          refine ⟨?_, rfl⟩
          show SortedTrie (.mk parent.letters
            (parent.children.take r ++
              (.mk word [] (some freq)) :: parent.children.drop r) parent.freq)
          refine SortedTrie.mk _ _ _ ?_ ?_ ?_
          · have hksp : (parent.children.map keyOf).Pairwise (· < ·) :=
              List.pairwise_map.mpr hpair
            have hklt : ∀ j, j < r → j < (parent.children.map keyOf).length →
                (parent.children.map keyOf).getD j 0 < word.headD 0 := by
              intro j hjr hjl
              rw [List.length_map] at hjl
              have hg : (parent.children.map keyOf).getD j 0 =
                  keyOf (parent.children.getD j default) :=
                getD_map keyOf parent.children j default
              rw [hg]
              have := (hltiff j hjl).mp hjr
              rw [hbridge j hjl] at this
              exact Nat.compare_eq_lt.mp this
            have hkgt : ∀ j, r ≤ j → j < (parent.children.map keyOf).length →
                word.headD 0 < (parent.children.map keyOf).getD j 0 := by
              intro j hjr hjl
              rw [List.length_map] at hjl
              have hg : (parent.children.map keyOf).getD j 0 =
                  keyOf (parent.children.getD j default) :=
                getD_map keyOf parent.children j default
              rw [hg]
              have := hgtall j hjr hjl
              rw [hbridge j hjl] at this
              exact Nat.compare_eq_gt.mp this
            have hp2 := pairwise_lt_insert (parent.children.map keyOf)
              (word.headD 0) r hksp hklt hkgt
            have hmap : (parent.children.take r ++
                (Index.PatriciaNode.mk word [] (some freq)) ::
                  parent.children.drop r).map keyOf =
                (parent.children.map keyOf).take r ++
                  word.headD 0 :: (parent.children.map keyOf).drop r := by
              simp [List.map_take, List.map_drop, keyOf,
                Index.PatriciaNode.letters]
            exact List.pairwise_map.mp (by rw [hmap]; exact hp2)
          · intro x hx
            rcases List.mem_append.mp hx with hx | hx
            · exact hlab x (List.mem_of_mem_take hx)
            · rcases List.mem_cons.mp hx with rfl | hx
              · simpa [Index.PatriciaNode.letters] using hw
              · exact hlab x (List.mem_of_mem_drop hx)
          · intro x hx
            rcases List.mem_append.mp hx with hx | hx
            · exact hsub x (List.mem_of_mem_take hx)
            · rcases List.mem_cons.mp hx with rfl | hx
              · exact SortedTrie.mk _ _ _ List.Pairwise.nil (by simp) (by simp)
              · exact hsub x (List.mem_of_mem_drop hx)
      | ok r =>
          simp only [hres] at hspec
          obtain ⟨hr, hceq⟩ := hspec
          have hmem : parent.children.getD r default ∈ parent.children := by
            rw [List.getD_eq_getElem _ _ hr]
            exact List.getElem_mem hr
          have hclab : (parent.children.getD r default).letters ≠ [] :=
            hlab _ hmem
          have hcsort : SortedTrie (parent.children.getD r default) :=
            hsub _ hmem
          have hkeyeq : (parent.children.getD r default).letters.headD 0 =
              word.headD 0 := by
            rw [hbridge r hr] at hceq
            exact Nat.compare_eq_eq.mp hceq
          have heq : Index.PatriciaNode.insert_go (fuel + 1) parent word freq =
              (if ((parent.children.getD r default).divide word freq).2 then
                parent.set_child r
                  ((parent.children.getD r default).divide word freq).1
               else
                parent.set_child r
                  (Index.PatriciaNode.insert_go fuel
                    (parent.children.getD r default)
                    (word.drop (parent.children.getD r default).letters.length)
                    freq)) := by
            simp only [Index.PatriciaNode.insert_go]
            rw [hres]
          rw [heq]
          cases hdiv : ((parent.children.getD r default).divide word freq).2 with
          | true =>
              rw [if_pos rfl]
              obtain ⟨hds, hdh, hdn⟩ := divide_sorted
                (parent.children.getD r default) word freq hcsort hclab hw
                hkeyeq hdiv
              exact ⟨set_child_sorted parent r _ hs (by
                show _ = (parent.children.getD r default).letters.headD 0
                exact hdh) hdn hds, rfl⟩
          | false =>
              rw [if_neg Bool.false_ne_true]
              obtain ⟨hdeq, hdlt⟩ := divide_false
                (parent.children.getD r default) word freq hdiv
              have hw' :
                  word.drop (parent.children.getD r default).letters.length ≠
                    [] := by
                rw [ne_eq, List.drop_eq_nil_iff]
                omega
              obtain ⟨his, hil⟩ := ih (parent.children.getD r default)
                (word.drop (parent.children.getD r default).letters.length)
                freq hcsort hw'
              refine ⟨set_child_sorted parent r _ hs ?_ ?_ his, rfl⟩
              · show _ = keyOf (parent.children.getD r default)
                unfold keyOf
                rw [hil]
              · rw [hil]
                exact hclab

/-- `insert` preserves the sortedness invariant. -/
theorem insert_sorted (t : Index.PatriciaNode) (word : List Nat) (freq : Nat)
    (hs : SortedTrie t) : SortedTrie (t.insert word freq) := by
  unfold Index.PatriciaNode.insert
  cases hwe : word.isEmpty with
  | true => rw [if_pos rfl]; exact hs
  | false =>
      rw [if_neg Bool.false_ne_true]
      exact (insert_go_sorted (word.length + 1) t word freq hs
        (by simpa [List.isEmpty_iff] using hwe)).1

/-- C10: starting from the empty intermediate patricia trie
(`create_empty`), after any sequence of `insert(word, frequency)` operations
(`buildTrie`), every node's children vector is sorted strictly ascending by
the first character of the children's labels (`SortedTrie`, which also gives
that every child label is non-empty); strict sortedness means in particular
that no two children of one node share a first character. -/
theorem claim_C10_insert_sorted (pairs : List (List Nat × Nat)) :
    SortedTrie (buildTrie pairs) := by
  unfold buildTrie
  have hgen : ∀ (ps : List (List Nat × Nat)) (t : Index.PatriciaNode),
      SortedTrie t → SortedTrie (ps.foldl (fun t p => t.insert p.1 p.2) t) := by
    intro ps
    induction ps with
    | nil => intro t ht; exact ht
    | cons p ps ih => intro t ht; exact ih _ (insert_sorted t p.1 p.2 ht)
  exact hgen pairs _ (SortedTrie.mk _ _ _ List.Pairwise.nil (by simp) (by simp))

/-! ## The trie compiler (vague-search-core/src/trie/from_trie.rs)

`fill_from_trie` compiles an intermediate patricia trie (the
`TrieNodeDrainer` instance of the index crate's `PatriciaNode`) into the
three compiled arrays. Fuel bounds the recursion depth (one unit per level);
`compileTrie` supplies fuel from the total node count, which dominates the
height. -/

/-- `utils::char_dist`: the signed distance `b - a`. -/
def char_dist (a b : Nat) : Int := (b : Int) - (a : Int)

/-- The dummy non-zero index `u32::MAX` used to back-patch ranges. -/
def dummy_index : Option Nat := some (2 ^ 32 - 1)

/-- `add_chars`: append the characters to the big string unless they already
occur in the last-2048-byte search window (at most 2048 window positions
tried); returns the new string and the `[start, end)` character range. -/
def add_chars (big_string : List Nat) (chars : List Nat) :
    List Nat × Nat × Nat :=
  let nb_bytes_searched := min 2048 big_string.length
  let search_window_index := big_string.length - nb_bytes_searched
  let search_bytes := big_string.drop search_window_index
  let nb_windows :=
    if chars.length ≤ search_bytes.length then
      search_bytes.length - chars.length + 1
    else 0
  let found := (List.range (min 2048 nb_windows)).find?
    (fun p => (search_bytes.drop p).take chars.length == chars)
  match found with
  | some p =>
      (big_string, search_window_index + p,
        search_window_index + p + chars.length)
  | none => (big_string ++ chars, big_string.length,
      big_string.length + chars.length)

/-- `add_range`: extend the range array by `max - min + 1` empty elements and
fill the positions of the present characters with (dummy-indexed) elements
carrying the node frequencies; returns the new array, the `[start, end)`
element range and the minimum character. -/
def add_range (trie_ranges : List RangeElement)
    (nodes : List Index.PatriciaNode) (range_chars : List Nat) :
    List RangeElement × Nat × Nat × Nat :=
  let mn := range_chars.foldl min (range_chars.headD 0)
  let mx := range_chars.foldl max (range_chars.headD 0)
  let range_len := mx - mn + 1
  let start := trie_ranges.length
  let resized := trie_ranges ++ List.replicate range_len ⟨none, none⟩
  let patched := (range_chars.zip nodes).foldl
    (fun rs p => rs.set (p.1 - mn + start) ⟨dummy_index, p.2.freq⟩) resized
  (patched, start, start + range_len, mn)

/-- `should_add_to_range`: the next single character extends the current
range when its signed distance from the last range character is at most 3
(`MAX_DIST_IN_RANGE`). -/
def should_add_to_range (range : List Nat) (cur : Nat) : Bool :=
  match range.getLast? with
  | none => false
  | some last => char_dist last cur ≤ 3

/-- The heuristic's intermediate classification (`enum TrieNode` of
from_trie.rs): a single-character node, a multi-character node, or a run of
single-character nodes compiled as one range. -/
inductive HeurNode where
  | simple (node : Index.PatriciaNode) (c : Nat)
  | patricia (node : Index.PatriciaNode) (s : List Nat)
  | range (nodes : List Index.PatriciaNode) (cs : List Nat)
deriving Inhabited

/-- `process_range`: flush the accumulated range ending right before node
`index_cur_node` into zero, one (simple) or one (range) heuristic nodes. -/
def process_range (nodes : List Index.PatriciaNode) (cur_range : List Nat)
    (index_cur_node : Nat) : List HeurNode :=
  match cur_range with
  | [] => []
  | [c] => [.simple (nodes.getD (index_cur_node - 1) default) c]
  | _ => [.range ((nodes.drop (index_cur_node - cur_range.length)).take
      cur_range.length) cur_range]

/-- The loop of `node_type_heuristic` over the (node, characters) pairs,
carrying the running range and the position `i`. -/
def node_type_heuristic_go (nodes : List Index.PatriciaNode) :
    List (Index.PatriciaNode × List Nat) → Nat → List Nat → List HeurNode
  | [], _, cur_range => process_range nodes cur_range nodes.length
  | (node, chars) :: rest, i, cur_range =>
      let first_char := chars.headD 0
      let is_one_char := chars.length == 1
      if is_one_char && should_add_to_range cur_range first_char then
        node_type_heuristic_go nodes rest (i + 1) (cur_range ++ [first_char])
      else
        let flushed := process_range nodes cur_range i
        if is_one_char then
          flushed ++ node_type_heuristic_go nodes rest (i + 1) [first_char]
        else
          flushed ++ .patricia node chars ::
            node_type_heuristic_go nodes rest (i + 1) []

/-- `node_type_heuristic`: classify the children into compiled node kinds. -/
def node_type_heuristic (nodes : List Index.PatriciaNode)
    (nodes_chars : List (List Nat)) : List HeurNode :=
  node_type_heuristic_go nodes (nodes.zip nodes_chars) 0 []

/-- `create_partial_node` (modulo the later index back-patch): build the
compiled node of one heuristic entry, appending to the char and range
arrays. -/
def create_pending_node (nb_siblings : Nat) (heuristic : HeurNode)
    (trie_chars : List Nat) (trie_ranges : List RangeElement) :
    CompiledTrieNode × List Nat × List RangeElement :=
  match heuristic with
  | .simple node character =>
      (CompiledTrieNode.new_naive ⟨none, node.freq, character⟩ nb_siblings,
        trie_chars, trie_ranges)
  | .patricia node node_chars =>
      let res := add_chars trie_chars node_chars
      (CompiledTrieNode.new_patricia ⟨none, node.freq, res.2.1⟩ nb_siblings
        node_chars.length, res.1, trie_ranges)
  | .range nodes range_chars =>
      let res := add_range trie_ranges nodes range_chars
      (CompiledTrieNode.new_range ⟨res.2.2.2, res.2.1, res.2.2.1⟩ nb_siblings,
        trie_chars, res.1)

/-- `find_next_dummy_range_node`: first index at or after `current` whose
element has a first-child index. -/
def find_next_dummy_range_node (trie_ranges : List RangeElement)
    (current_range_index : Nat) : Nat :=
  current_range_index + (trie_ranges.drop current_range_index).findIdx
    (fun n => n.index_first_child.isSome)

/-- `finish_current_partial_node`: back-patch the first-child index into the
pending node at `pend_i` (for a range node, into its next dummy element) and
return the advanced `(pend_i, range_i)`. -/
def finish_current_node (trie_nodes : List CompiledTrieNode)
    (trie_ranges : List RangeElement) (index_first_child : Option Nat)
    (pend_i : Nat) (range_i : Option Nat) :
    List CompiledTrieNode × List RangeElement × Nat × Option Nat :=
  match (trie_nodes.getD pend_i default).node_union with
  | .naive n =>
      (trie_nodes.set pend_i
        { trie_nodes.getD pend_i default with
          node_union := .naive { n with index_first_child } },
        trie_ranges, pend_i + 1, none)
  | .patricia n =>
      (trie_nodes.set pend_i
        { trie_nodes.getD pend_i default with
          node_union := .patricia { n with index_first_child } },
        trie_ranges, pend_i + 1, none)
  | .range n =>
      let cur_i := range_i.getD n.start_index
      let next_i := find_next_dummy_range_node trie_ranges cur_i
      let patched := trie_ranges.set next_i
        { trie_ranges.getD next_i default with index_first_child }
      if next_i + 1 ≥ n.end_index then (trie_nodes, patched, pend_i + 1, none)
      else (trie_nodes, patched, pend_i, some (next_i + 1))

/-- Push the pending nodes of the heuristic list (sibling counts descending
to zero). -/
def push_pending : List HeurNode → CompiledTrie → CompiledTrie
  | [], st => st
  | h :: rest, st =>
      let res := create_pending_node rest.length h st.chars st.ranges
      push_pending rest ⟨st.nodes ++ [res.1], res.2.1, res.2.2⟩

/-- The recursion of `fill_from_trie`: `inl` processes one node (pushing the
pending compiled nodes of its children), `inr` is the loop over the children
(recursing, then back-patching the pending parent entry). Every call
consumes one fuel unit, so the recursion is structural in the fuel. -/
def fill_main : Nat →
    (Index.PatriciaNode × CompiledTrie) ⊕
      (List Index.PatriciaNode × CompiledTrie × Nat × Option Nat) →
    CompiledTrie
  | 0, .inl p => p.2
  | 0, .inr p => p.2.1
  | fuel + 1, .inl (node, st) =>
      let children := node.children
      let heuristics := node_type_heuristic children
        (children.map Index.PatriciaNode.letters)
      let pend0 := st.nodes.length
      let st1 := push_pending heuristics st
      fill_main fuel (.inr (children, st1, pend0, none))
  | _ + 1, .inr ([], st, _, _) => st
  | fuel + 1, .inr (child :: rest, st, pend_i, range_i) =>
      let nb_nodes_before := st.nodes.length
      let st' := fill_main fuel (.inl (child, st))
      let index_first_child :=
        if st'.nodes.length == nb_nodes_before then none
        else if nb_nodes_before == 0 then none else some nb_nodes_before
      let fin := finish_current_node st'.nodes st'.ranges index_first_child
        pend_i range_i
      fill_main fuel (.inr (rest, ⟨fin.1, st'.chars, fin.2.1⟩, fin.2.2.1,
        fin.2.2.2))

/-- `fill_from_trie` on an initially empty state. -/
def fill_from_trie (fuel : Nat) (root : Index.PatriciaNode) : CompiledTrie :=
  fill_main fuel (.inl (root, ⟨[], [], []⟩))

/-- The `From<N> for CompiledTrie` conversion (`compile` of the pipeline):
build the three arrays from the intermediate trie root. -/
def compileTrie (fuel : Nat) (root : Index.PatriciaNode) : CompiledTrie :=
  fill_from_trie fuel root

/-! ## Semantic layer for C2

`patLookup` is the dictionary semantics of the intermediate patricia trie:
descend by the first character, match the child's full label, consume it.
`expectedFreq` is the spec-side assignment of the claim's wording: the
frequency a word was (last) inserted with. `ptSize` is the node count, used
for fuel bounds; `capOK` is the capacity constraint of §C6 (sibling groups
below 2^18, labels below 2^12) under which the header packing is lossless. -/

mutual
/-- Number of nodes of an intermediate trie. -/
def ptSize : Index.PatriciaNode → Nat
  | .mk _ c _ => 1 + ptSizeL c

/-- Number of nodes of a forest. -/
def ptSizeL : List Index.PatriciaNode → Nat
  | [] => 0
  | x :: xs => ptSize x + ptSizeL xs
end

mutual
/-- Capacity constraints of the compiled encoding, recursively: every label
shorter than 2^12 and every child list shorter than 2^18. -/
def capOK : Index.PatriciaNode → Bool
  | .mk l c _ => decide (l.length < 2 ^ 12) && decide (c.length < 2 ^ 18) &&
      capOKL c

/-- `capOK` on a forest. -/
def capOKL : List Index.PatriciaNode → Bool
  | [] => true
  | x :: xs => capOK x && capOKL xs
end

/-- Fuel needed by the child loop of `fill_main`. -/
def needL : List Index.PatriciaNode → Nat
  | [] => 1
  | c :: rest => 1 + max (2 * ptSize c) (needL rest)

/-- Lookup in the intermediate patricia trie: find the child by first
character, require its label to be a prefix of the word, answer its
frequency on exact exhaustion, else recurse on the remainder. Fuel
`word.length` suffices since labels are non-empty. -/
def patLookup : Nat → Index.PatriciaNode → List Nat → Option Nat
  | 0, _, _ => none
  | fuel + 1, t, w =>
      match w.head? with
      | none => none
      | some c =>
          match t.children.find? (fun ch => ch.letters.headD 0 == c) with
          | none => none
          | some ch =>
              if ch.letters.isPrefixOf w then
                if w.length == ch.letters.length then ch.freq
                else patLookup fuel ch (w.drop ch.letters.length)
              else none

/-- The frequency the claim expects a word to be found with: the frequency
of its last insertion, absence if never inserted. -/
def expectedFreq (pairs : List (List Nat × Nat)) (w : List Nat) : Option Nat :=
  pairs.foldl (fun acc p => if p.1 = w then some p.2 else acc) none

/-! ## List support lemmas for the lookup proofs -/

/-- Pointwise (`getD`) characterization of `isPrefixOf`. -/
theorem prefix_getD : ∀ (a b : List Nat),
    a.isPrefixOf b = true ↔
      (a.length ≤ b.length ∧ ∀ j, j < a.length → a.getD j 0 = b.getD j 0)
  | [], b => by simp [List.isPrefixOf]
  | a :: as', [] => by simp [List.isPrefixOf]
  | a :: as', b :: bs => by
      simp only [List.isPrefixOf, Bool.and_eq_true, beq_iff_eq,
        List.length_cons, prefix_getD as' bs]
      constructor
      · rintro ⟨rfl, hlen, hp⟩
        refine ⟨by omega, ?_⟩
        intro j hj
        cases j with
        | zero => simp
        | succ j' =>
            simp only [List.getD_cons_succ]
            exact hp j' (by simpa using hj)
      · rintro ⟨hlen, hp⟩
        have h0 := hp 0 (by omega)
        simp only [List.getD_cons_zero] at h0
        refine ⟨h0, by omega, ?_⟩
        intro j hj
        have := hp (j + 1) (by omega)
        simpa only [List.getD_cons_succ] using this

/-- `getD` through `drop`. -/
theorem getD_drop (l : List Nat) (n j : Nat) :
    (l.drop n).getD j 0 = l.getD (n + j) 0 := by
  rcases Nat.lt_or_ge (n + j) l.length with h | h
  · have h2 : j < (l.drop n).length := by
      rw [List.length_drop]
      omega
    rw [List.getD_eq_getElem _ _ h2, List.getD_eq_getElem _ _ h]
    simp
  · have h2 : (l.drop n).length ≤ j := by
      rw [List.length_drop]
      omega
    rw [List.getD_eq_default _ _ h2, List.getD_eq_default _ _ h]

/-- `getD` through `take` (inside the window). -/
theorem getD_take_lt (l : List Nat) (n j : Nat) (h : j < n) :
    (l.take n).getD j 0 = l.getD j 0 := by
  rcases Nat.lt_or_ge j l.length with h' | h'
  · have h2 : j < (l.take n).length := by
      rw [List.length_take]
      omega
    rw [List.getD_eq_getElem _ _ h2, List.getD_eq_getElem _ _ h']
    simp
  · have h2 : (l.take n).length ≤ j := by
      rw [List.length_take]
      omega
    rw [List.getD_eq_default _ _ h2, List.getD_eq_default _ _ h']

/-- Lists of equal length agreeing pointwise are equal. -/
theorem list_eq_of_getD (a b : List Nat) (hlen : a.length = b.length)
    (h : ∀ j, j < a.length → a.getD j 0 = b.getD j 0) : a = b := by
  apply List.ext_getElem hlen
  intro j h1 h2
  have := h j h1
  rwa [List.getD_eq_getElem _ _ h1, List.getD_eq_getElem _ _ h2] at this

/-- Equal-length prefixes are equal. -/
theorem prefix_length_eq (a b : List Nat) (h : a.isPrefixOf b = true)
    (hlen : a.length = b.length) : a = b := by
  rcases (prefix_getD a b).mp h with ⟨_, hp⟩
  exact list_eq_of_getD a b hlen hp

/-- `find?` skips a leading block with no match. -/
theorem find?_append_none {α : Type} (p : α → Bool) :
    ∀ (l1 l2 : List α), l1.find? p = none →
      (l1 ++ l2).find? p = l2.find? p
  | [], l2, _ => rfl
  | a :: l1, l2, h => by
      rw [List.find?_cons] at h
      split at h
      · exact absurd h (by simp)
      · next hp =>
          rw [List.cons_append, List.find?_cons, hp]
          exact find?_append_none p l1 l2 h

/-- Removing a non-matching element from the middle leaves `find?`
unchanged. -/
theorem find?_insert_skip {α : Type} (p : α → Bool) (x : α) (hx : p x = false) :
    ∀ (l1 l2 : List α), (l1 ++ x :: l2).find? p = (l1 ++ l2).find? p
  | [], l2 => by
      rw [List.nil_append, List.find?_cons, hx]
      rfl
  | a :: l1, l2 => by
      rw [List.cons_append, List.cons_append, List.find?_cons, List.find?_cons]
      cases hp : p a with
      | true => rfl
      | false => exact find?_insert_skip p x hx l1 l2

/-! ## Basic facts about `patLookup` -/

/-- Lookup of the empty word is always absent. -/
theorem patLookup_nil (fuel : Nat) (t : Index.PatriciaNode) :
    patLookup fuel t [] = none := by
  cases fuel with
  | zero => rfl
  | succ fuel => rfl

/-- Lookup in a childless node is always absent. -/
theorem patLookup_no_children (fuel : Nat) (l : List Nat) (fr : Option Nat)
    (w : List Nat) : patLookup fuel (.mk l [] fr) w = none := by
  cases fuel with
  | zero => rfl
  | succ fuel => cases w with
    | nil => rfl
    | cons c w0 => rfl

/-- `patLookup` only reads the node's children, never its own label or
frequency. -/
theorem patLookup_congr_children (fuel : Nat) (l l' : List Nat)
    (c : List Index.PatriciaNode) (fr fr' : Option Nat) (w : List Nat) :
    patLookup fuel (.mk l c fr) w = patLookup fuel (.mk l' c fr') w := by
  cases fuel with
  | zero => rfl
  | succ fuel => cases w with
    | nil => rfl
    | cons x w0 => rfl

/-- Unfolding of `patLookup` on a non-empty word. -/
theorem patLookup_cons (fuel : Nat) (t : Index.PatriciaNode) (c : Nat)
    (w0 : List Nat) :
    patLookup (fuel + 1) t (c :: w0) =
      match t.children.find? (fun ch => ch.letters.headD 0 == c) with
      | none => none
      | some ch =>
          if ch.letters.isPrefixOf (c :: w0) then
            if (c :: w0).length == ch.letters.length then ch.freq
            else patLookup fuel ch ((c :: w0).drop ch.letters.length)
          else none := rfl

/-- In a sorted trie, `patLookup` is insensitive to the fuel as long as the
fuel covers the word length. -/
theorem patLookup_fuel_go : ∀ (n : Nat) (w : List Nat), w.length ≤ n →
    ∀ (t : Index.PatriciaNode) (f1 f2 : Nat), SortedTrie t →
      w.length ≤ f1 → w.length ≤ f2 → patLookup f1 t w = patLookup f2 t w := by
  intro n
  induction n with
  | zero =>
      intro w hw t f1 f2 _ _ _
      have : w = [] := by
        cases w with
        | nil => rfl
        | cons _ _ => simp at hw
      subst this
      rw [patLookup_nil, patLookup_nil]
  | succ n ih =>
      intro w hw t f1 f2 hs h1 h2
      cases w with
      | nil => rw [patLookup_nil, patLookup_nil]
      | cons c w0 =>
          obtain ⟨a, rfl⟩ : ∃ a, f1 = a + 1 := by
            cases f1 with
            | zero => simp at h1
            | succ a => exact ⟨a, rfl⟩
          obtain ⟨b, rfl⟩ : ∃ b, f2 = b + 1 := by
            cases f2 with
            | zero => simp at h2
            | succ b => exact ⟨b, rfl⟩
          rw [patLookup_cons, patLookup_cons]
          cases hfind : t.children.find? (fun ch => ch.letters.headD 0 == c) with
          | none => rfl
          | some ch =>
              have hmem : ch ∈ t.children := List.mem_of_find?_eq_some hfind
              obtain ⟨_, hlab, hsub⟩ := SortedTrie.inv hs
              have hchlab : ch.letters ≠ [] := hlab ch hmem
              have hlen1 : 1 ≤ ch.letters.length := by
                cases hl : ch.letters with
                | nil => exact absurd hl hchlab
                | cons _ _ => simp
              show (if ch.letters.isPrefixOf (c :: w0) = true then
                      if ((c :: w0).length == ch.letters.length) = true then
                        ch.freq
                      else patLookup a ch ((c :: w0).drop ch.letters.length)
                    else none) =
                   (if ch.letters.isPrefixOf (c :: w0) = true then
                      if ((c :: w0).length == ch.letters.length) = true then
                        ch.freq
                      else patLookup b ch ((c :: w0).drop ch.letters.length)
                    else none)
              split
              · split
                · rfl
                · have hlen : ((c :: w0).drop ch.letters.length).length ≤ n := by
                    rw [List.length_drop]
                    simp only [List.length_cons] at hw ⊢
                    omega
                  exact ih _ hlen ch a b (hsub ch hmem)
                    (by rw [List.length_drop]
                        simp only [List.length_cons] at h1 ⊢
                        omega)
                    (by rw [List.length_drop]
                        simp only [List.length_cons] at h2 ⊢
                        omega)
              · rfl

/-- Fuel congruence for `patLookup` at the canonical fuel. -/
theorem patLookup_fuel (t : Index.PatriciaNode) (w : List Nat) (f1 f2 : Nat)
    (hs : SortedTrie t) (h1 : w.length ≤ f1) (h2 : w.length ≤ f2) :
    patLookup f1 t w = patLookup f2 t w :=
  patLookup_fuel_go w.length w (Nat.le_refl _) t f1 f2 hs h1 h2

/-- The per-child step of `patLookup`: label must prefix the word; exact
exhaustion answers the frequency, otherwise recurse on the remainder. -/
def lookChild (fuel : Nat) (ch : Index.PatriciaNode) (w : List Nat) :
    Option Nat :=
  if ch.letters.isPrefixOf w then
    if w.length == ch.letters.length then ch.freq
    else patLookup fuel ch (w.drop ch.letters.length)
  else none

/-- `patLookup` through `lookChild`. -/
theorem patLookup_cons_look (fuel : Nat) (t : Index.PatriciaNode) (c : Nat)
    (w0 : List Nat) :
    patLookup (fuel + 1) t (c :: w0) =
      match t.children.find? (fun ch => ch.letters.headD 0 == c) with
      | none => none
      | some ch => lookChild fuel ch (c :: w0) := rfl

/-- `getD` after `set` at the set position. -/
theorem getD_set_self {α : Type} : ∀ (l : List α) (r : Nat) (d x : α),
    r < l.length → (l.set r d).getD r x = d
  | [], r, d, x, h => by simp at h
  | a :: t, 0, d, x, _ => by simp
  | a :: t, r + 1, d, x, h => by
      simp only [List.set_cons_succ, List.getD_cons_succ]
      exact getD_set_self t r d x (by simpa using h)

/-- `getD` after `set` away from the set position. -/
theorem getD_set_ne {α : Type} : ∀ (l : List α) (r j : Nat) (d x : α),
    j ≠ r → (l.set r d).getD j x = l.getD j x
  | [], r, j, d, x, h => by simp
  | a :: t, 0, 0, d, x, h => by omega
  | a :: t, 0, j + 1, d, x, h => by simp
  | a :: t, r + 1, 0, d, x, h => by simp
  | a :: t, r + 1, j + 1, d, x, h => by
      simp only [List.set_cons_succ, List.getD_cons_succ]
      exact getD_set_ne t r j d x (by omega)

/-- Keys are strictly increasing along a sorted child list. -/
theorem sorted_keys (t : Index.PatriciaNode) (hs : SortedTrie t) :
    ∀ i j, i < j → j < t.children.length →
      keyOf (t.children.getD i default) < keyOf (t.children.getD j default) := by
  obtain ⟨hpair, _, _⟩ := SortedTrie.inv hs
  intro i j hij hj
  have hi : i < t.children.length := by omega
  rw [List.getD_eq_getElem _ _ hi, List.getD_eq_getElem _ _ hj]
  exact List.pairwise_iff_getElem.mp hpair i j hi hj hij

/-- `find?` by key misses when no child has the key. -/
theorem find?_key_none (children : List Index.PatriciaNode) (c : Nat)
    (h : ∀ j, j < children.length → keyOf (children.getD j default) ≠ c) :
    children.find? (fun ch => ch.letters.headD 0 == c) = none := by
  rw [List.find?_eq_none]
  intro x hx
  obtain ⟨j, hj, rfl⟩ := List.mem_iff_getElem.mp hx
  have hne := h j hj
  rw [List.getD_eq_getElem _ _ hj] at hne
  simpa [keyOf] using hne

/-- `find?` by key hits the first child carrying the key. -/
theorem find?_key_found : ∀ (children : List Index.PatriciaNode) (c r : Nat),
    r < children.length → keyOf (children.getD r default) = c →
    (∀ j, j < r → keyOf (children.getD j default) ≠ c) →
    children.find? (fun ch => ch.letters.headD 0 == c) =
      some (children.getD r default) := by
  intro children
  induction children with
  | nil => intro c r hr _ _; simp at hr
  | cons x xs ih =>
      intro c r hr hkey hbefore
      cases r with
      | zero =>
          simp only [List.getD_cons_zero] at hkey ⊢
          rw [List.find?_cons_of_pos]
          simpa [keyOf] using hkey
      | succ r' =>
          have h0 := hbefore 0 (by omega)
          simp only [List.getD_cons_zero] at h0
          rw [List.find?_cons_of_neg _ (by simpa [keyOf] using h0)]
          simp only [List.getD_cons_succ] at hkey ⊢
          exact ih c r' (by simpa using hr) hkey
            (fun j hj => by
              have := hbefore (j + 1) (by omega)
              simpa only [List.getD_cons_succ] using this)

/-- `find?` is unchanged by a `set` whose old and new elements both fail the
predicate. -/
theorem find?_set_ne {α : Type} [Inhabited α] (p : α → Bool) :
    ∀ (l : List α) (r : Nat) (d : α), r < l.length →
      p d = false → p (l.getD r default) = false →
      (l.set r d).find? p = l.find? p := by
  intro l
  induction l with
  | nil => intro r d hr _ _; simp at hr
  | cons x xs ih =>
      intro r d hr hd hold
      cases r with
      | zero =>
          simp only [List.getD_cons_zero] at hold
          rw [List.set_cons_zero, List.find?_cons, List.find?_cons, hd, hold]
      | succ r' =>
          rw [List.set_cons_succ, List.find?_cons, List.find?_cons]
          cases hp : p x with
          | true => rfl
          | false =>
              simp only [List.getD_cons_succ] at hold
              exact ih r' d (by simpa using hr) hd hold

/-- `patLookup` resolution at a child's key. -/
theorem patLookup_at_key (t : Index.PatriciaNode) (hs : SortedTrie t)
    (r : Nat) (hr : r < t.children.length) (fuel : Nat) (w0 : List Nat) :
    patLookup (fuel + 1) t (keyOf (t.children.getD r default) :: w0) =
      lookChild fuel (t.children.getD r default)
        (keyOf (t.children.getD r default) :: w0) := by
  rw [patLookup_cons_look, find?_key_found t.children _ r hr rfl
    (fun j hj => Nat.ne_of_lt (sorted_keys t hs j r hj hr))]

/-- `patLookup` resolution away from all keys. -/
theorem patLookup_no_key (t : Index.PatriciaNode) (c : Nat)
    (h : ∀ j, j < t.children.length →
      keyOf (t.children.getD j default) ≠ c) (fuel : Nat) (w0 : List Nat) :
    patLookup (fuel + 1) t (c :: w0) = none := by
  rw [patLookup_cons_look, find?_key_none t.children c h]

/-- `patLookup` resolution at a replaced child's key. -/
theorem patLookup_set_at_key (t : Index.PatriciaNode) (hs : SortedTrie t)
    (r : Nat) (hr : r < t.children.length) (d : Index.PatriciaNode)
    (hk : keyOf d = keyOf (t.children.getD r default)) (fuel : Nat)
    (w0 : List Nat) :
    patLookup (fuel + 1) (t.set_child r d)
        (keyOf (t.children.getD r default) :: w0) =
      lookChild fuel d (keyOf (t.children.getD r default) :: w0) := by
  rw [patLookup_cons_look]
  have hchild : (t.set_child r d).children = t.children.set r d := rfl
  rw [hchild, find?_key_found (t.children.set r d) _ r
    (by rw [List.length_set]; exact hr)
    (by rw [getD_set_self t.children r d default hr]; exact hk)
    (fun j hj => by
      rw [getD_set_ne t.children r j d default (by omega)]
      exact Nat.ne_of_lt (sorted_keys t hs j r hj hr))]
  rw [getD_set_self t.children r d default hr]

/-- `patLookup` is unchanged by replacing a child of another key. -/
theorem patLookup_set_no_key (t : Index.PatriciaNode) (hs : SortedTrie t)
    (r : Nat) (hr : r < t.children.length) (d : Index.PatriciaNode)
    (hk : keyOf d = keyOf (t.children.getD r default)) (c : Nat)
    (hc : c ≠ keyOf (t.children.getD r default)) (fuel : Nat)
    (w0 : List Nat) :
    patLookup (fuel + 1) (t.set_child r d) (c :: w0) =
      patLookup (fuel + 1) t (c :: w0) := by
  rw [patLookup_cons_look, patLookup_cons_look]
  have hchild : (t.set_child r d).children = t.children.set r d := rfl
  rw [hchild, find?_set_ne _ t.children r d hr
    (by rw [beq_eq_false_iff_ne]
        show keyOf d ≠ c
        rw [hk]
        exact fun h => hc h.symm)
    (by rw [beq_eq_false_iff_ne]
        show keyOf (t.children.getD r default) ≠ c
        exact fun h => hc h.symm)]

/-- The binary search of `insert` on a sorted child list: `Ok` lands on the
child whose key is the word's first character, `Err` separates the smaller
and larger keys. -/
theorem insert_binsearch_spec (t : Index.PatriciaNode) (w : List Nat)
    (hs : SortedTrie t) (hw : w ≠ []) :
    match binary_search_by t.children
        (fun child => cmpOpt child.letters.head? w.head?) with
    | .ok r => r < t.children.length ∧
        keyOf (t.children.getD r default) = w.headD 0
    | .error r => r ≤ t.children.length ∧
        (∀ j, j < t.children.length →
          (j < r ↔ keyOf (t.children.getD j default) < w.headD 0)) ∧
        (∀ j, r ≤ j → j < t.children.length →
          w.headD 0 < keyOf (t.children.getD j default)) := by
  obtain ⟨hpair, hlab, hsub⟩ := SortedTrie.inv hs
  have hbridge : ∀ j, j < t.children.length →
      cmpOpt (t.children.getD j default).letters.head? w.head? =
        compare (keyOf (t.children.getD j default)) (w.headD 0) := by
    intro j hj
    have hmem : t.children.getD j default ∈ t.children := by
      rw [List.getD_eq_getElem _ _ hj]
      exact List.getElem_mem hj
    rw [head?_eq_headD _ (hlab _ hmem), head?_eq_headD w hw]
    rfl
  have Hlt : ∀ i j, i ≤ j → j < t.children.length →
      cmpOpt (t.children.getD j default).letters.head? w.head? = .lt →
      cmpOpt (t.children.getD i default).letters.head? w.head? = .lt := by
    intro i j hij hj hlt
    rw [hbridge j hj] at hlt
    have hj' := Nat.compare_eq_lt.mp hlt
    rw [hbridge i (by omega)]
    rcases Nat.lt_or_ge i j with hij' | hij'
    · exact Nat.compare_eq_lt.mpr (lt_trans (sorted_keys t hs i j hij' hj) hj')
    · have : i = j := by omega
      subst this
      exact Nat.compare_eq_lt.mpr hj'
  have Hgt : ∀ i j, i ≤ j → j < t.children.length →
      cmpOpt (t.children.getD i default).letters.head? w.head? = .gt →
      cmpOpt (t.children.getD j default).letters.head? w.head? = .gt := by
    intro i j hij hj hgt
    have hi : i < t.children.length := by omega
    rw [hbridge i hi] at hgt
    have hi' := Nat.compare_eq_gt.mp hgt
    rw [hbridge j hj]
    rcases Nat.lt_or_ge i j with hij' | hij'
    · exact Nat.compare_eq_gt.mpr (lt_trans hi' (sorted_keys t hs i j hij' hj))
    · have : i = j := by omega
      subst this
      exact Nat.compare_eq_gt.mpr hi'
  have hspec := binary_search_by_spec t.children
    (fun child => cmpOpt child.letters.head? w.head?) Hlt Hgt
  cases hres : binary_search_by t.children
      (fun child => cmpOpt child.letters.head? w.head?) with
  | ok r =>
      simp only [hres] at hspec
      obtain ⟨hr, hceq⟩ := hspec
      rw [hbridge r hr] at hceq
      exact ⟨hr, Nat.compare_eq_eq.mp hceq⟩
  | error r =>
      simp only [hres] at hspec
      obtain ⟨hrle, hltiff, hgtall⟩ := hspec
      refine ⟨hrle, ?_, ?_⟩
      · intro j hj
        rw [hltiff j hj, hbridge j hj]
        exact Nat.compare_eq_lt
      · intro j hjr hj
        have := hgtall j hjr hj
        rw [hbridge j hj] at this
        exact Nat.compare_eq_gt.mp this

/-- Reflexivity of `isPrefixOf`. -/
theorem isPrefixOf_self (w : List Nat) : w.isPrefixOf w = true :=
  (prefix_getD w w).mpr ⟨Nat.le_refl _, fun _ _ => rfl⟩

/-- Divide branch, equal word: the refreshed node answers `f` on the word
itself and is otherwise unchanged. -/
theorem lookChild_divide_eq (L : List Nat) (C : List Index.PatriciaNode)
    (F : Option Nat) (f fuel : Nat) (w' : List Nat) :
    lookChild fuel (.mk L C (some f)) w' =
      if w' = L then some f else lookChild fuel (.mk L C F) w' := by
  simp only [lookChild, Index.PatriciaNode.letters, Index.PatriciaNode.freq,
    Index.PatriciaNode.children]
  by_cases hpre : L.isPrefixOf w' = true
  · by_cases hlen : w'.length = L.length
    · have hEq : w' = L := (prefix_length_eq L w' hpre hlen.symm).symm
      rw [if_pos hpre, if_pos (by simp [hlen]), if_pos hEq]
    · have hne : w' ≠ L := fun h => hlen (by rw [h])
      rw [if_pos hpre, if_neg (by simpa using hlen), if_neg hne, if_pos hpre,
        if_neg (by simpa using hlen)]
      exact patLookup_congr_children fuel L L C (some f) F _
  · have hne : w' ≠ L := by
      rintro rfl
      exact hpre (isPrefixOf_self w')
    rw [if_neg hpre, if_neg hne, if_neg hpre]

/-- A prefix test decomposes across an agreeing front segment. -/
theorem prefix_drop_iff (L w' : List Nat) (n : Nat) (hn : n ≤ L.length)
    (hnw : n ≤ w'.length) (hag : ∀ j, j < n → L.getD j 0 = w'.getD j 0) :
    (L.isPrefixOf w' = true) ↔ ((L.drop n).isPrefixOf (w'.drop n) = true) := by
  rw [prefix_getD, prefix_getD]
  constructor
  · rintro ⟨h1, h2⟩
    refine ⟨by simp only [List.length_drop]; omega, ?_⟩
    intro j hj
    rw [getD_drop, getD_drop]
    apply h2
    simp only [List.length_drop] at hj
    omega
  · rintro ⟨h1, h2⟩
    simp only [List.length_drop] at h1
    refine ⟨by omega, ?_⟩
    intro j hj
    rcases Nat.lt_or_ge j n with hjn | hjn
    · exact hag j hjn
    · have h3 := h2 (j - n) (by simp only [List.length_drop]; omega)
      rw [getD_drop, getD_drop] at h3
      have hjeq : n + (j - n) = j := by omega
      rwa [hjeq] at h3

/-- Divide branch, word a strict prefix of the label: the split node answers
`f` on the word and otherwise behaves as the original child. -/
theorem lookChild_divide_lt (L : List Nat) (C : List Index.PatriciaNode)
    (F : Option Nat) (w : List Nat) (f fuel : Nat) (w' : List Nat)
    (hsort : SortedTrie (.mk L C F)) (hw : w ≠ [])
    (hwlen : w.length < L.length)
    (hagree : ∀ j, j < w.length → L.getD j 0 = w.getD j 0)
    (hw'len : w'.length ≤ fuel + 1) :
    lookChild fuel
        (.mk (L.take w.length) [.mk (L.drop w.length) C F] (some f)) w' =
      if w' = w then some f else lookChild fuel (.mk L C F) w' := by
  have hw1 : 1 ≤ w.length := by
    cases w with
    | nil => exact absurd rfl hw
    | cons _ _ => simp
  have htake : L.take w.length = w := by
    apply list_eq_of_getD
    · rw [List.length_take]
      omega
    · intro j hj
      rw [List.length_take] at hj
      rw [getD_take_lt L w.length j (by omega)]
      exact hagree j (by omega)
  rw [htake]
  simp only [lookChild, Index.PatriciaNode.letters, Index.PatriciaNode.freq,
    Index.PatriciaNode.children]
  by_cases hpre : w.isPrefixOf w' = true
  · rcases (prefix_getD w w').mp hpre with ⟨hlen', hag'⟩
    by_cases hlen : w'.length = w.length
    · have hEq : w' = w := (prefix_length_eq w w' hpre hlen.symm).symm
      rw [if_pos hpre, if_pos (by simp [hlen]), if_pos hEq]
    · have hne : w' ≠ w := fun h => hlen (by rw [h])
      have hgt : w.length < w'.length := by omega
      rw [if_pos hpre, if_neg (by simpa using hlen), if_neg hne]
      obtain ⟨g, rfl⟩ : ∃ g, fuel = g + 1 := by
        cases fuel with
        | zero => omega
        | succ g => exact ⟨g, rfl⟩
      cases hw2 : w'.drop w.length with
      | nil =>
          exfalso
          have := congrArg List.length hw2
          simp only [List.length_drop, List.length_nil] at this
          omega
      | cons c2 w2t =>
          rw [patLookup_cons_look]
          simp only [Index.PatriciaNode.children]
          have hseckey : (Index.PatriciaNode.mk (L.drop w.length) C F).letters.headD 0 =
              L.getD w.length 0 := by
            show (L.drop w.length).headD 0 = L.getD w.length 0
            exact headD_drop L w.length
          have hc2w' : c2 = w'.getD w.length 0 := by
            have := congrArg (fun l => l.headD 0) hw2
            simp only [List.headD_cons] at this
            rw [← this, headD_drop]
          by_cases hc2 : c2 = L.getD w.length 0
          · rw [List.find?_cons_of_pos _ (by rw [beq_iff_eq, hseckey, hc2])]
            simp only [lookChild, Index.PatriciaNode.letters,
              Index.PatriciaNode.freq, Index.PatriciaNode.children]
            have hpreiff := prefix_drop_iff L w' w.length (by omega) (by omega)
              (fun j hj => by rw [hagree j hj]; exact hag' j hj)
            by_cases hLpre : L.isPrefixOf w' = true
            · have hpre2 : (L.drop w.length).isPrefixOf (c2 :: w2t) = true := by
                rw [← hw2]
                exact hpreiff.mp hLpre
              rw [if_pos hpre2, if_pos hLpre]
              have hlen2 : ((c2 :: w2t).length == (L.drop w.length).length) =
                  (w'.length == L.length) := by
                have h1 : (c2 :: w2t).length = w'.length - w.length := by
                  rw [← hw2, List.length_drop]
                rw [h1, List.length_drop]
                rcases eq_or_ne w'.length L.length with he | hne2
                · simp [he]
                · have : w'.length - w.length ≠ L.length - w.length := by omega
                  simp [hne2, this]
              rw [hlen2]
              by_cases hll : w'.length = L.length
              · rw [if_pos (by simp [hll]), if_pos (by simp [hll])]
              · rw [if_neg (by simpa using hll), if_neg (by simpa using hll)]
                have hword : (c2 :: w2t).drop (L.drop w.length).length =
                    w'.drop L.length := by
                  rw [← hw2, List.length_drop, List.drop_drop]
                  have h5 : w.length + (L.length - w.length) = L.length := by
                    omega
                  rw [h5]
                rw [hword]
                rw [patLookup_congr_children g (L.drop w.length) L C F F]
                exact patLookup_fuel (.mk L C F) (w'.drop L.length) g (g + 1)
                  hsort
                  (by rw [List.length_drop]; omega)
                  (by rw [List.length_drop]; omega)
            · have hpre2 : ¬ (L.drop w.length).isPrefixOf (c2 :: w2t) = true := by
                rw [← hw2]
                exact fun h => hLpre (hpreiff.mpr h)
              rw [if_neg hpre2, if_neg hLpre]
          · rw [List.find?_cons_of_neg _
              (by rw [beq_iff_eq, hseckey]; exact fun h => hc2 h.symm)]
            have hLpre : ¬ L.isPrefixOf w' = true := by
              intro hLp
              rcases (prefix_getD L w').mp hLp with ⟨_, hagL⟩
              exact hc2 (by rw [hc2w']; exact (hagL w.length (by omega)).symm)
            rw [if_neg hLpre]
            rfl
  · have hne : w' ≠ w := by
      rintro rfl
      exact hpre (isPrefixOf_self w')
    have hLpre : ¬ L.isPrefixOf w' = true := by
      intro hLp
      rcases (prefix_getD L w').mp hLp with ⟨hl1, hagL⟩
      apply hpre
      rw [prefix_getD]
      refine ⟨by omega, ?_⟩
      intro j hj
      rw [← hagree j hj]
      exact hagL j (by omega)
    rw [if_neg hpre, if_neg hne, if_neg hLpre]

/-- `find?` by key over a two-element list with distinct keys. -/
theorem find?_pair_resolve (n1 n2 : Index.PatriciaNode) (k1 k2 : Nat)
    (h1 : keyOf n1 = k1) (h2 : keyOf n2 = k2) (hne : k1 ≠ k2) (c2 : Nat) :
    [n1, n2].find? (fun ch => ch.letters.headD 0 == c2) =
      if c2 = k1 then some n1 else if c2 = k2 then some n2 else none := by
  by_cases ha : c2 = k1
  · rw [if_pos ha, List.find?_cons_of_pos _ (by
      rw [beq_iff_eq]
      show keyOf n1 = c2
      rw [h1, ha])]
  · rw [if_neg ha, List.find?_cons_of_neg _ (by
      rw [beq_iff_eq]
      show ¬ keyOf n1 = c2
      rw [h1]
      exact fun h => ha h.symm)]
    by_cases hb : c2 = k2
    · rw [if_pos hb, List.find?_cons_of_pos _ (by
        rw [beq_iff_eq]
        show keyOf n2 = c2
        rw [h2, hb])]
    · rw [if_neg hb, List.find?_cons_of_neg _ (by
        rw [beq_iff_eq]
        show ¬ keyOf n2 = c2
        rw [h2]
        exact fun h => hb h.symm)]
      rfl

/-- Divide branch, label and word diverging at `ind`: generic over the order
of the two created children (determined in the source by a character
comparison), characterized by the `find?` behavior. -/
theorem lookChild_divide_pair (L : List Nat) (C : List Index.PatriciaNode)
    (F : Option Nat) (w : List Nat) (f fuel ind : Nat) (w' : List Nat)
    (pair : List Index.PatriciaNode)
    (hsort : SortedTrie (.mk L C F))
    (hind1 : 1 ≤ ind) (hindL : ind < L.length) (hindw : ind < w.length)
    (hdiff : L.getD ind 0 ≠ w.getD ind 0)
    (hagree : ∀ j, j < ind → L.getD j 0 = w.getD j 0)
    (hw'len : w'.length ≤ fuel + 1)
    (hfind : ∀ c2, pair.find? (fun ch => ch.letters.headD 0 == c2) =
      if c2 = w.getD ind 0 then some (.mk (w.drop ind) [] (some f))
      else if c2 = L.getD ind 0 then some (.mk (L.drop ind) C F)
      else none) :
    lookChild fuel (.mk (L.take ind) pair none) w' =
      if w' = w then some f else lookChild fuel (.mk L C F) w' := by
  simp only [lookChild, Index.PatriciaNode.letters, Index.PatriciaNode.freq,
    Index.PatriciaNode.children]
  have hTlen : (L.take ind).length = ind := by
    rw [List.length_take]
    omega
  by_cases hpreT : (L.take ind).isPrefixOf w' = true
  · rcases (prefix_getD _ w').mp hpreT with ⟨hT1, hagT⟩
    rw [hTlen] at hT1
    have hagT' : ∀ j, j < ind → L.getD j 0 = w'.getD j 0 := by
      intro j hj
      have := hagT j (by rw [hTlen]; exact hj)
      rwa [getD_take_lt L ind j hj] at this
    by_cases hw'ind : w'.length = ind
    · rw [if_pos hpreT, if_pos (by simp [hw'ind, hTlen])]
      have hne : w' ≠ w := fun h => by
        rw [h] at hw'ind
        omega
      have hLpre : ¬ L.isPrefixOf w' = true := by
        intro hLp
        have := ((prefix_getD L w').mp hLp).1
        omega
      rw [if_neg hne, if_neg hLpre]
    · have hgt : ind < w'.length := by omega
      rw [if_pos hpreT, if_neg (by simp only [hTlen, beq_iff_eq]; omega)]
      obtain ⟨g, rfl⟩ : ∃ g, fuel = g + 1 := by
        cases fuel with
        | zero => omega
        | succ g => exact ⟨g, rfl⟩
      rw [hTlen]
      cases hw2 : w'.drop ind with
      | nil =>
          exfalso
          have := congrArg List.length hw2
          simp only [List.length_drop, List.length_nil] at this
          omega
      | cons c2 w2t =>
          rw [patLookup_cons_look]
          simp only [Index.PatriciaNode.children]
          rw [hfind c2]
          have hc2w' : c2 = w'.getD ind 0 := by
            have := congrArg (fun l => l.headD 0) hw2
            simp only [List.headD_cons] at this
            rw [← this, headD_drop]
          by_cases hc2w : c2 = w.getD ind 0
          · rw [if_pos hc2w]
            have hLpre : ¬ L.isPrefixOf w' = true := by
              intro hLp
              rcases (prefix_getD L w').mp hLp with ⟨_, hagL⟩
              exact hdiff (by rw [hagL ind (by omega), ← hc2w', hc2w])
            rw [if_neg hLpre]
            simp only [lookChild, Index.PatriciaNode.letters,
              Index.PatriciaNode.freq, Index.PatriciaNode.children]
            have hpreiff := prefix_drop_iff w w' ind (by omega) (by omega)
              (fun j hj => by rw [← hagree j hj]; exact hagT' j hj)
            by_cases hwpre : w.isPrefixOf w' = true
            · have hpre2 : (w.drop ind).isPrefixOf (c2 :: w2t) = true := by
                rw [← hw2]
                exact hpreiff.mp hwpre
              rw [if_pos hpre2]
              have hlen2 : ((c2 :: w2t).length == (w.drop ind).length) =
                  (w'.length == w.length) := by
                have h1 : (c2 :: w2t).length = w'.length - ind := by
                  rw [← hw2, List.length_drop]
                rw [h1, List.length_drop]
                rcases eq_or_ne w'.length w.length with he | hne2
                · simp [he]
                · have : w'.length - ind ≠ w.length - ind := by omega
                  simp [hne2, this]
              rw [hlen2]
              by_cases hll : w'.length = w.length
              · have hEq : w' = w := (prefix_length_eq w w' hwpre hll.symm).symm
                rw [if_pos (by simp [hll]), if_pos hEq]
              · rw [if_neg (by simpa using hll),
                  if_neg (fun h => hll (by rw [h]))]
                exact patLookup_no_children g _ _ _
            · have hpre2 : ¬ (w.drop ind).isPrefixOf (c2 :: w2t) = true := by
                rw [← hw2]
                exact fun h => hwpre (hpreiff.mpr h)
              have hne : w' ≠ w := by
                rintro rfl
                exact hwpre (isPrefixOf_self w')
              rw [if_neg hpre2, if_neg hne]
          · rw [if_neg hc2w]
            by_cases hc2L : c2 = L.getD ind 0
            · rw [if_pos hc2L]
              have hne : w' ≠ w := by
                rintro rfl
                exact hc2w hc2w'
              rw [if_neg hne]
              simp only [lookChild, Index.PatriciaNode.letters,
                Index.PatriciaNode.freq, Index.PatriciaNode.children]
              have hpreiff := prefix_drop_iff L w' ind (by omega) (by omega)
                hagT'
              by_cases hLpre : L.isPrefixOf w' = true
              · have hpre2 : (L.drop ind).isPrefixOf (c2 :: w2t) = true := by
                  rw [← hw2]
                  exact hpreiff.mp hLpre
                rw [if_pos hpre2, if_pos hLpre]
                have hlen2 : ((c2 :: w2t).length == (L.drop ind).length) =
                    (w'.length == L.length) := by
                  have h1 : (c2 :: w2t).length = w'.length - ind := by
                    rw [← hw2, List.length_drop]
                  rw [h1, List.length_drop]
                  rcases eq_or_ne w'.length L.length with he | hne2
                  · simp [he]
                  · have : w'.length - ind ≠ L.length - ind := by omega
                    simp [hne2, this]
                rw [hlen2]
                by_cases hll : w'.length = L.length
                · rw [if_pos (by simp [hll]), if_pos (by simp [hll])]
                · rw [if_neg (by simpa using hll), if_neg (by simpa using hll)]
                  have hword : (c2 :: w2t).drop (L.drop ind).length =
                      w'.drop L.length := by
                    rw [← hw2, List.length_drop, List.drop_drop]
                    have h5 : ind + (L.length - ind) = L.length := by omega
                    rw [h5]
                  rw [hword, patLookup_congr_children g (L.drop ind) L C F F]
                  exact patLookup_fuel (.mk L C F) (w'.drop L.length) g (g + 1)
                    hsort
                    (by rw [List.length_drop]; omega)
                    (by rw [List.length_drop]; omega)
              · have hpre2 : ¬ (L.drop ind).isPrefixOf (c2 :: w2t) = true := by
                  rw [← hw2]
                  exact fun h => hLpre (hpreiff.mpr h)
                rw [if_neg hpre2, if_neg hLpre]
            · rw [if_neg hc2L]
              have hne : w' ≠ w := by
                rintro rfl
                exact hc2w hc2w'
              have hLpre : ¬ L.isPrefixOf w' = true := by
                intro hLp
                rcases (prefix_getD L w').mp hLp with ⟨_, hagL⟩
                exact hc2L (by rw [hc2w']; exact (hagL ind (by omega)).symm)
              rw [if_neg hne, if_neg hLpre]
  · have hne : w' ≠ w := by
      rintro rfl
      apply hpreT
      rw [prefix_getD]
      refine ⟨by rw [hTlen]; omega, ?_⟩
      intro j hj
      rw [hTlen] at hj
      rw [getD_take_lt L ind j hj]
      exact hagree j hj
    have hLpre : ¬ L.isPrefixOf w' = true := by
      intro hLp
      rcases (prefix_getD L w').mp hLp with ⟨hl1, hagL⟩
      apply hpreT
      rw [prefix_getD]
      refine ⟨by rw [hTlen]; omega, ?_⟩
      intro j hj
      rw [hTlen] at hj
      rw [getD_take_lt L ind j hj]
      exact hagL j (by omega)
    rw [if_neg hpreT, if_neg hne, if_neg hLpre]

/-- Divide branch, label and word diverging at `ind`: the split node answers
`f` on the word and otherwise behaves as the original child. -/
theorem lookChild_divide_some (L : List Nat) (C : List Index.PatriciaNode)
    (F : Option Nat) (w : List Nat) (f fuel ind : Nat) (w' : List Nat)
    (hsort : SortedTrie (.mk L C F))
    (hind1 : 1 ≤ ind) (hindL : ind < L.length) (hindw : ind < w.length)
    (hdiff : L.getD ind 0 ≠ w.getD ind 0)
    (hagree : ∀ j, j < ind → L.getD j 0 = w.getD j 0)
    (hw'len : w'.length ≤ fuel + 1) :
    lookChild fuel ((Index.PatriciaNode.mk L C F).divide_node w ind f) w' =
      if w' = w then some f else lookChild fuel (.mk L C F) w' := by
  simp only [Index.PatriciaNode.divide_node, Index.PatriciaNode.letters,
    Index.PatriciaNode.children, Index.PatriciaNode.freq]
  have hsw : ¬ (w.drop ind).isEmpty = true := by
    rw [List.isEmpty_iff, List.drop_eq_nil_iff]
    omega
  rw [if_neg hsw]
  have hnewk : keyOf (.mk (w.drop ind) [] (some f)) = w.getD ind 0 := by
    show (w.drop ind).headD 0 = w.getD ind 0
    exact headD_drop w ind
  have hseck : keyOf (.mk (L.drop ind) C F) = L.getD ind 0 := by
    show (L.drop ind).headD 0 = L.getD ind 0
    exact headD_drop L ind
  have hkne : w.getD ind 0 ≠ L.getD ind 0 := fun h => hdiff h.symm
  cases hcmp : compare ((w.drop ind).headD 0) ((L.drop ind).headD 0) with
  | lt =>
      exact lookChild_divide_pair L C F w f fuel ind w' _ hsort hind1 hindL
        hindw hdiff hagree hw'len
        (fun c2 => find?_pair_resolve _ _ (w.getD ind 0) (L.getD ind 0) hnewk
          hseck hkne c2)
  | eq =>
      exact lookChild_divide_pair L C F w f fuel ind w' _ hsort hind1 hindL
        hindw hdiff hagree hw'len
        (fun c2 => find?_pair_resolve _ _ (w.getD ind 0) (L.getD ind 0) hnewk
          hseck hkne c2)
  | gt =>
      refine lookChild_divide_pair L C F w f fuel ind w' _ hsort hind1 hindL
        hindw hdiff hagree hw'len (fun c2 => ?_)
      rw [find?_pair_resolve _ _ (L.getD ind 0) (w.getD ind 0) hseck hnewk
        (fun h => hkne h.symm) c2]
      by_cases h1 : c2 = L.getD ind 0 <;> by_cases h2 : c2 = w.getD ind 0
      · exact absurd (h2.symm.trans h1) hkne
      · rw [if_pos h1, if_neg h2, if_pos h1]
      · rw [if_neg h1, if_pos h2, if_pos h2]
      · rw [if_neg h1, if_neg h2, if_neg h2, if_neg h1]

/-- Inserting a fresh leaf at the binary-search insertion point: lookup finds
the new word there and is otherwise unchanged. -/
theorem patLookup_create_insert (t : Index.PatriciaNode) (r : Nat)
    (w : List Nat) (f : Nat) (hs : SortedTrie t) (hw : w ≠ [])
    (hrle : r ≤ t.children.length)
    (hltiff : ∀ j, j < t.children.length →
      (j < r ↔ keyOf (t.children.getD j default) < w.headD 0))
    (hgtall : ∀ j, r ≤ j → j < t.children.length →
      w.headD 0 < keyOf (t.children.getD j default)) :
    ∀ w', w' ≠ [] →
      patLookup w'.length (t.create_and_insert_at r w f) w' =
        if w' = w then some f else patLookup w'.length t w' := by
  have hkey_ne : ∀ j, j < t.children.length →
      keyOf (t.children.getD j default) ≠ w.headD 0 := by
    intro j hj
    rcases Nat.lt_or_ge j r with hjr | hjr
    · exact Nat.ne_of_lt ((hltiff j hj).mp hjr)
    · exact Nat.ne_of_gt (hgtall j hjr hj)
  intro w' hw'
  cases w' with
  | nil => exact absurd rfl hw'
  | cons c' w0' =>
      rw [List.length_cons, patLookup_cons_look]
      have hch : (t.create_and_insert_at r w f).children =
          t.children.take r ++
            (Index.PatriciaNode.mk w [] (some f)) :: t.children.drop r := rfl
      rw [hch]
      have hleafkey : (Index.PatriciaNode.mk w [] (some f)).letters.headD 0 =
          w.headD 0 := rfl
      by_cases hc' : c' = w.headD 0
      · have htakenone : (t.children.take r).find?
            (fun ch => ch.letters.headD 0 == c') = none := by
          rw [List.find?_eq_none]
          intro x hx
          obtain ⟨j, hj, hjx⟩ := List.mem_iff_getElem.mp hx
          have hjlen : j < r := by
            rw [List.length_take] at hj
            omega
          have hjlen2 : j < t.children.length := by
            rw [List.length_take] at hj
            omega
          have hxval : x = t.children.getD j default := by
            rw [← hjx, List.getD_eq_getElem _ _ hjlen2]
            simp [List.getElem_take]
          have hne2 := hkey_ne j hjlen2
          rw [← hxval] at hne2
          simp only [beq_iff_eq]
          show ¬ x.letters.headD 0 = c'
          intro hxx
          exact hne2 (by rw [← hc', ← hxx]; rfl)
        rw [find?_append_none _ _ _ htakenone,
          List.find?_cons_of_pos _ (by rw [beq_iff_eq, hleafkey, hc'])]
        have hrhs : patLookup (w0'.length + 1) t (c' :: w0') = none :=
          patLookup_no_key t c'
            (fun j hj h => hkey_ne j hj (by rw [h, hc'])) w0'.length w0'
        rw [hrhs]
        simp only [lookChild, Index.PatriciaNode.letters,
          Index.PatriciaNode.freq, Index.PatriciaNode.children]
        by_cases hpre : w.isPrefixOf (c' :: w0') = true
        · by_cases hlen : (c' :: w0').length = w.length
          · have hEq : c' :: w0' = w :=
              (prefix_length_eq w _ hpre hlen.symm).symm
            rw [if_pos hpre, if_pos (by simp [← hlen]), if_pos hEq]
          · have hne : c' :: w0' ≠ w := fun h => hlen (by rw [h])
            rw [if_pos hpre, if_neg (by simpa using hlen), if_neg hne]
            exact patLookup_no_children _ _ _ _
        · have hne : c' :: w0' ≠ w := by
            rintro rfl
            exact hpre (isPrefixOf_self _)
          rw [if_neg hpre, if_neg hne]
      · rw [find?_insert_skip _ _
          (by rw [beq_eq_false_iff_ne, hleafkey]
              exact fun h => hc' h.symm),
          List.take_append_drop, patLookup_cons_look]
        have hne : c' :: w0' ≠ w := by
          intro h
          apply hc'
          have h2 := congrArg (fun l => List.headD l 0) h
          simpa using h2
        rw [if_neg hne]

/-- Words with a common prefix and equal remainders are equal. -/
theorem eq_of_prefix_drop (L w w' : List Nat)
    (hLw : L.isPrefixOf w = true) (hLw' : L.isPrefixOf w' = true)
    (hdrop : w'.drop L.length = w.drop L.length) : w' = w := by
  rcases (prefix_getD L w).mp hLw with ⟨hl1, hag1⟩
  rcases (prefix_getD L w').mp hLw' with ⟨hl2, hag2⟩
  have hlen : w'.length = w.length := by
    have := congrArg List.length hdrop
    simp only [List.length_drop] at this
    omega
  apply list_eq_of_getD _ _ hlen
  intro j hj
  rcases Nat.lt_or_ge j L.length with hjL | hjL
  · rw [← hag2 j hjL, hag1 j hjL]
  · have := congrArg (fun l => List.getD l (j - L.length) 0) hdrop
    simp only at this
    rw [getD_drop, getD_drop] at this
    have h5 : L.length + (j - L.length) = j := by omega
    rwa [h5] at this

/-- `insert_go` never changes the node's own label. -/
theorem insert_go_letters (fuel : Nat) (t : Index.PatriciaNode) (w : List Nat)
    (f : Nat) :
    (Index.PatriciaNode.insert_go fuel t w f).letters = t.letters := by
  cases fuel with
  | zero => rfl
  | succ fuel =>
      cases hres : binary_search_by t.children
          (fun child => cmpOpt child.letters.head? w.head?) with
      | error r =>
          have heq : Index.PatriciaNode.insert_go (fuel + 1) t w f =
              t.create_and_insert_at r w f := by
            simp only [Index.PatriciaNode.insert_go]
            rw [hres]
          rw [heq]
          rfl
      | ok r =>
          have heq : Index.PatriciaNode.insert_go (fuel + 1) t w f =
              (if ((t.children.getD r default).divide w f).2 then
                t.set_child r ((t.children.getD r default).divide w f).1
               else
                t.set_child r (Index.PatriciaNode.insert_go fuel
                  (t.children.getD r default)
                  (w.drop (t.children.getD r default).letters.length) f)) := by
            simp only [Index.PatriciaNode.insert_go]
            rw [hres]
          rw [heq]
          cases ((t.children.getD r default).divide w f).2 with
          | true => rfl
          | false => rfl

/-- `insert_go` never changes the node's own frequency. -/
theorem insert_go_freq (fuel : Nat) (t : Index.PatriciaNode) (w : List Nat)
    (f : Nat) :
    (Index.PatriciaNode.insert_go fuel t w f).freq = t.freq := by
  cases fuel with
  | zero => rfl
  | succ fuel =>
      cases hres : binary_search_by t.children
          (fun child => cmpOpt child.letters.head? w.head?) with
      | error r =>
          have heq : Index.PatriciaNode.insert_go (fuel + 1) t w f =
              t.create_and_insert_at r w f := by
            simp only [Index.PatriciaNode.insert_go]
            rw [hres]
          rw [heq]
          rfl
      | ok r =>
          have heq : Index.PatriciaNode.insert_go (fuel + 1) t w f =
              (if ((t.children.getD r default).divide w f).2 then
                t.set_child r ((t.children.getD r default).divide w f).1
               else
                t.set_child r (Index.PatriciaNode.insert_go fuel
                  (t.children.getD r default)
                  (w.drop (t.children.getD r default).letters.length) f)) := by
            simp only [Index.PatriciaNode.insert_go]
            rw [hres]
          rw [heq]
          cases ((t.children.getD r default).divide w f).2 with
          | true => rfl
          | false => rfl

/-- The central semantic lemma for C2's intermediate side: one `insert_go`
call assigns the inserted word its frequency and leaves every other lookup
unchanged. -/
theorem insert_go_lookup : ∀ (fuel : Nat) (t : Index.PatriciaNode)
    (w : List Nat) (f : Nat), SortedTrie t → w ≠ [] → w.length < fuel →
    ∀ w', w' ≠ [] →
      patLookup w'.length (Index.PatriciaNode.insert_go fuel t w f) w' =
        if w' = w then some f else patLookup w'.length t w' := by
  intro fuel
  induction fuel with
  | zero => intro t w f _ _ h; omega
  | succ fuel ih =>
      intro t w f hs hw hflen w' hw'
      have hspec := insert_binsearch_spec t w hs hw
      cases hres : binary_search_by t.children
          (fun child => cmpOpt child.letters.head? w.head?) with
      | error r =>
          simp only [hres] at hspec
          obtain ⟨hrle, hltiff, hgtall⟩ := hspec
          have heq : Index.PatriciaNode.insert_go (fuel + 1) t w f =
              t.create_and_insert_at r w f := by
            simp only [Index.PatriciaNode.insert_go]
            rw [hres]
          rw [heq]
          exact patLookup_create_insert t r w f hs hw hrle hltiff hgtall w' hw'
      | ok r =>
          simp only [hres] at hspec
          obtain ⟨hr, hkey⟩ := hspec
          obtain ⟨hpair, hlab, hsub⟩ := SortedTrie.inv hs
          have hmem : t.children.getD r default ∈ t.children := by
            rw [List.getD_eq_getElem _ _ hr]
            exact List.getElem_mem hr
          have hclab := hlab _ hmem
          have hcsort := hsub _ hmem
          have hkeyhead : (t.children.getD r default).letters.headD 0 =
              w.headD 0 := hkey
          have hcl1 : 1 ≤ (t.children.getD r default).letters.length := by
            cases hl : (t.children.getD r default).letters with
            | nil => exact absurd hl hclab
            | cons _ _ => simp
          have hwl1 : 1 ≤ w.length := by
            cases w with
            | nil => exact absurd rfl hw
            | cons _ _ => simp
          have heq : Index.PatriciaNode.insert_go (fuel + 1) t w f =
              (if ((t.children.getD r default).divide w f).2 then
                t.set_child r ((t.children.getD r default).divide w f).1
               else
                t.set_child r (Index.PatriciaNode.insert_go fuel
                  (t.children.getD r default)
                  (w.drop (t.children.getD r default).letters.length) f)) := by
            simp only [Index.PatriciaNode.insert_go]
            rw [hres]
          rw [heq]
          cases w' with
          | nil => exact absurd rfl hw'
          | cons c' w0' =>
          by_cases hc' : c' = keyOf (t.children.getD r default)
          · subst hc'
            cases hdiv : ((t.children.getD r default).divide w f).2 with
            | true =>
                rw [if_pos rfl]
                have hdk := divide_sorted (t.children.getD r default) w f
                  hcsort hclab hw hkeyhead hdiv
                rw [List.length_cons,
                  patLookup_set_at_key t hs r hr _ hdk.2.1 w0'.length w0',
                  patLookup_at_key t hs r hr w0'.length w0']
                cases hind : index_difference
                    (t.children.getD r default).letters w with
                | some ind =>
                    rcases index_difference_some _ _ _ hind with
                      ⟨h1, h2, h3, h4⟩
                    have hind1 : 1 ≤ ind := by
                      rcases Nat.eq_zero_or_pos ind with rfl | h
                      · exfalso
                        apply h3
                        have ha : (t.children.getD r default).letters.getD 0 0 =
                            (t.children.getD r default).letters.headD 0 := by
                          cases (t.children.getD r default).letters <;> simp
                        have hb : w.getD 0 0 = w.headD 0 := by
                          cases w <;> simp
                        rw [ha, hb, hkeyhead]
                      · omega
                    rw [divide_eq_some _ _ _ _ hind]
                    generalize hg : t.children.getD r default = chv at *
                    obtain ⟨L, C, F⟩ := chv
                    exact lookChild_divide_some L C F w f w0'.length ind _
                      hcsort hind1 h1 h2 h3 h4 (by rw [List.length_cons])
                | none =>
                    cases hcmp : compare w.length
                        (t.children.getD r default).letters.length with
                    | lt =>
                        rw [divide_eq_none_lt _ _ _ hind hcmp]
                        have hwlen := Nat.compare_eq_lt.mp hcmp
                        have hagree : ∀ j, j < w.length →
                            (t.children.getD r default).letters.getD j 0 =
                              w.getD j 0 := fun j hj =>
                          index_difference_none _ _ hind j (by omega) hj
                        generalize hg : t.children.getD r default = chv at *
                        obtain ⟨L, C, F⟩ := chv
                        simp only [Index.PatriciaNode.divide_node,
                          Index.PatriciaNode.letters,
                          Index.PatriciaNode.children,
                          Index.PatriciaNode.freq]
                        rw [if_pos (by simp)]
                        exact lookChild_divide_lt L C F w f w0'.length _
                          hcsort hw hwlen hagree (by rw [List.length_cons])
                    | eq =>
                        rw [divide_eq_none_eq _ _ _ hind hcmp]
                        have hleq := Nat.compare_eq_eq.mp hcmp
                        have hLw : (t.children.getD r default).letters = w := by
                          apply list_eq_of_getD _ _ (by omega)
                          intro j hj
                          exact index_difference_none _ _ hind j hj (by omega)
                        generalize hg : t.children.getD r default = chv at *
                        obtain ⟨L, C, F⟩ := chv
                        have hLw' : L = w := hLw
                        rw [hLw']
                        exact lookChild_divide_eq w C F f w0'.length _
                    | gt =>
                        exfalso
                        rw [divide_eq_none_gt _ _ _ hind hcmp] at hdiv
                        simp at hdiv
            | false =>
                rw [if_neg Bool.false_ne_true]
                obtain ⟨_, hdlt⟩ :=
                  divide_false (t.children.getD r default) w f hdiv
                have hncletters := insert_go_letters fuel
                  (t.children.getD r default)
                  (w.drop (t.children.getD r default).letters.length) f
                have hncfreq := insert_go_freq fuel
                  (t.children.getD r default)
                  (w.drop (t.children.getD r default).letters.length) f
                have hkeq : keyOf (Index.PatriciaNode.insert_go fuel
                    (t.children.getD r default)
                    (w.drop (t.children.getD r default).letters.length) f) =
                    keyOf (t.children.getD r default) := by
                  show (Index.PatriciaNode.insert_go fuel _ _ f).letters.headD 0
                    = _
                  rw [hncletters]
                  rfl
                rw [List.length_cons,
                  patLookup_set_at_key t hs r hr _ hkeq w0'.length w0',
                  patLookup_at_key t hs r hr w0'.length w0']
                have hagree : ∀ j,
                    j < (t.children.getD r default).letters.length →
                    (t.children.getD r default).letters.getD j 0 =
                      w.getD j 0 := by
                  intro j hj
                  cases hind : index_difference
                      (t.children.getD r default).letters w with
                  | some ind =>
                      exfalso
                      rw [divide_eq_some _ _ _ _ hind] at hdiv
                      simp at hdiv
                  | none =>
                      exact index_difference_none _ _ hind j hj (by omega)
                have hLpw : (t.children.getD r default).letters.isPrefixOf w
                    = true :=
                  (prefix_getD _ _).mpr ⟨by omega, hagree⟩
                have hw2ne : w.drop (t.children.getD r default).letters.length
                    ≠ [] := by
                  rw [ne_eq, List.drop_eq_nil_iff]
                  omega
                have hw2len :
                    (w.drop (t.children.getD r default).letters.length).length
                      < fuel := by
                  rw [List.length_drop]
                  omega
                have hncsort := (insert_go_sorted fuel
                  (t.children.getD r default)
                  (w.drop (t.children.getD r default).letters.length) f
                  hcsort hw2ne).1
                simp only [lookChild, hncletters, hncfreq]
                by_cases hpre : (t.children.getD r default).letters.isPrefixOf
                    (keyOf (t.children.getD r default) :: w0') = true
                · rw [if_pos hpre, if_pos hpre]
                  by_cases hlen : (keyOf (t.children.getD r default) ::
                      w0').length = (t.children.getD r default).letters.length
                  · rw [if_pos (show ((keyOf (t.children.getD r default) ::
                        w0').length ==
                        (t.children.getD r default).letters.length) = true by
                        rw [beq_iff_eq]; exact hlen),
                      if_pos (show ((keyOf (t.children.getD r default) ::
                        w0').length ==
                        (t.children.getD r default).letters.length) = true by
                        rw [beq_iff_eq]; exact hlen)]
                    have hne : keyOf (t.children.getD r default) :: w0' ≠ w :=
                      by
                      intro hEq
                      have := congrArg List.length hEq
                      rw [hlen] at this
                      omega
                    rw [if_neg hne]
                  · rw [if_neg (show ¬ ((keyOf (t.children.getD r default) ::
                        w0').length ==
                        (t.children.getD r default).letters.length) = true by
                        rw [beq_iff_eq]; exact hlen),
                      if_neg (show ¬ ((keyOf (t.children.getD r default) ::
                        w0').length ==
                        (t.children.getD r default).letters.length) = true by
                        rw [beq_iff_eq]; exact hlen)]
                    have hw2'ne : ((keyOf (t.children.getD r default) ::
                        w0').drop
                        (t.children.getD r default).letters.length) ≠ [] := by
                      rw [ne_eq, List.drop_eq_nil_iff]
                      rcases (prefix_getD _ _).mp hpre with ⟨hp1, _⟩
                      have hlen' := hlen
                      simp only [List.length_cons] at hp1 hlen' ⊢
                      omega
                    have hchain1 : patLookup w0'.length
                        (Index.PatriciaNode.insert_go fuel
                          (t.children.getD r default)
                          (w.drop
                            (t.children.getD r default).letters.length) f)
                        ((keyOf (t.children.getD r default) :: w0').drop
                          (t.children.getD r default).letters.length) =
                        patLookup ((keyOf (t.children.getD r default) ::
                          w0').drop
                          (t.children.getD r default).letters.length).length
                        (Index.PatriciaNode.insert_go fuel
                          (t.children.getD r default)
                          (w.drop
                            (t.children.getD r default).letters.length) f)
                        ((keyOf (t.children.getD r default) :: w0').drop
                          (t.children.getD r default).letters.length) := by
                      apply patLookup_fuel _ _ _ _ hncsort
                      · rw [List.length_drop, List.length_cons]
                        omega
                      · exact Nat.le_refl _
                    rw [hchain1, ih (t.children.getD r default)
                      (w.drop (t.children.getD r default).letters.length) f
                      hcsort hw2ne hw2len _ hw2'ne]
                    by_cases hEq : (keyOf (t.children.getD r default) ::
                        w0').drop (t.children.getD r default).letters.length =
                        w.drop (t.children.getD r default).letters.length
                    · rw [if_pos hEq, if_pos (eq_of_prefix_drop _ _ _ hLpw
                        hpre hEq)]
                    · have hne : keyOf (t.children.getD r default) :: w0' ≠ w
                          := by
                        intro h
                        exact hEq (by rw [h])
                      rw [if_neg hEq, if_neg hne]
                      apply patLookup_fuel _ _ _ _ hcsort
                      · exact Nat.le_refl _
                      · rw [List.length_drop, List.length_cons]
                        omega
                · rw [if_neg hpre, if_neg hpre]
                  have hne : keyOf (t.children.getD r default) :: w0' ≠ w := by
                    intro h
                    rw [h] at hpre
                    exact hpre hLpw
                  rw [if_neg hne]
          · have hne : c' :: w0' ≠ w := by
              intro h
              apply hc'
              have h2 := congrArg (fun l => List.headD l 0) h
              simp only [List.headD_cons] at h2
              rw [h2, ← hkeyhead]
              rfl
            cases hdiv : ((t.children.getD r default).divide w f).2 with
            | true =>
                rw [if_pos rfl]
                have hdk := divide_sorted (t.children.getD r default) w f
                  hcsort hclab hw hkeyhead hdiv
                rw [List.length_cons,
                  patLookup_set_no_key t hs r hr _ hdk.2.1 c' hc' w0'.length
                    w0', if_neg hne]
            | false =>
                rw [if_neg Bool.false_ne_true]
                have hkeq : keyOf (Index.PatriciaNode.insert_go fuel
                    (t.children.getD r default)
                    (w.drop (t.children.getD r default).letters.length) f) =
                    keyOf (t.children.getD r default) := by
                  show (Index.PatriciaNode.insert_go fuel _ _ f).letters.headD 0
                    = _
                  rw [insert_go_letters]
                  rfl
                rw [List.length_cons,
                  patLookup_set_no_key t hs r hr _ hkeq c' hc' w0'.length w0',
                  if_neg hne]

/-- `insert` assigns the inserted word its frequency and leaves every other
(non-empty) lookup unchanged; empty words are ignored. -/
theorem insert_lookup (t : Index.PatriciaNode) (w : List Nat) (f : Nat)
    (hs : SortedTrie t) (w' : List Nat) (hw' : w' ≠ []) :
    patLookup w'.length (t.insert w f) w' =
      if w' = w then some f else patLookup w'.length t w' := by
  unfold Index.PatriciaNode.insert
  cases hwe : w.isEmpty with
  | true =>
      rw [if_pos rfl]
      have hwnil : w = [] := List.isEmpty_iff.mp hwe
      have hne : w' ≠ w := by rw [hwnil]; exact hw'
      rw [if_neg hne]
  | false =>
      rw [if_neg Bool.false_ne_true]
      exact insert_go_lookup (w.length + 1) t w f hs
        (by simpa [List.isEmpty_iff] using hwe) (by omega) w' hw'

/-- Lookup in the built trie is the claim's expected assignment. -/
theorem buildTrie_lookup (pairs : List (List Nat × Nat)) (w : List Nat)
    (hw : w ≠ []) :
    patLookup w.length (buildTrie pairs) w = expectedFreq pairs w := by
  have hgen : ∀ (ps : List (List Nat × Nat)) (t : Index.PatriciaNode),
      SortedTrie t →
      patLookup w.length (ps.foldl (fun t p => t.insert p.1 p.2) t) w =
        ps.foldl (fun acc p => if p.1 = w then some p.2 else acc)
          (patLookup w.length t w) := by
    intro ps
    induction ps with
    | nil => intro t _; rfl
    | cons p ps ih =>
        intro t ht
        rw [List.foldl_cons, List.foldl_cons,
          ih (t.insert p.1 p.2) (insert_sorted t p.1 p.2 ht)]
        have hstep : patLookup w.length (t.insert p.1 p.2) w =
            if p.1 = w then some p.2 else patLookup w.length t w := by
          rw [insert_lookup t p.1 p.2 ht w hw]
          exact if_congr (Iff.intro (fun h => h.symm) (fun h => h.symm)) rfl
            rfl
        rw [hstep]
  have h0 : patLookup w.length Index.PatriciaNode.create_empty w = none :=
    patLookup_no_children _ _ _ _
  have hsort0 : SortedTrie Index.PatriciaNode.create_empty :=
    SortedTrie.mk _ _ _ List.Pairwise.nil (by simp) (by simp)
  unfold buildTrie expectedFreq
  rw [hgen pairs _ hsort0, h0]

/-! ## Stability of compiled regions

`fill_main` only appends to the three arrays, except for back-patching
inside the group currently under construction; `Extends old new nlow rlow`
captures what later construction steps preserve: the char blob as a prefix,
and the node/range entries from the given low-water marks up to `old`'s
lengths. -/

/-- Region-stability relation between two compiler states. -/
def Extends (old new : CompiledTrie) (nlow rlow : Nat) : Prop :=
  old.nodes.length ≤ new.nodes.length ∧
  new.chars.take old.chars.length = old.chars ∧
  (∀ j, nlow ≤ j → j < old.nodes.length →
    new.nodes.getD j default = old.nodes.getD j default) ∧
  old.ranges.length ≤ new.ranges.length ∧
  (∀ j, rlow ≤ j → j < old.ranges.length →
    new.ranges.getD j default = old.ranges.getD j default)

/-- `Extends` is reflexive. -/
theorem Extends_refl (st : CompiledTrie) (nlow rlow : Nat) :
    Extends st st nlow rlow :=
  ⟨Nat.le_refl _, List.take_length _, fun _ _ _ => rfl, Nat.le_refl _,
    fun _ _ _ => rfl⟩

/-- Chars lengths grow along `Extends`. -/
theorem Extends.chars_le {old new : CompiledTrie} {nlow rlow : Nat}
    (h : Extends old new nlow rlow) : old.chars.length ≤ new.chars.length := by
  have := congrArg List.length h.2.1
  rw [List.length_take] at this
  omega

/-- `Extends` composes (with widening of the stable windows). -/
theorem Extends_trans {a b c : CompiledTrie} {n1 r1 n2 r2 : Nat}
    (hab : Extends a b n1 r1) (hbc : Extends b c n2 r2)
    (hn : n2 ≤ n1) (hr : r2 ≤ r1) : Extends a c n1 r1 := by
  obtain ⟨hab1, hab2, hab3, hab4, hab5⟩ := hab
  obtain ⟨hbc1, hbc2, hbc3, hbc4, hbc5⟩ := hbc
  have hchars : a.chars.length ≤ b.chars.length := by
    have := congrArg List.length hab2
    rw [List.length_take] at this
    omega
  refine ⟨by omega, ?_, ?_, by omega, ?_⟩
  · have h1 : c.chars.take a.chars.length =
        (c.chars.take b.chars.length).take a.chars.length := by
      rw [List.take_take, Nat.min_eq_left hchars]
    rw [h1, hbc2]
    exact hab2
  · intro j hj1 hj2
    rw [hbc3 j (by omega) (by omega), hab3 j hj1 hj2]
  · intro j hj1 hj2
    rw [hbc5 j (by omega) (by omega), hab5 j hj1 hj2]

/-- A slice below the prefix length is preserved by a take-prefix. -/
theorem slice_of_take_stable (new old : List Nat) (L s k : Nat)
    (hpre : new.take L = old) (hk : s + k ≤ L) :
    (new.drop s).take k = (old.drop s).take k := by
  rw [← hpre, List.drop_take]
  rw [List.take_take]
  have : min k (L - s) = k := by omega
  rw [this]

/-- `getD` below the prefix length is preserved by a take-prefix. -/
theorem getD_of_take_stable (new old : List Nat) (L j : Nat)
    (hpre : new.take L = old) (hj : j < L) :
    new.getD j 0 = old.getD j 0 := by
  rw [← hpre, getD_take_lt new L j hj]

/-! ## Specification of the exact-search sibling binary search

The group siblings carry pairwise-disjoint, ascending key intervals
`[lo m, hi m]`; `compare_keys` classifies the query character against them
(C5). The custom windowed binary search then finds the unique interval
containing the character, or reports absence. -/

/-- The search loop finds the (unique) sibling whose interval contains the
character. -/
theorem search_child_loop_found (trie : CompiledTrie)
    (children : List CompiledTrieNode) (c : Nat) (lo hi : Nat → Nat)
    (Hchar : ∀ m, m < children.length →
      compare_keys (children.getD m default)
        ((children.getD m default).node_value) c trie =
        (if hi m < c then .lt else if c < lo m then .gt else .eq))
    (Hmono : ∀ m m', m < m' → m' < children.length → hi m < lo m')
    (Hlohi : ∀ m, m < children.length → lo m ≤ hi m) :
    ∀ (fuel base size m : Nat), base + size ≤ children.length →
      size ≤ fuel → 1 ≤ size →
      base ≤ m → m < base + size → lo m ≤ c → c ≤ hi m →
      search_child_loop trie children c fuel base size =
        some (children.getD m default,
          (children.getD m default).node_value) := by
  intro fuel
  induction fuel with
  | zero => intro base size m _ h1 h2 _ _ _ _; omega
  | succ fuel ih =>
      intro base size m hbs hsf hs1 hm1 hm2 hlo hhi
      have hmlen : m < children.length := by omega
      by_cases hsz : 1 < size
      · simp only [search_child_loop]
        rw [if_pos hsz, Hchar (base + size / 2) (by omega)]
        have hmidlen : base + size / 2 < children.length := by omega
        by_cases h1 : hi (base + size / 2) < c
        · rw [if_pos h1]
          have hmgt : base + size / 2 ≤ m := by
            by_contra hcon
            push_neg at hcon
            have := Hmono m (base + size / 2) hcon hmidlen
            have := Hlohi (base + size / 2) hmidlen
            omega
          exact ih (base + size / 2) (size - size / 2) m (by omega) (by omega)
            (by omega) hmgt (by omega) hlo hhi
        · rw [if_neg h1]
          by_cases h2 : c < lo (base + size / 2)
          · rw [if_pos h2]
            have hmlt : m < base + size / 2 := by
              by_contra hcon
              push_neg at hcon
              rcases Nat.eq_or_lt_of_le hcon with heq | hlt
              · rw [heq] at h2
                omega
              · have := Hmono (base + size / 2) m hlt hmlen
                have := Hlohi (base + size / 2) hmidlen
                omega
            exact ih base (size - size / 2) m (by omega) (by omega) (by omega)
              hm1 (by omega) hlo hhi
          · rw [if_neg h2]
            have hmeq : m = base + size / 2 := by
              by_contra hcon
              rcases Nat.lt_or_ge m (base + size / 2) with hlt | hge
              · have := Hmono m (base + size / 2) hlt hmidlen
                omega
              · have hgt : base + size / 2 < m := by omega
                have := Hmono (base + size / 2) m hgt hmlen
                omega
            rw [hmeq]
      · simp only [search_child_loop]
        rw [if_neg hsz]
        have hmb : m = base := by omega
        subst hmb
        have hc1 : ¬ hi m < c := by omega
        have hc2 : ¬ c < lo m := by omega
        rw [Hchar m hmlen, if_neg hc1, if_neg hc2, if_pos rfl]

/-- The search loop reports absence when no sibling interval contains the
character. -/
theorem search_child_loop_none (trie : CompiledTrie)
    (children : List CompiledTrieNode) (c : Nat) (lo hi : Nat → Nat)
    (Hchar : ∀ m, m < children.length →
      compare_keys (children.getD m default)
        ((children.getD m default).node_value) c trie =
        (if hi m < c then .lt else if c < lo m then .gt else .eq))
    (Hlohi : ∀ m, m < children.length → lo m ≤ hi m) :
    ∀ (fuel base size : Nat), base + size ≤ children.length →
      size ≤ fuel → 1 ≤ size →
      (∀ m, base ≤ m → m < base + size → c < lo m ∨ hi m < c) →
      search_child_loop trie children c fuel base size = none := by
  intro fuel
  induction fuel with
  | zero => intro base size _ h1 h2 _; omega
  | succ fuel ih =>
      intro base size hbs hsf hs1 hnone
      by_cases hsz : 1 < size
      · simp only [search_child_loop]
        rw [if_pos hsz, Hchar (base + size / 2) (by omega)]
        have hmidlo := Hlohi (base + size / 2) (by omega)
        rcases hnone (base + size / 2) (by omega) (by omega) with h | h
        · have hc1 : ¬ hi (base + size / 2) < c := by omega
          rw [if_neg hc1, if_pos h]
          exact ih base (size - size / 2) (by omega) (by omega) (by omega)
            (fun m hm1 hm2 => hnone m hm1 (by omega))
        · rw [if_pos h]
          exact ih (base + size / 2) (size - size / 2) (by omega) (by omega)
            (by omega) (fun m hm1 hm2 => hnone m (by omega) (by omega))
      · simp only [search_child_loop]
        rw [if_neg hsz]
        have hblo := Hlohi base (by omega)
        rcases hnone base (by omega) (by omega) with h | h
        · have hc1 : ¬ hi base < c := by omega
          rw [Hchar base (by omega), if_neg hc1, if_pos h]
          simp
        · rw [Hchar base (by omega), if_pos h]
          simp

/-- `search_child` finds the sibling whose interval contains the character. -/
theorem search_child_found (trie : CompiledTrie)
    (children : List CompiledTrieNode) (c : Nat) (lo hi : Nat → Nat)
    (Hchar : ∀ m, m < children.length →
      compare_keys (children.getD m default)
        ((children.getD m default).node_value) c trie =
        (if hi m < c then .lt else if c < lo m then .gt else .eq))
    (Hmono : ∀ m m', m < m' → m' < children.length → hi m < lo m')
    (Hlohi : ∀ m, m < children.length → lo m ≤ hi m)
    (m : Nat) (hm : m < children.length) (hlo : lo m ≤ c) (hhi : c ≤ hi m) :
    search_child trie children c =
      some (children.getD m default,
        (children.getD m default).node_value) :=
  search_child_loop_found trie children c lo hi Hchar Hmono Hlohi
    (children.length + 1) 0 children.length m (by omega) (by omega)
    (by omega) (by omega) (by omega) hlo hhi

/-- `search_child` reports absence when no interval contains the character. -/
theorem search_child_none (trie : CompiledTrie)
    (children : List CompiledTrieNode) (c : Nat) (lo hi : Nat → Nat)
    (Hchar : ∀ m, m < children.length →
      compare_keys (children.getD m default)
        ((children.getD m default).node_value) c trie =
        (if hi m < c then .lt else if c < lo m then .gt else .eq))
    (Hlohi : ∀ m, m < children.length → lo m ≤ hi m)
    (hlen : 1 ≤ children.length)
    (hnone : ∀ m, m < children.length → c < lo m ∨ hi m < c) :
    search_child trie children c = none :=
  search_child_loop_none trie children c lo hi Hchar Hlohi
    (children.length + 1) 0 children.length (by omega) (by omega) hlen
    (fun m _ hm2 => hnone m (by omega))

/-! ## Specifications of the char-blob and range-blob builders -/

/-- `add_chars` preserves the existing blob as a prefix and makes the
returned range slice spell the requested characters. -/
theorem add_chars_spec (big cs : List Nat) :
    (add_chars big cs).1.take big.length = big ∧
    (add_chars big cs).2.2 = (add_chars big cs).2.1 + cs.length ∧
    (add_chars big cs).2.1 + cs.length ≤ (add_chars big cs).1.length ∧
    ((add_chars big cs).1.drop (add_chars big cs).2.1).take cs.length = cs := by
  unfold add_chars
  cases hfind : (List.range (min 2048
      (if cs.length ≤ (big.drop (big.length - min 2048 big.length)).length then
        (big.drop (big.length - min 2048 big.length)).length - cs.length + 1
      else 0))).find?
      (fun p => ((big.drop (big.length - min 2048 big.length)).drop p).take
        cs.length == cs) with
  | none =>
      simp only [hfind]
      refine ⟨?_, by trivial, ?_, ?_⟩
      · exact List.take_left big cs
      · rw [List.length_append]
      · rw [List.drop_left, List.take_length]
  | some p =>
      simp only [hfind]
      have hp := List.find?_some hfind
      have hmem := List.mem_of_find?_eq_some hfind
      rw [List.mem_range] at hmem
      have hple : p < (if cs.length ≤
          (big.drop (big.length - min 2048 big.length)).length then
          (big.drop (big.length - min 2048 big.length)).length - cs.length + 1
        else 0) := by omega
      have hwin : cs.length ≤
          (big.drop (big.length - min 2048 big.length)).length := by
        by_contra hcon
        rw [if_neg hcon] at hple
        omega
      rw [if_pos hwin] at hple
      rw [List.length_drop] at hwin hple
      have hcontent : ((big.drop (big.length - min 2048 big.length)).drop
          p).take cs.length = cs := by
        rwa [beq_iff_eq] at hp
      rw [List.drop_drop] at hcontent
      refine ⟨List.take_length _, by trivial, by omega, ?_⟩
      exact hcontent

/-- Writing a batch of `(position, value)` updates keeps the length. -/
theorem foldl_set_length {α : Type} : ∀ (l : List (Nat × α)) (init : List α),
    (l.foldl (fun rs p => rs.set p.1 p.2) init).length = init.length
  | [], init => rfl
  | p :: l, init => by
      rw [List.foldl_cons, foldl_set_length l _, List.length_set]

/-- A position never written keeps its initial value. -/
theorem foldl_set_getD_notin {α : Type} [Inhabited α] :
    ∀ (l : List (Nat × α)) (init : List α) (j : Nat),
      (∀ p ∈ l, p.1 ≠ j) →
      (l.foldl (fun rs p => rs.set p.1 p.2) init).getD j default =
        init.getD j default
  | [], init, j, _ => rfl
  | p :: l, init, j, h => by
      rw [List.foldl_cons, foldl_set_getD_notin l _ j
        (fun q hq => h q (List.mem_cons_of_mem p hq)),
        getD_set_ne _ _ _ _ _ (fun hj => h p (List.mem_cons_self p l) hj.symm)]

/-- The `k`-th write lands if no later write hits the same position. -/
theorem foldl_set_getD_at {α : Type} [Inhabited α] :
    ∀ (l : List (Nat × α)) (init : List α) (k : Nat), k < l.length →
      (l.getD k default).1 < init.length →
      (∀ k', k < k' → k' < l.length →
        (l.getD k' default).1 ≠ (l.getD k default).1) →
      (l.foldl (fun rs p => rs.set p.1 p.2) init).getD
        (l.getD k default).1 default = (l.getD k default).2
  | [], _, k, hk, _, _ => by simp at hk
  | p :: l, init, 0, _, hpos, hafter => by
      simp only [List.getD_cons_zero] at hpos hafter ⊢
      rw [List.foldl_cons]
      rw [foldl_set_getD_notin l _ p.1
        (fun q hq => by
          obtain ⟨k', hk', hq'⟩ := List.mem_iff_getElem.mp hq
          have := hafter (k' + 1) (by omega) (by simpa using hk')
          simp only [List.getD_cons_succ] at this
          rw [List.getD_eq_getElem _ _ hk'] at this
          rw [hq'] at this
          exact this)]
      rw [getD_set_self _ _ _ _ hpos]
  | p :: l, init, k + 1, hk, hpos, hafter => by
      simp only [List.getD_cons_succ] at hpos hafter ⊢
      rw [List.foldl_cons]
      exact foldl_set_getD_at l _ k (by simpa using hk)
        (by rw [List.length_set]; exact hpos)
        (fun k' hk1 hk2 => by
          have := hafter (k' + 1) (by omega) (by simp; omega)
          simpa only [List.getD_cons_succ] using this)

/-- `getD` in the left part of an append. -/
theorem getD_append_lt {α : Type} [Inhabited α] :
    ∀ (l1 l2 : List α) (j : Nat), j < l1.length →
      (l1 ++ l2).getD j default = l1.getD j default
  | [], _, j, h => by simp at h
  | a :: l1, l2, 0, _ => rfl
  | a :: l1, l2, j + 1, h => by
      simp only [List.cons_append, List.getD_cons_succ]
      exact getD_append_lt l1 l2 j (by simpa using h)

/-- `getD` in the right part of an append. -/
theorem getD_append_ge {α : Type} [Inhabited α] :
    ∀ (l1 l2 : List α) (j : Nat),
      (l1 ++ l2).getD (l1.length + j) default = l2.getD j default
  | [], _, j => by simp
  | a :: l1, l2, j => by
      simp only [List.cons_append, List.length_cons]
      have : a :: l1 ++ l2 = a :: (l1 ++ l2) := rfl
      rw [show l1.length + 1 + j = (l1.length + j) + 1 by omega,
        List.getD_cons_succ]
      exact getD_append_ge l1 l2 j

/-- `getD` of a replicated list. -/
theorem getD_replicate {α : Type} [Inhabited α] :
    ∀ (n j : Nat) (a : α), j < n →
      (List.replicate n a).getD j default = a
  | 0, j, a, h => by simp at h
  | n + 1, 0, a, _ => rfl
  | n + 1, j + 1, a, h => by
      rw [List.replicate_succ, List.getD_cons_succ]
      exact getD_replicate n j a (by omega)

/-- `foldl min` is below its seed. -/
theorem foldl_min_le_init : ∀ (cs : List Nat) (a : Nat), cs.foldl min a ≤ a
  | [], a => Nat.le_refl a
  | c :: cs, a =>
      le_trans (foldl_min_le_init cs (min a c)) (Nat.min_le_left a c)

/-- `foldl min` is below every member. -/
theorem foldl_min_le_mem : ∀ (cs : List Nat) (a c : Nat), c ∈ cs →
    cs.foldl min a ≤ c
  | [], a, c, h => absurd h (List.not_mem_nil c)
  | x :: cs, a, c, h => by
      rcases List.mem_cons.mp h with rfl | h
      · exact le_trans (foldl_min_le_init cs (min a c)) (Nat.min_le_right a c)
      · exact foldl_min_le_mem cs (min a x) c h

/-- `foldl max` is above its seed. -/
theorem foldl_max_init_le : ∀ (cs : List Nat) (a : Nat), a ≤ cs.foldl max a
  | [], a => Nat.le_refl a
  | c :: cs, a =>
      le_trans (Nat.le_max_left a c) (foldl_max_init_le cs (max a c))

/-- `foldl max` is above every member. -/
theorem foldl_max_mem_le : ∀ (cs : List Nat) (a c : Nat), c ∈ cs →
    c ≤ cs.foldl max a
  | [], a, c, h => absurd h (List.not_mem_nil c)
  | x :: cs, a, c, h => by
      rcases List.mem_cons.mp h with rfl | h
      · exact le_trans (Nat.le_max_right a c) (foldl_max_init_le cs (max a c))
      · exact foldl_max_mem_le cs (max a x) c h

/-- `foldl max` is the seed or a member. -/
theorem foldl_max_mem_or : ∀ (cs : List Nat) (a : Nat),
    cs.foldl max a = a ∨ cs.foldl max a ∈ cs
  | [], a => Or.inl rfl
  | x :: cs, a => by
      rcases foldl_max_mem_or cs (max a x) with h | h
      · rcases Nat.le_total a x with hax | hax
        · right
          rw [List.foldl_cons, h, Nat.max_eq_right hax]
          exact List.mem_cons_self x cs
        · left
          rw [List.foldl_cons, h, Nat.max_eq_left hax]
      · right
        exact List.mem_cons_of_mem x h

/-- `foldl min` is the seed or a member. -/
theorem foldl_min_mem_or : ∀ (cs : List Nat) (a : Nat),
    cs.foldl min a = a ∨ cs.foldl min a ∈ cs
  | [], a => Or.inl rfl
  | x :: cs, a => by
      rcases foldl_min_mem_or cs (min a x) with h | h
      · rcases Nat.le_total a x with hax | hax
        · left
          rw [List.foldl_cons, h, Nat.min_eq_left hax]
        · right
          rw [List.foldl_cons, h, Nat.min_eq_right hax]
          exact List.mem_cons_self x cs
      · right
        exact List.mem_cons_of_mem x h

/-- A sorted non-empty list's head is below every member. -/
theorem sorted_head_le (cs : List Nat) (hsort : cs.Pairwise (· < ·)) :
    ∀ c ∈ cs, cs.headD 0 ≤ c := by
  cases cs with
  | nil => intro c h; exact absurd h (List.not_mem_nil c)
  | cons x cs =>
      intro c hc
      rcases List.mem_cons.mp hc with rfl | hc
      · exact Nat.le_refl c
      · exact Nat.le_of_lt ((List.pairwise_cons.mp hsort).1 c hc)

/-- Specification of `add_range` on a sorted batch of single characters: the
block is appended at the end, its minimum is the first character, present
characters carry dummy-indexed elements with the node frequencies, and gap
characters carry empty elements. -/
theorem add_range_spec (old : List RangeElement)
    (nodes : List Index.PatriciaNode) (cs : List Nat)
    (ranges' : List RangeElement) (start endi mn : Nat)
    (heq : add_range old nodes cs = (ranges', start, endi, mn))
    (hlen : cs.length = nodes.length) (hsort : cs.Pairwise (· < ·))
    (hne : cs ≠ []) :
    start = old.length ∧
    mn = cs.headD 0 ∧
    (∃ cmax, cmax ∈ cs ∧ endi = start + (cmax - mn + 1) ∧
      ∀ c ∈ cs, c ≤ cmax) ∧
    ranges'.length = old.length + (endi - start) ∧
    (∀ j, j < old.length → ranges'.getD j default = old.getD j default) ∧
    (∀ k, k < cs.length →
      ranges'.getD (start + (cs.getD k 0 - mn)) default =
        ⟨dummy_index, (nodes.getD k default).freq⟩) ∧
    (∀ j, start + j < endi → (∀ c ∈ cs, c ≠ mn + j) →
      ranges'.getD (start + j) default = ⟨none, none⟩) := by
  have hhead : cs.headD 0 ∈ cs := by
    cases cs with
    | nil => exact absurd rfl hne
    | cons x cs => exact List.mem_cons_self x cs
  have hmn : cs.foldl min (cs.headD 0) = cs.headD 0 :=
    Nat.le_antisymm (foldl_min_le_init cs _)
      (by
        rcases foldl_min_mem_or cs (cs.headD 0) with h | h
        · rw [h]
        · exact sorted_head_le cs hsort _ h)
  have hmxmem : cs.foldl max (cs.headD 0) ∈ cs := by
    rcases foldl_max_mem_or cs (cs.headD 0) with h | h
    · rw [h]; exact hhead
    · exact h
  have hmx_le : ∀ c ∈ cs, c ≤ cs.foldl max (cs.headD 0) :=
    fun c hc => foldl_max_mem_le cs _ c hc
  have hmn_le : ∀ c ∈ cs, cs.headD 0 ≤ c := sorted_head_le cs hsort
  -- unfold the definition
  have hdef : add_range old nodes cs =
      ((cs.zip nodes).foldl
        (fun rs p => rs.set (p.1 - cs.foldl min (cs.headD 0) + old.length)
          ⟨dummy_index, p.2.freq⟩)
        (old ++ List.replicate
          (cs.foldl max (cs.headD 0) - cs.foldl min (cs.headD 0) + 1)
          ⟨none, none⟩),
       old.length,
       old.length + (cs.foldl max (cs.headD 0) -
         cs.foldl min (cs.headD 0) + 1),
       cs.foldl min (cs.headD 0)) := rfl
  rw [hdef] at heq
  have h1 := congrArg Prod.fst heq
  have h2 := congrArg (fun x => x.2.1) heq
  have h3 := congrArg (fun x => x.2.2.1) heq
  have h4 := congrArg (fun x => x.2.2.2) heq
  simp only at h1 h2 h3 h4
  subst h1 h2 h3 h4
  have hziplen : (cs.zip nodes).length = cs.length := by
    rw [List.length_zip]
    omega
  have hbridge : ∀ (init : List RangeElement),
      (cs.zip nodes).foldl
        (fun rs p => rs.set (p.1 - cs.foldl min (cs.headD 0) + old.length)
          ⟨dummy_index, p.2.freq⟩) init =
      ((cs.zip nodes).map
        (fun p => (p.1 - cs.foldl min (cs.headD 0) + old.length,
          (⟨dummy_index, p.2.freq⟩ : RangeElement)))).foldl
        (fun rs p => rs.set p.1 p.2) init := by
    intro init
    rw [List.foldl_map]
  rw [hbridge]
  set range_len := cs.foldl max (cs.headD 0) - cs.foldl min (cs.headD 0) + 1
    with hrl
  have hinitlen : (old ++ List.replicate range_len
      (⟨none, none⟩ : RangeElement)).length = old.length + range_len := by
    rw [List.length_append, List.length_replicate]
  have hmaplen : ((cs.zip nodes).map
      (fun p => (p.1 - cs.foldl min (cs.headD 0) + old.length,
        (⟨dummy_index, p.2.freq⟩ : RangeElement)))).length = cs.length := by
    rw [List.length_map, hziplen]
  have hposk : ∀ k, k < cs.length →
      (((cs.zip nodes).map
        (fun p => (p.1 - cs.foldl min (cs.headD 0) + old.length,
          (⟨dummy_index, p.2.freq⟩ : RangeElement)))).getD k default) =
      (cs.getD k 0 - cs.foldl min (cs.headD 0) + old.length,
        (⟨dummy_index, (nodes.getD k default).freq⟩ : RangeElement)) := by
    intro k hk
    have hk2 : k < ((cs.zip nodes).map
        (fun p => (p.1 - cs.foldl min (cs.headD 0) + old.length,
          (⟨dummy_index, p.2.freq⟩ : RangeElement)))).length := by
      rw [hmaplen]; exact hk
    have hk3 : k < (cs.zip nodes).length := by rw [hziplen]; exact hk
    rw [List.getD_eq_getElem _ _ hk2, List.getElem_map, List.getElem_zip]
    rw [List.getD_eq_getElem _ _ hk, List.getD_eq_getElem _ _ (by omega)]
  have hkey_getD_mem : ∀ k, k < cs.length → cs.getD k 0 ∈ cs := by
    intro k hk
    rw [List.getD_eq_getElem _ _ hk]
    exact List.getElem_mem hk
  refine ⟨rfl, hmn, ⟨cs.foldl max (cs.headD 0), hmxmem, by omega, hmx_le⟩,
    ?_, ?_, ?_, ?_⟩
  · rw [foldl_set_length, hinitlen]
    omega
  · intro j hj
    rw [foldl_set_getD_notin _ _ j ?hne1]
    · exact getD_append_lt old _ j hj
    case hne1 =>
      intro p hp
      obtain ⟨k, hk, hpk⟩ := List.mem_iff_getElem.mp hp
      have hk' : k < cs.length := by
        rw [hmaplen] at hk
        exact hk
      have := hposk k hk'
      rw [List.getD_eq_getElem _ _ hk] at this
      rw [hpk] at this
      rw [this]
      simp only
      omega
  · intro k hk
    have hkpos : cs.getD k 0 - cs.foldl min (cs.headD 0) + old.length <
        (old ++ List.replicate range_len
          (⟨none, none⟩ : RangeElement)).length := by
      rw [hinitlen, hrl]
      have h1 := hmn_le _ (hkey_getD_mem k hk)
      have h2 := hmx_le _ (hkey_getD_mem k hk)
      omega
    have hres := foldl_set_getD_at
      ((cs.zip nodes).map
        (fun p => (p.1 - cs.foldl min (cs.headD 0) + old.length,
          (⟨dummy_index, p.2.freq⟩ : RangeElement))))
      (old ++ List.replicate range_len (⟨none, none⟩ : RangeElement))
      k (by rw [hmaplen]; exact hk)
      (by rw [hposk k hk]; exact hkpos)
      (fun k' hk1 hk2 => by
        rw [hmaplen] at hk2
        rw [hposk k hk, hposk k' hk2]
        simp only
        have hlt : cs.getD k 0 < cs.getD k' 0 := by
          rw [List.getD_eq_getElem _ _ hk, List.getD_eq_getElem _ _ hk2]
          exact List.pairwise_iff_getElem.mp hsort k k' hk hk2 hk1
        have h1 := hmn_le _ (hkey_getD_mem k hk)
        have h2 := hmn_le _ (hkey_getD_mem k' hk2)
        omega)
    rw [hposk k hk] at hres
    simp only at hres
    have harr : cs.getD k 0 - cs.foldl min (cs.headD 0) + old.length =
        old.length + (cs.getD k 0 - cs.foldl min (cs.headD 0)) := by omega
    rw [harr] at hres
    exact hres
  · intro j hj hgap
    rw [foldl_set_getD_notin _ _ _ ?hne2]
    · rw [getD_append_ge old _ j]
      apply getD_replicate
      omega
    case hne2 =>
      intro p hp
      obtain ⟨k, hk, hpk⟩ := List.mem_iff_getElem.mp hp
      have hk' : k < cs.length := by
        rw [hmaplen] at hk
        exact hk
      have := hposk k hk'
      rw [List.getD_eq_getElem _ _ hk] at this
      rw [hpk] at this
      rw [this]
      simp only
      have h1 := hmn_le _ (hkey_getD_mem k hk')
      have h2 := hgap _ (hkey_getD_mem k hk')
      omega

/-! ## Segmentation produced by the node-type heuristic

The heuristic partitions the (sorted) children into consecutive segments:
one single-character child per simple node, one multi-character child per
patricia node, and a run of single-character children per range node. -/

/-- What one heuristic entry says about its segment of children. -/
inductive HSeg : HeurNode → List Index.PatriciaNode → Prop where
  | simple : ∀ nd c, nd.letters = [c] → HSeg (.simple nd c) [nd]
  | patricia : ∀ nd s, nd.letters = s → s.length ≠ 1 → s ≠ [] →
      HSeg (.patricia nd s) [nd]
  | range : ∀ nds cs, cs.length = nds.length → 2 ≤ cs.length →
      (∀ k, k < cs.length → (nds.getD k default).letters = [cs.getD k 0]) →
      cs.Pairwise (· < ·) →
      HSeg (.range nds cs) nds

/-- Keys of a run of single-character children are strictly ascending. -/
theorem run_keys_sorted (run : List Index.PatriciaNode)
    (hpair : run.Pairwise (fun a b => keyOf a < keyOf b)) :
    (run.map keyOf).Pairwise (· < ·) :=
  List.pairwise_map.mpr hpair

/-- Flushing the current run produces segments covering exactly the run. -/
theorem process_range_spec (children done run restN : List Index.PatriciaNode)
    (h : children = done ++ run ++ restN)
    (hpair : children.Pairwise (fun a b => keyOf a < keyOf b))
    (hrun : ∀ nd ∈ run, nd.letters = [keyOf nd]) :
    ∃ fsegs : List (HeurNode × List Index.PatriciaNode),
      process_range children (run.map keyOf) (done.length + run.length) =
        fsegs.map Prod.fst ∧
      (fsegs.map Prod.snd).flatten = run ∧
      ∀ p ∈ fsegs, HSeg p.1 p.2 := by
  have hrunpair : run.Pairwise (fun a b => keyOf a < keyOf b) := by
    refine List.Pairwise.sublist ?_ (h ▸ hpair)
    exact (List.sublist_append_right done run).trans
      (List.sublist_append_left (done ++ run) restN)
  cases run with
  | nil =>
      refine ⟨[], ?_, rfl, by simp⟩
      simp [process_range]
  | cons nd1 run' =>
    cases run' with
    | nil =>
        have hget : children.getD (done.length + [nd1].length - 1) default =
            nd1 := by
          rw [h, List.append_assoc]
          have harith : done.length + [nd1].length - 1 = done.length + 0 := by
            simp
          rw [harith]
          exact getD_append_ge done ([nd1] ++ restN) 0
        refine ⟨[(.simple nd1 (keyOf nd1), [nd1])], ?_, by simp, ?_⟩
        · show [HeurNode.simple
              (children.getD (done.length + [nd1].length - 1) default)
              (keyOf nd1)] = [HeurNode.simple nd1 (keyOf nd1)]
          rw [hget]
        · intro p hp
          rcases List.mem_cons.mp hp with rfl | hp
          · exact HSeg.simple nd1 (keyOf nd1) (hrun nd1 (by simp))
          · simp at hp
    | cons nd2 run'' =>
        refine ⟨[(.range (nd1 :: nd2 :: run'')
            ((nd1 :: nd2 :: run'').map keyOf), nd1 :: nd2 :: run'')], ?_,
            by simp, ?_⟩
        · show [HeurNode.range
              ((children.drop (done.length + (nd1 :: nd2 :: run'').length -
                ((nd1 :: nd2 :: run'').map keyOf).length)).take
                ((nd1 :: nd2 :: run'').map keyOf).length)
              ((nd1 :: nd2 :: run'').map keyOf)] = _
          rw [List.length_map]
          have harith : done.length + (nd1 :: nd2 :: run'').length -
              (nd1 :: nd2 :: run'').length = done.length := by omega
          rw [harith, h, List.append_assoc, List.drop_left, List.take_left]
          rfl
        · intro p hp
          rcases List.mem_cons.mp hp with rfl | hp
          · refine HSeg.range (nd1 :: nd2 :: run'')
              ((nd1 :: nd2 :: run'').map keyOf) (List.length_map _ _)
              (by simp) ?_ (run_keys_sorted _ hrunpair)
            intro k hk
            rw [List.length_map] at hk
            have hmem : (nd1 :: nd2 :: run'').getD k default ∈
                nd1 :: nd2 :: run'' := by
              rw [List.getD_eq_getElem _ _ hk]
              exact List.getElem_mem hk
            rw [hrun _ hmem,
              show ((nd1 :: nd2 :: run'').map keyOf).getD k 0 =
                keyOf ((nd1 :: nd2 :: run'').getD k default) from
                getD_map keyOf _ k default]
          · simp at hp

/-- The heuristic loop splits the remaining children into covering
segments. -/
theorem heuristic_go_segs :
    ∀ (restN done run children : List Index.PatriciaNode),
      children = done ++ run ++ restN →
      children.Pairwise (fun a b => keyOf a < keyOf b) →
      (∀ c ∈ children, c.letters ≠ []) →
      (∀ nd ∈ run, nd.letters = [keyOf nd]) →
      ∃ segs : List (HeurNode × List Index.PatriciaNode),
        node_type_heuristic_go children
            (restN.zip (restN.map Index.PatriciaNode.letters))
            (done.length + run.length) (run.map keyOf) =
          segs.map Prod.fst ∧
        (segs.map Prod.snd).flatten = run ++ restN ∧
        ∀ p ∈ segs, HSeg p.1 p.2 := by
  intro restN
  induction restN with
  | nil =>
      intro done run children h hpair hlab hrun
      have hlen : children.length = done.length + run.length := by
        rw [h]
        simp
      obtain ⟨fsegs, h1, h2, h3⟩ :=
        process_range_spec children done run [] h hpair hrun
      refine ⟨fsegs, ?_, by rw [h2, List.append_nil], h3⟩
      show process_range children (run.map keyOf) children.length = _
      rw [hlen]
      exact h1
  | cons n restN' ih =>
      intro done run children h hpair hlab hrun
      have hz : ((n :: restN').zip ((n :: restN').map
          Index.PatriciaNode.letters)) =
          (n, n.letters) :: restN'.zip (restN'.map
            Index.PatriciaNode.letters) := rfl
      rw [hz]
      simp only [node_type_heuristic_go]
      have hkeyn : n.letters.headD 0 = keyOf n := rfl
      have hmem_n : n ∈ children := by
        rw [h]
        simp
      have hlabn : n.letters ≠ [] := hlab n hmem_n
      by_cases hone : (n.letters.length == 1) = true
      · have hletters : n.letters = [keyOf n] := by
          rw [beq_iff_eq] at hone
          cases hl : n.letters with
          | nil => exact absurd hl hlabn
          | cons a tl =>
              rw [hl] at hone
              simp only [List.length_cons] at hone
              have : tl = [] := by
                cases tl with
                | nil => rfl
                | cons _ _ => simp at hone
              subst this
              show [a] = [(n.letters.headD 0)]
              rw [hl]
              rfl
        by_cases hadd : should_add_to_range (run.map keyOf)
            (n.letters.headD 0) = true
        · rw [if_pos (by rw [hone, hadd]; rfl)]
          have h' : children = done ++ (run ++ [n]) ++ restN' := by
            rw [h]
            simp
          have hrun' : ∀ nd ∈ run ++ [n], nd.letters = [keyOf nd] := by
            intro nd hnd
            rcases List.mem_append.mp hnd with hnd | hnd
            · exact hrun nd hnd
            · rcases List.mem_cons.mp hnd with rfl | hnd
              · exact hletters
              · simp at hnd
          obtain ⟨segs, hs1, hs2, hs3⟩ := ih done (run ++ [n]) children h'
            hpair hlab hrun'
          refine ⟨segs, ?_, ?_, hs3⟩
          · have hargs1 : done.length + run.length + 1 =
                done.length + (run ++ [n]).length := by
              simp only [List.length_append, List.length_cons,
                List.length_nil]
              omega
            have hargs2 : run.map keyOf ++ [n.letters.headD 0] =
                (run ++ [n]).map keyOf := by
              rw [List.map_append, hkeyn]
              rfl
            rw [hargs1, hargs2]
            exact hs1
          · rw [hs2]
            simp
        · rw [Bool.not_eq_true] at hadd
          rw [if_neg (by rw [hadd]; simp), if_pos hone]
          obtain ⟨fsegs, hf1, hf2, hf3⟩ :=
            process_range_spec children done run (n :: restN') h hpair hrun
          have h'' : children = (done ++ run) ++ [n] ++ restN' := by
            rw [h]
            simp
          have hrun'' : ∀ nd ∈ [n], nd.letters = [keyOf nd] := by
            intro nd hnd
            rcases List.mem_cons.mp hnd with rfl | hnd
            · exact hletters
            · simp at hnd
          obtain ⟨rsegs, hr1, hr2, hr3⟩ := ih (done ++ run) [n] children h''
            hpair hlab hrun''
          refine ⟨fsegs ++ rsegs, ?_, ?_, ?_⟩
          · rw [List.map_append, ← hf1]
            have hargs1 : done.length + run.length + 1 =
                (done ++ run).length + [n].length := by
              simp only [List.length_append, List.length_cons,
                List.length_nil]
            have hargs2 : [n.letters.headD 0] = [n].map keyOf := by
              rw [hkeyn]
              rfl
            rw [hargs1, hargs2, ← hr1]
          · rw [List.map_append, List.flatten_append, hf2, hr2]
            simp
          · intro p hp
            rcases List.mem_append.mp hp with hp | hp
            · exact hf3 p hp
            · exact hr3 p hp
      · rw [if_neg (by rw [Bool.not_eq_true] at hone; rw [hone]; simp),
          if_neg hone]
        obtain ⟨fsegs, hf1, hf2, hf3⟩ :=
          process_range_spec children done run (n :: restN') h hpair hrun
        have h''' : children = (done ++ run ++ [n]) ++ [] ++ restN' := by
          rw [h]
          simp
        obtain ⟨rsegs, hr1, hr2, hr3⟩ := ih (done ++ run ++ [n]) [] children
          h''' hpair hlab (by simp)
        refine ⟨fsegs ++ (.patricia n n.letters, [n]) :: rsegs, ?_, ?_, ?_⟩
        · rw [List.map_append, ← hf1, List.map_cons]
          have hargs1 : done.length + run.length + 1 =
              (done ++ run ++ [n]).length +
                ([] : List Index.PatriciaNode).length := by
            simp only [List.length_append, List.length_cons,
              List.length_nil]
          have hargs2 : ([] : List Nat) =
              ([] : List Index.PatriciaNode).map keyOf := rfl
          rw [hargs1, hargs2, ← hr1]
        · rw [List.map_append, List.flatten_append, hf2, List.map_cons,
            List.flatten_cons, hr2]
          simp
        · intro p hp
          rcases List.mem_append.mp hp with hp | hp
          · exact hf3 p hp
          · rcases List.mem_cons.mp hp with rfl | hp
            · exact HSeg.patricia n n.letters rfl
                (by rw [beq_iff_eq] at hone; exact hone) hlabn
            · exact hr3 p hp

/-- The heuristic splits sorted children into covering segments. -/
theorem node_type_heuristic_segs (children : List Index.PatriciaNode)
    (hpair : children.Pairwise (fun a b => keyOf a < keyOf b))
    (hlab : ∀ c ∈ children, c.letters ≠ []) :
    ∃ segs : List (HeurNode × List Index.PatriciaNode),
      node_type_heuristic children
          (children.map Index.PatriciaNode.letters) =
        segs.map Prod.fst ∧
      (segs.map Prod.snd).flatten = children ∧
      ∀ p ∈ segs, HSeg p.1 p.2 := by
  obtain ⟨segs, h1, h2, h3⟩ := heuristic_go_segs children [] [] children
    (by simp) hpair hlab (by simp)
  refine ⟨segs, ?_, by simpa using h2, h3⟩
  show node_type_heuristic_go children
      (children.zip (children.map Index.PatriciaNode.letters)) 0 [] = _
  simpa using h1

/-! ## Invariants of the group-construction loop

`CLink` records that a stored first-child pointer answers exact search like
the intermediate child (in every sufficiently stable extension of the
state); `PendingNodeAt` describes a group entry right after `push_pending`
(dummy pointers); `SegFinalAt` describes it after back-patching. -/

/-- A back-patched first-child pointer is semantically correct. -/
def CLink (st : CompiledTrie) (nlow rlow : Nat) (nd : Index.PatriciaNode)
    (ptr : Option Nat) : Prop :=
  match ptr with
  | none => nd.children = []
  | some b => ∀ fin, Extends st fin nlow rlow → ∀ w, w ≠ [] →
      ∀ f, w.length ≤ f →
      search_exact_children fin f w (fin.get_siblings b) =
        patLookup w.length nd w

/-- Shape of a freshly pushed (pending) group entry. -/
def PendingNodeAt (st : CompiledTrie) (pos sib : Nat) (h : HeurNode)
    (rs re : Nat) : Prop :=
  match h with
  | .simple nd c =>
      st.nodes.getD pos default =
        CompiledTrieNode.new_naive ⟨none, nd.freq, c⟩ sib
  | .patricia nd s => ∃ start,
      st.nodes.getD pos default =
        CompiledTrieNode.new_patricia ⟨none, nd.freq, start⟩ sib s.length ∧
      start + s.length ≤ st.chars.length ∧
      (st.chars.drop start).take s.length = s
  | .range nds cs => ∃ cmax, cmax ∈ cs ∧ (∀ c ∈ cs, c ≤ cmax) ∧
      re = rs + (cmax - cs.headD 0 + 1) ∧
      st.nodes.getD pos default =
        CompiledTrieNode.new_range ⟨cs.headD 0, rs, re⟩ sib ∧
      re ≤ st.ranges.length ∧
      (∀ k, k < cs.length →
        st.ranges.getD (rs + (cs.getD k 0 - cs.headD 0)) default =
          ⟨dummy_index, (nds.getD k default).freq⟩) ∧
      (∀ j, rs + j < re → (∀ c ∈ cs, c ≠ cs.headD 0 + j) →
        st.ranges.getD (rs + j) default = ⟨none, none⟩)

/-- Shape of a fully back-patched group entry, with correct child links. -/
def SegFinalAt (st : CompiledTrie) (nlow rlow pos sib : Nat) (h : HeurNode)
    (rs re : Nat) : Prop :=
  match h with
  | .simple nd c => ∃ ptr,
      st.nodes.getD pos default =
        CompiledTrieNode.new_naive ⟨ptr, nd.freq, c⟩ sib ∧
      CLink st nlow rlow nd ptr
  | .patricia nd s => ∃ ptr start,
      st.nodes.getD pos default =
        CompiledTrieNode.new_patricia ⟨ptr, nd.freq, start⟩ sib s.length ∧
      start + s.length ≤ st.chars.length ∧
      (st.chars.drop start).take s.length = s ∧
      CLink st nlow rlow nd ptr
  | .range nds cs => ∃ cmax, cmax ∈ cs ∧ (∀ c ∈ cs, c ≤ cmax) ∧
      re = rs + (cmax - cs.headD 0 + 1) ∧
      st.nodes.getD pos default =
        CompiledTrieNode.new_range ⟨cs.headD 0, rs, re⟩ sib ∧
      re ≤ st.ranges.length ∧
      (∀ k, k < cs.length → ∃ ptr,
        st.ranges.getD (rs + (cs.getD k 0 - cs.headD 0)) default =
          ⟨ptr, (nds.getD k default).freq⟩ ∧
        CLink st nlow rlow (nds.getD k default) ptr) ∧
      (∀ j, rs + j < re → (∀ c ∈ cs, c ≠ cs.headD 0 + j) →
        st.ranges.getD (rs + j) default = ⟨none, none⟩)

/-- `CLink` survives stable extension. -/
theorem CLink_mono {st st' : CompiledTrie} {nlow rlow : Nat}
    {nd : Index.PatriciaNode} {ptr : Option Nat}
    (h : CLink st nlow rlow nd ptr)
    (hext : Extends st st' nlow rlow) : CLink st' nlow rlow nd ptr := by
  cases ptr with
  | none => exact h
  | some b =>
      intro fin hfin w hw
      exact h fin (Extends_trans hext hfin (Nat.le_refl _) (Nat.le_refl _)) w
        hw

/-- `PendingNodeAt` survives extension that keeps the entry, the char prefix
and the range block. -/
theorem PendingNodeAt_mono {st st' : CompiledTrie} {pos sib : Nat}
    {h : HeurNode} {rs re : Nat}
    (hp : PendingNodeAt st pos sib h rs re)
    (hnode : st'.nodes.getD pos default = st.nodes.getD pos default)
    (hchars : st'.chars.take st.chars.length = st.chars)
    (hclen : st.chars.length ≤ st'.chars.length)
    (hranges : ∀ j, rs ≤ j → j < re → st'.ranges.getD j default =
      st.ranges.getD j default)
    (hrlen : re ≤ st'.ranges.length) :
    PendingNodeAt st' pos sib h rs re := by
  cases h with
  | simple nd c =>
      show st'.nodes.getD pos default = _
      rw [hnode]
      exact hp
  | patricia nd s =>
      obtain ⟨start, h1, h2, h3⟩ := hp
      refine ⟨start, ?_, by omega, ?_⟩
      · rw [hnode]
        exact h1
      · exact (slice_of_take_stable st'.chars st.chars st.chars.length start
          s.length hchars h2).trans h3
  | range nds cs =>
      obtain ⟨cmax, h1, h2, h3, h4, h5, h6, h7⟩ := hp
      refine ⟨cmax, h1, h2, h3, ?_, by omega, ?_, ?_⟩
      · rw [hnode]
        exact h4
      · intro k hk
        have hmem : cs.getD k 0 ∈ cs := by
          rw [List.getD_eq_getElem _ _ hk]
          exact List.getElem_mem hk
        have hc1 := h2 _ hmem
        rw [hranges _ (by omega) (by omega)]
        exact h6 k hk
      · intro j hj hgap
        rw [hranges _ (by omega) (by omega)]
        exact h7 j hj hgap

/-- Widening the unstable windows weakens `Extends`. -/
theorem Extends_weaken {a b : CompiledTrie} {n r n' r' : Nat}
    (h : Extends a b n r) (hn : n ≤ n') (hr : r ≤ r') : Extends a b n' r' :=
  ⟨h.1, h.2.1, fun j hj1 hj2 => h.2.2.1 j (by omega) hj2, h.2.2.2.1,
    fun j hj1 hj2 => h.2.2.2.2 j (by omega) hj2⟩

/-- `SegFinalAt` survives extension that keeps the entry, the char prefix,
the range block and the stable windows. -/
theorem SegFinalAt_mono {st st' : CompiledTrie} {nlow rlow pos sib : Nat}
    {h : HeurNode} {rs re : Nat}
    (hp : SegFinalAt st nlow rlow pos sib h rs re)
    (hext : Extends st st' nlow rlow)
    (hnode : st'.nodes.getD pos default = st.nodes.getD pos default)
    (hranges : ∀ j, rs ≤ j → j < re → st'.ranges.getD j default =
      st.ranges.getD j default) :
    SegFinalAt st' nlow rlow pos sib h rs re := by
  cases h with
  | simple nd c =>
      obtain ⟨ptr, h1, h2⟩ := hp
      refine ⟨ptr, ?_, CLink_mono h2 hext⟩
      rw [hnode]
      exact h1
  | patricia nd s =>
      obtain ⟨ptr, start, h1, h2, h3, h4⟩ := hp
      refine ⟨ptr, start, ?_, by have := hext.chars_le; omega, ?_,
        CLink_mono h4 hext⟩
      · rw [hnode]
        exact h1
      · exact (slice_of_take_stable st'.chars st.chars st.chars.length start
          s.length hext.2.1 h2).trans h3
  | range nds cs =>
      obtain ⟨cmax, h1, h2, h3, h4, h5, h6, h7⟩ := hp
      refine ⟨cmax, h1, h2, h3, ?_, by have := hext.2.2.2.1; omega, ?_, ?_⟩
      · rw [hnode]
        exact h4
      · intro k hk
        obtain ⟨ptr, hp1, hp2⟩ := h6 k hk
        have hmem : cs.getD k 0 ∈ cs := by
          rw [List.getD_eq_getElem _ _ hk]
          exact List.getElem_mem hk
        have hc1 := h2 _ hmem
        refine ⟨ptr, ?_, CLink_mono hp2 hext⟩
        rw [hranges _ (by omega) (by omega)]
        exact hp1
      · intro j hj hgap
        rw [hranges _ (by omega) (by omega)]
        exact h7 j hj hgap

/-- A prefix of a prefix is a prefix. -/
theorem take_prefix_trans {c b a : List Nat} (hcb : c.take b.length = b)
    (hba : b.take a.length = a) (hab : a.length ≤ b.length) :
    c.take a.length = a := by
  have h1 : c.take a.length = (c.take b.length).take a.length := by
    rw [List.take_take, Nat.min_eq_left hab]
  rw [h1, hcb, hba]

/-- Wellformedness of one heuristic entry, as needed by `push_pending`. -/
def HeurWF : HeurNode → Prop
  | .simple _ _ => True
  | .patricia _ s => s ≠ []
  | .range nds cs => cs.length = nds.length ∧ cs.Pairwise (· < ·) ∧ cs ≠ []

/-- Characterization of `push_pending`: one pending node per heuristic entry
(sibling counts descending), with ordered, bounded range blocks. -/
theorem push_pending_spec (H : List HeurNode) :
    ∀ st : CompiledTrie, (∀ h ∈ H, HeurWF h) →
    ∃ metas : List (Nat × Nat),
      metas.length = H.length ∧
      (push_pending H st).nodes.length = st.nodes.length + H.length ∧
      (∀ j, j < st.nodes.length →
        (push_pending H st).nodes.getD j default = st.nodes.getD j default) ∧
      (push_pending H st).chars.take st.chars.length = st.chars ∧
      st.ranges.length ≤ (push_pending H st).ranges.length ∧
      (∀ j, j < st.ranges.length →
        (push_pending H st).ranges.getD j default =
          st.ranges.getD j default) ∧
      (∀ m, m < H.length → st.ranges.length ≤ (metas.getD m default).1 ∧
        (metas.getD m default).1 ≤ (metas.getD m default).2 ∧
        (metas.getD m default).2 ≤ (push_pending H st).ranges.length) ∧
      (∀ m m', m < m' → m' < H.length →
        (metas.getD m default).2 ≤ (metas.getD m' default).1) ∧
      (∀ m, m < H.length →
        PendingNodeAt (push_pending H st) (st.nodes.length + m)
          (H.length - 1 - m) (H.getD m default)
          (metas.getD m default).1 (metas.getD m default).2) := by
  induction H with
  | nil =>
      intro st _
      exact ⟨[], rfl, rfl, fun _ _ => rfl, List.take_length _, Nat.le_refl _,
        fun _ _ => rfl, fun m hm => absurd hm (by simp),
        fun m m' _ hm' => absurd hm' (by simp),
        fun m hm => absurd hm (by simp)⟩
  | cons h rest ih =>
      intro st hwf
      have hwfr : ∀ x ∈ rest, HeurWF x :=
        fun x hx => hwf x (List.mem_cons_of_mem _ hx)
      have hstep : ∃ (st' : CompiledTrie) (m0 : Nat × Nat),
          push_pending (h :: rest) st = push_pending rest st' ∧
          st'.nodes.length = st.nodes.length + 1 ∧
          (∀ j, j < st.nodes.length →
            st'.nodes.getD j default = st.nodes.getD j default) ∧
          st'.chars.take st.chars.length = st.chars ∧
          st.ranges.length ≤ st'.ranges.length ∧
          (∀ j, j < st.ranges.length →
            st'.ranges.getD j default = st.ranges.getD j default) ∧
          st.ranges.length ≤ m0.1 ∧ m0.1 ≤ m0.2 ∧
          m0.2 ≤ st'.ranges.length ∧
          PendingNodeAt st' st.nodes.length rest.length h m0.1 m0.2 := by
        cases h with
        | simple nd c =>
            refine ⟨⟨st.nodes ++
              [CompiledTrieNode.new_naive ⟨none, nd.freq, c⟩ rest.length],
              st.chars, st.ranges⟩, (st.ranges.length, st.ranges.length),
              rfl, by simp, fun j hj => getD_append_lt _ _ j hj,
              List.take_length _, Nat.le_refl _, fun _ _ => rfl,
              Nat.le_refl _, Nat.le_refl _, Nat.le_refl _, ?_⟩
            have hg := getD_append_ge st.nodes
              [CompiledTrieNode.new_naive ⟨none, nd.freq, c⟩ rest.length] 0
            rw [Nat.add_zero] at hg
            show (st.nodes ++
              [CompiledTrieNode.new_naive ⟨none, nd.freq, c⟩
                rest.length]).getD st.nodes.length default =
              CompiledTrieNode.new_naive ⟨none, nd.freq, c⟩ rest.length
            rw [hg]
            rfl
        | patricia nd s =>
            have hs := add_chars_spec st.chars s
            refine ⟨⟨st.nodes ++
              [CompiledTrieNode.new_patricia
                ⟨none, nd.freq, (add_chars st.chars s).2.1⟩ rest.length
                s.length],
              (add_chars st.chars s).1, st.ranges⟩,
              (st.ranges.length, st.ranges.length),
              rfl, by simp, fun j hj => getD_append_lt _ _ j hj,
              hs.1, Nat.le_refl _, fun _ _ => rfl,
              Nat.le_refl _, Nat.le_refl _, Nat.le_refl _,
              ⟨(add_chars st.chars s).2.1, ?_, hs.2.2.1, hs.2.2.2⟩⟩
            have hg := getD_append_ge st.nodes
              [CompiledTrieNode.new_patricia
                ⟨none, nd.freq, (add_chars st.chars s).2.1⟩ rest.length
                s.length] 0
            rw [Nat.add_zero] at hg
            show (st.nodes ++
              [CompiledTrieNode.new_patricia
                ⟨none, nd.freq, (add_chars st.chars s).2.1⟩ rest.length
                s.length]).getD st.nodes.length default =
              CompiledTrieNode.new_patricia
                ⟨none, nd.freq, (add_chars st.chars s).2.1⟩ rest.length
                s.length
            rw [hg]
            rfl
        | range nds cs =>
            obtain ⟨hlen, hsort, hne⟩ := hwf _ (List.mem_cons_self _ _)
            have heq : add_range st.ranges nds cs =
                ((add_range st.ranges nds cs).1,
                 (add_range st.ranges nds cs).2.1,
                 (add_range st.ranges nds cs).2.2.1,
                 (add_range st.ranges nds cs).2.2.2) := rfl
            obtain ⟨hs1, hs2, ⟨cmax, hcm, hce, hcle⟩, hs4, hs5, hs6, hs7⟩ :=
              add_range_spec st.ranges nds cs _ _ _ _ heq hlen hsort hne
            refine ⟨⟨st.nodes ++
              [CompiledTrieNode.new_range
                ⟨(add_range st.ranges nds cs).2.2.2,
                 (add_range st.ranges nds cs).2.1,
                 (add_range st.ranges nds cs).2.2.1⟩ rest.length],
              st.chars, (add_range st.ranges nds cs).1⟩,
              ((add_range st.ranges nds cs).2.1,
               (add_range st.ranges nds cs).2.2.1),
              rfl, by simp, fun j hj => getD_append_lt _ _ j hj,
              List.take_length _, by simp only [hs4]; omega, hs5,
              by omega, by omega, by simp only [hs4]; omega,
              ⟨cmax, hcm, hcle, by omega, ?_, by simp only [hs4]; omega,
                ?_, ?_⟩⟩
            · show (st.nodes ++ [_]).getD st.nodes.length default = _
              have := getD_append_ge st.nodes
                [CompiledTrieNode.new_range
                  ⟨(add_range st.ranges nds cs).2.2.2,
                   (add_range st.ranges nds cs).2.1,
                   (add_range st.ranges nds cs).2.2.1⟩ rest.length] 0
              rw [Nat.add_zero] at this
              rw [this]
              show _ = CompiledTrieNode.new_range
                ⟨cs.headD 0, (add_range st.ranges nds cs).2.1,
                 (add_range st.ranges nds cs).2.2.1⟩ rest.length
              rw [← hs2]
              rfl
            · intro k hk
              have := hs6 k hk
              rw [hs2] at this
              exact this
            · intro j hj hgap
              refine hs7 j hj ?_
              rw [hs2]
              exact hgap
      obtain ⟨st', m0, hpush, hlen1, hnodes1, hchars1, hrlen1, hrpres1,
        hm01, hm02, hm03, hpend0⟩ := hstep
      obtain ⟨metas', hml, hL, hN, hC, hRL, hRP, hMB, hMO, hP⟩ :=
        ih st' hwfr
      have hclen1 : st.chars.length ≤ st'.chars.length := by
        have := congrArg List.length hchars1
        rw [List.length_take] at this
        omega
      refine ⟨m0 :: metas', by simp [hml], ?_, ?_, ?_, ?_, ?_, ?_, ?_, ?_⟩
      · rw [hpush, hL, hlen1]
        simp only [List.length_cons]
        omega
      · intro j hj
        rw [hpush, hN j (by omega), hnodes1 j hj]
      · rw [hpush]
        exact take_prefix_trans hC hchars1 hclen1
      · rw [hpush]
        omega
      · intro j hj
        rw [hpush, hRP j (by omega), hrpres1 j hj]
      · intro m hm
        rw [hpush]
        cases m with
        | zero =>
            simp only [List.getD_cons_zero]
            exact ⟨hm01, hm02, by omega⟩
        | succ m' =>
            simp only [List.getD_cons_succ]
            have := hMB m' (by simp only [List.length_cons] at hm; omega)
            exact ⟨by omega, this.2.1, this.2.2⟩
      · intro m m' hlt hm'
        cases m' with
        | zero => omega
        | succ k =>
            simp only [List.length_cons] at hm'
            cases m with
            | zero =>
                simp only [List.getD_cons_zero, List.getD_cons_succ]
                have := (hMB k (by omega)).1
                omega
            | succ m'' =>
                simp only [List.getD_cons_succ]
                exact hMO m'' k (by omega) (by omega)
      · intro m hm
        rw [hpush]
        cases m with
        | zero =>
            simp only [List.getD_cons_zero, Nat.add_zero, List.length_cons]
            have hsib : rest.length + 1 - 1 - 0 = rest.length := by omega
            rw [hsib]
            refine PendingNodeAt_mono hpend0 (hN st.nodes.length (by omega))
              hC (by
                have := congrArg List.length hC
                rw [List.length_take] at this
                omega) (fun j hj1 hj2 => hRP j (by omega)) (by omega)
        | succ m'' =>
            simp only [List.length_cons] at hm
            simp only [List.getD_cons_succ, List.length_cons]
            have hpos : st.nodes.length + (m'' + 1) =
                st'.nodes.length + m'' := by omega
            have hsib : rest.length + 1 - 1 - (m'' + 1) =
                rest.length - 1 - m'' := by omega
            rw [hpos, hsib]
            exact hP m'' (by omega)

/-! ## Fuel accounting and small structural facts -/

/-- A patricia node counts at least itself. -/
theorem ptSize_pos (t : Index.PatriciaNode) : 1 ≤ ptSize t := by
  cases t
  simp [ptSize]

/-- A member's size is bounded by the forest size. -/
theorem ptSize_mem_le : ∀ (l : List Index.PatriciaNode) (nd : Index.PatriciaNode),
    nd ∈ l → ptSize nd ≤ ptSizeL l
  | [], nd, h => by simp at h
  | x :: xs, nd, h => by
      rcases List.mem_cons.mp h with rfl | h
      · simp only [ptSizeL]
        omega
      · have := ptSize_mem_le xs nd h
        simp only [ptSizeL]
        omega

/-- The loop fuel bound in terms of the forest size. -/
theorem needL_le : ∀ l : List Index.PatriciaNode,
    needL l ≤ 2 * ptSizeL l + 1
  | [] => by simp [needL, ptSizeL]
  | c :: rest => by
      have h1 := needL_le rest
      have h2 := ptSize_pos c
      simp only [needL, ptSizeL]
      omega

/-- At least one fuel unit is always needed. -/
theorem needL_pos : ∀ l : List Index.PatriciaNode, 1 ≤ needL l
  | [] => Nat.le_refl _
  | _ :: _ => by simp only [needL]; omega

/-- Fuel need of an appended loop: at least one unit per leading child plus
the tail's need. -/
theorem needL_append_ge : ∀ (xs ys : List Index.PatriciaNode),
    xs.length + needL ys ≤ needL (xs ++ ys)
  | [], ys => by simp
  | x :: xs, ys => by
      have := needL_append_ge xs ys
      simp only [List.cons_append, needL, List.length_cons, List.append_eq]
      omega

/-- `capOK` on a node exposes its own bounds and the children's `capOKL`. -/
theorem capOK_inv (l : List Nat) (c : List Index.PatriciaNode)
    (f : Option Nat) (h : capOK (.mk l c f) = true) :
    l.length < 2 ^ 12 ∧ c.length < 2 ^ 18 ∧ capOKL c = true := by
  simp only [capOK, Bool.and_eq_true, decide_eq_true_eq] at h
  exact ⟨h.1.1, h.1.2, h.2⟩

/-- `capOKL` restricts to members. -/
theorem capOKL_mem : ∀ (l : List Index.PatriciaNode)
    (nd : Index.PatriciaNode), capOKL l = true → nd ∈ l → capOK nd = true
  | [], _, _, h => by simp at h
  | x :: xs, nd, hc, h => by
      simp only [capOKL, Bool.and_eq_true] at hc
      rcases List.mem_cons.mp h with rfl | h
      · exact hc.1
      · exact capOKL_mem xs nd hc.2 h

/-- `getD` of an in-bounds slice. -/
theorem getD_slice {α : Type} [Inhabited α] (l : List α) (a k m : Nat)
    (hm : m < k) (hb : a + k ≤ l.length) :
    ((l.drop a).take k).getD m default = l.getD (a + m) default := by
  have h1 : m < ((l.drop a).take k).length := by
    rw [List.length_take, List.length_drop]
    omega
  have h2 : a + m < l.length := by omega
  rw [List.getD_eq_getElem _ _ h1, List.getD_eq_getElem _ _ h2]
  rw [List.getElem_take, List.getElem_drop]

/-- Length of an in-bounds slice. -/
theorem length_slice {α : Type} (l : List α) (a k : Nat)
    (hb : a + k ≤ l.length) : ((l.drop a).take k).length = k := by
  rw [List.length_take, List.length_drop]
  omega

/-- `findIdx` of the first satisfying index. -/
theorem findIdx_spec {α : Type} (p : α → Bool) :
    ∀ (l : List α) (i : Nat) (hi : i < l.length),
      (∀ j, (hj : j < l.length) → j < i → p l[j] = false) →
      p l[i] = true → l.findIdx p = i
  | [], i, hi, _, _ => by simp at hi
  | x :: xs, 0, _, _, hp => by
      rw [List.findIdx_cons]
      simp only [List.getElem_cons_zero] at hp
      rw [hp]
      rfl
  | x :: xs, i + 1, hi, hbefore, hp => by
      rw [List.findIdx_cons]
      have h0 := hbefore 0 (by omega) (by omega)
      simp only [List.getElem_cons_zero] at h0
      rw [h0]
      simp only [cond_false]
      have := findIdx_spec p xs i (by simpa using hi)
        (fun j hj hji => by
          have := hbefore (j + 1) (by simpa using hj) (by omega)
          simpa using this)
        (by simpa using hp)
      omega

/-- `find_next_dummy_range_node` lands on the first present element. -/
theorem find_next_dummy_spec (ranges : List RangeElement) (cur tgt : Nat)
    (h1 : cur ≤ tgt) (h2 : tgt < ranges.length)
    (hgap : ∀ j, cur ≤ j → j < tgt →
      (ranges.getD j default).index_first_child = none)
    (hhit : (ranges.getD tgt default).index_first_child.isSome = true) :
    find_next_dummy_range_node ranges cur = tgt := by
  unfold find_next_dummy_range_node
  have hlen : tgt - cur < (ranges.drop cur).length := by
    rw [List.length_drop]
    omega
  have := findIdx_spec (fun n => n.index_first_child.isSome)
    (ranges.drop cur) (tgt - cur) hlen
    (fun j hj hji => by
      rw [List.getElem_drop]
      have hj2 : cur + j < ranges.length := by
        rw [List.length_drop] at hj
        omega
      have := hgap (cur + j) (by omega) (by omega)
      rw [List.getD_eq_getElem _ _ hj2] at this
      simp [this])
    (by
      rw [List.getElem_drop]
      have ht : cur + (tgt - cur) = tgt := by omega
      rw [List.getD_eq_getElem _ _ h2] at hhit
      simp only [ht]
      simpa using hhit)
  omega

/-- `headD` of a list read at index 0. -/
theorem headD_eq_getD (l : List Nat) : l.headD 0 = l.getD 0 0 := by
  cases l <;> rfl

/-- In a strictly sorted list the indexed elements are strictly monotone. -/
theorem sorted_getD_lt (cs : List Nat) (hsort : cs.Pairwise (· < ·))
    (i j : Nat) (hij : i < j) (hj : j < cs.length) :
    cs.getD i 0 < cs.getD j 0 := by
  have hi : i < cs.length := by omega
  rw [List.getD_eq_getElem _ _ hi, List.getD_eq_getElem _ _ hj]
  exact List.pairwise_iff_getElem.mp hsort i j hi hj hij

/-- The greatest member of a strictly sorted list is its last element. -/
theorem sorted_max_eq_last (cs : List Nat) (hsort : cs.Pairwise (· < ·))
    (hne : cs ≠ []) (cmax : Nat) (hmem : cmax ∈ cs)
    (hle : ∀ c ∈ cs, c ≤ cmax) :
    cmax = cs.getD (cs.length - 1) 0 := by
  have hlast : cs.length - 1 < cs.length := by
    cases cs with
    | nil => exact absurd rfl hne
    | cons x xs => simp
  have hmem2 : cs.getD (cs.length - 1) 0 ∈ cs := by
    rw [List.getD_eq_getElem _ _ hlast]
    exact List.getElem_mem hlast
  have h1 := hle _ hmem2
  obtain ⟨i, hi, rfl⟩ := List.mem_iff_getElem.mp hmem
  rcases Nat.lt_or_ge i (cs.length - 1) with h | h
  · have := sorted_getD_lt cs hsort i (cs.length - 1) h hlast
    rw [List.getD_eq_getElem _ _ hi] at this
    omega
  · have : i = cs.length - 1 := by omega
    subst this
    rw [List.getD_eq_getElem _ _ hi]

/-- Membership as an indexed read. -/
theorem mem_iff_getD (cs : List Nat) (c : Nat) :
    c ∈ cs ↔ ∃ k, k < cs.length ∧ cs.getD k 0 = c := by
  rw [List.mem_iff_getElem]
  constructor
  · rintro ⟨k, hk, rfl⟩
    exact ⟨k, hk, List.getD_eq_getElem _ _ hk⟩
  · rintro ⟨k, hk, hc⟩
    exact ⟨k, hk, by rw [← List.getD_eq_getElem _ _ hk]; exact hc⟩

/-! ## The back-patching steps of the child loop -/

/-- Patching a pending naive node rewrites exactly its first-child index. -/
theorem finish_naive_step (nodes : List CompiledTrieNode)
    (ranges : List RangeElement) (ifc : Option Nat) (pend : Nat)
    (range_i : Option Nat) (fr : Option Nat) (c sib : Nat)
    (hnode : nodes.getD pend default =
      CompiledTrieNode.new_naive ⟨none, fr, c⟩ sib) :
    finish_current_node nodes ranges ifc pend range_i =
      (nodes.set pend (CompiledTrieNode.new_naive ⟨ifc, fr, c⟩ sib),
        ranges, pend + 1, none) := by
  unfold finish_current_node
  rw [hnode]
  rfl

/-- Patching a pending patricia node rewrites exactly its first-child
index. -/
theorem finish_patricia_step (nodes : List CompiledTrieNode)
    (ranges : List RangeElement) (ifc : Option Nat) (pend : Nat)
    (range_i : Option Nat) (fr : Option Nat) (start sib slen : Nat)
    (hnode : nodes.getD pend default =
      CompiledTrieNode.new_patricia ⟨none, fr, start⟩ sib slen) :
    finish_current_node nodes ranges ifc pend range_i =
      (nodes.set pend
        (CompiledTrieNode.new_patricia ⟨ifc, fr, start⟩ sib slen),
        ranges, pend + 1, none) := by
  unfold finish_current_node
  rw [hnode]
  rfl

/-- Patching a pending range node rewrites the element found by the dummy
scan and advances the cursor (or the pending node when the block ends). -/
theorem finish_range_step (nodes : List CompiledTrieNode)
    (ranges : List RangeElement) (ifc : Option Nat) (pend : Nat)
    (range_i : Option Nat) (mn rs re sib tgt : Nat) (fr : Option Nat)
    (hnode : nodes.getD pend default =
      CompiledTrieNode.new_range ⟨mn, rs, re⟩ sib)
    (hfind : find_next_dummy_range_node ranges (range_i.getD rs) = tgt)
    (helem : ranges.getD tgt default = ⟨dummy_index, fr⟩) :
    finish_current_node nodes ranges ifc pend range_i =
      (nodes, ranges.set tgt ⟨ifc, fr⟩,
        if tgt + 1 ≥ re then pend + 1 else pend,
        if tgt + 1 ≥ re then none else some (tgt + 1)) := by
  unfold finish_current_node
  rw [hnode]
  show (let cur_i := range_i.getD rs
        let next_i := find_next_dummy_range_node ranges cur_i
        let patched := ranges.set next_i
          { ranges.getD next_i default with index_first_child := ifc }
        if next_i + 1 ≥ re then (nodes, patched, pend + 1, none)
        else (nodes, patched, pend, some (next_i + 1))) = _
  simp only [hfind, helem]
  by_cases h : tgt + 1 ≥ re
  · rw [if_pos h, if_pos h, if_pos h]
  · rw [if_neg h, if_neg h, if_neg h]

/-- Full correctness of one `fill_main` node step: the state only grows (all
existing entries preserved), it grows iff the node has children, and in
every stable extension of the result, exact search from the pushed group
agrees with `patLookup` on the node. -/
def FillOK (c : Index.PatriciaNode) (st : CompiledTrie) (fuel : Nat) : Prop :=
  let st' := fill_main fuel (.inl (c, st))
  st.nodes.length ≤ st'.nodes.length ∧
  st'.chars.take st.chars.length = st.chars ∧
  (∀ j, j < st.nodes.length →
    st'.nodes.getD j default = st.nodes.getD j default) ∧
  st.ranges.length ≤ st'.ranges.length ∧
  (∀ j, j < st.ranges.length →
    st'.ranges.getD j default = st.ranges.getD j default) ∧
  (st'.nodes.length = st.nodes.length ↔ c.children = []) ∧
  (c.children ≠ [] → ∀ fin,
    Extends st' fin st.nodes.length st.ranges.length →
    ∀ w, w ≠ [] → ∀ f, w.length ≤ f →
    search_exact_children fin f w (fin.get_siblings st.nodes.length) =
      patLookup w.length c w)

/-! ## Assembling the group search from the per-segment facts -/

/-- Natural comparison in interval form. -/
theorem nat_compare_iform (a b : Nat) :
    compare a b = (if a < b then Ordering.lt else if b < a then Ordering.gt
      else Ordering.eq) := by
  rcases Nat.lt_trichotomy a b with h | h | h
  · rw [if_pos h]
    exact Nat.compare_eq_lt.mpr h
  · subst h
    rw [if_neg (by omega), if_neg (by omega)]
    exact Nat.compare_eq_eq.mpr rfl
  · rw [if_neg (by omega), if_pos h]
    exact Nat.compare_eq_gt.mpr h

/-- `getD` at an in-bounds index is a member. -/
theorem getD_mem {α : Type} [Inhabited α] (l : List α) (i : Nat)
    (h : i < l.length) : l.getD i default ∈ l := by
  rw [List.getD_eq_getElem _ _ h]
  exact List.getElem_mem h

/-- `getD` through `map` at an in-bounds index. -/
theorem getD_map_lt {α β : Type} [Inhabited α] (f : α → β) (l : List α)
    (i : Nat) (d : β) (h : i < l.length) :
    (l.map f).getD i d = f (l.getD i default) := by
  have h2 : i < (l.map f).length := by simpa using h
  rw [List.getD_eq_getElem _ _ h2, List.getD_eq_getElem _ _ h,
    List.getElem_map]

/-- A member of a flattened list belongs to one of its sections. -/
theorem mem_flatten_idx {α : Type} :
    ∀ (ll : List (List α)) (x : α), x ∈ ll.flatten →
      ∃ i, i < ll.length ∧ x ∈ ll.getD i []
  | [], x, h => by simp at h
  | l :: ls, x, h => by
      rw [List.flatten_cons, List.mem_append] at h
      rcases h with h | h
      · exact ⟨0, by simp, h⟩
      · obtain ⟨i, hi, hx⟩ := mem_flatten_idx ls x h
        exact ⟨i + 1, by simpa using hi, hx⟩

/-- Pairwise order across distinct sections of a flattened list. -/
theorem flatten_cross {α : Type} (R : α → α → Prop) :
    ∀ (ll : List (List α)), (ll.flatten).Pairwise R →
      ∀ i j, i < j → j < ll.length →
      ∀ x ∈ ll.getD i [], ∀ y ∈ ll.getD j [], R x y
  | [], _, i, j, _, hj => by simp at hj
  | l :: ls, hp, i, j, hij, hj => by
      rw [List.flatten_cons, List.pairwise_append] at hp
      obtain ⟨h1, h2, h3⟩ := hp
      cases i with
      | zero =>
          intro x hx y hy
          cases j with
          | zero => omega
          | succ j' =>
              refine h3 x hx y ?_
              simp only [List.getD_cons_succ] at hy
              have hj' : j' < ls.length := by simpa using hj
              refine List.mem_flatten.mpr ⟨ls.getD j' [], ?_, hy⟩
              rw [List.getD_eq_getElem _ _ hj']
              exact List.getElem_mem hj'
      | succ i' =>
          cases j with
          | zero => omega
          | succ j' =>
              simp only [List.getD_cons_succ]
              exact flatten_cross R ls h2 i' j' (by omega) (by simpa using hj)

/-- Interval lower bound of one heuristic entry. -/
def heurLo : HeurNode → Nat
  | .simple _ c => c
  | .patricia _ s => s.headD 0
  | .range _ cs => cs.headD 0

/-- Interval upper bound of one heuristic entry. -/
def heurHi : HeurNode → Nat
  | .simple _ c => c
  | .patricia _ s => s.headD 0
  | .range _ cs => cs.getD (cs.length - 1) 0

/-- Keys of a segment lie inside its heuristic interval. -/
theorem HSeg_key_between {h : HeurNode} {kids : List Index.PatriciaNode}
    (hs : HSeg h kids) : ∀ x ∈ kids, heurLo h ≤ keyOf x ∧
      keyOf x ≤ heurHi h := by
  cases hs with
  | simple nd c hc =>
      intro x hx
      rcases List.mem_singleton.mp hx with rfl
      simp [heurLo, heurHi, keyOf, hc]
  | patricia nd s hls h1 h2 =>
      intro x hx
      rcases List.mem_singleton.mp hx with rfl
      simp [heurLo, heurHi, keyOf, hls]
  | range nds cs hlen h2 hlab hsort =>
      intro x hx
      obtain ⟨k, hk, rfl⟩ := List.mem_iff_getElem.mp hx
      have hkc : k < cs.length := by omega
      have hkey : keyOf kids[k] = cs.getD k 0 := by
        have := hlab k hkc
        rw [List.getD_eq_getElem _ _ (by omega : k < kids.length)] at this
        simp [keyOf, this]
      rw [hkey]
      constructor
      · show heurLo (.range kids cs) ≤ _
        show cs.headD 0 ≤ _
        rw [headD_eq_getD]
        rcases eq_or_ne k 0 with rfl | hne
        · exact Nat.le_refl _
        · exact Nat.le_of_lt (sorted_getD_lt cs hsort 0 k (by omega) hkc)
      · show _ ≤ heurHi (.range kids cs)
        show _ ≤ cs.getD (cs.length - 1) 0
        rcases eq_or_ne k (cs.length - 1) with rfl | hne
        · exact Nat.le_refl _
        · exact Nat.le_of_lt (sorted_getD_lt cs hsort k (cs.length - 1)
            (by omega) (by omega))

/-- The interval lower bound is the key of a segment member. -/
theorem HSeg_lo_mem {h : HeurNode} {kids : List Index.PatriciaNode}
    (hs : HSeg h kids) : ∃ x ∈ kids, keyOf x = heurLo h := by
  cases hs with
  | simple nd c hc => exact ⟨nd, List.mem_singleton_self _, by simp [keyOf, hc, heurLo]⟩
  | patricia nd s hls h1 h2 => exact ⟨nd, List.mem_singleton_self _, by simp [keyOf, hls, heurLo]⟩
  | range nds cs hlen h2 hlab hsort =>
      have h0 : 0 < kids.length := by omega
      refine ⟨kids.getD 0 default, getD_mem _ _ h0, ?_⟩
      have hl := hlab 0 (by omega)
      show (kids.getD 0 default).letters.headD 0 = cs.headD 0
      rw [hl, headD_eq_getD cs]
      rfl

/-- The interval upper bound is the key of a segment member. -/
theorem HSeg_hi_mem {h : HeurNode} {kids : List Index.PatriciaNode}
    (hs : HSeg h kids) : ∃ x ∈ kids, keyOf x = heurHi h := by
  cases hs with
  | simple nd c hc => exact ⟨nd, List.mem_singleton_self _, by simp [keyOf, hc, heurHi]⟩
  | patricia nd s hls h1 h2 => exact ⟨nd, List.mem_singleton_self _, by simp [keyOf, hls, heurHi]⟩
  | range nds cs hlen h2 hlab hsort =>
      have hlast : cs.length - 1 < kids.length := by omega
      refine ⟨kids.getD (cs.length - 1) default, getD_mem _ _ hlast, ?_⟩
      have hl := hlab (cs.length - 1) (by omega)
      show (kids.getD (cs.length - 1) default).letters.headD 0 =
        cs.getD (cs.length - 1) 0
      rw [hl]
      rfl

/-- Segments are non-empty. -/
theorem HSeg_ne {h : HeurNode} {kids : List Index.PatriciaNode}
    (hs : HSeg h kids) : kids ≠ [] := by
  cases hs with
  | simple nd c hc => simp
  | patricia nd s hls h1 h2 => simp
  | range nds cs hlen h2 hlab hsort =>
      intro hcon
      rw [hcon] at hlen
      simp only [List.length_nil] at hlen
      omega

/-- `find?` by key on a strictly key-sorted list hits a known member. -/
theorem find?_key_of_mem :
    ∀ (children : List Index.PatriciaNode), 
      children.Pairwise (fun a b => keyOf a < keyOf b) →
      ∀ (nd : Index.PatriciaNode) (qc : Nat), nd ∈ children → keyOf nd = qc →
      children.find? (fun ch => ch.letters.headD 0 == qc) = some nd
  | [], _, nd, qc, h, _ => by simp at h
  | x :: xs, hp, nd, qc, h, hkey => by
      rcases List.mem_cons.mp h with rfl | h
      · rw [List.find?_cons_of_pos]
        simpa [keyOf] using hkey
      · have hlt : keyOf x < keyOf nd := (List.pairwise_cons.mp hp).1 nd h
        rw [List.find?_cons_of_neg _ (by
          simp only [beq_iff_eq]
          show ¬ keyOf x = qc
          omega)]
        exact find?_key_of_mem xs (List.pairwise_cons.mp hp).2 nd qc h hkey

/-- `capOK` bounds the node's own label length. -/
theorem capOK_letters (nd : Index.PatriciaNode) (h : capOK nd = true) :
    nd.letters.length < 2 ^ 12 := by
  cases nd with
  | mk l c f => exact (capOK_inv l c f h).1

/-- `patLookup` through an empty child list, via the record accessor. -/
theorem patLookup_children_nil (fuel : Nat) (nd : Index.PatriciaNode)
    (w : List Nat) (h : nd.children = []) : patLookup fuel nd w = none := by
  cases nd with
  | mk l c f =>
      have hc : c = [] := h
      subst hc
      exact patLookup_no_children fuel l f w

/-- `find?` by key misses when no member carries the key. -/
theorem find?_key_none_mem (children : List Index.PatriciaNode) (qc : Nat)
    (h : ∀ x ∈ children, keyOf x ≠ qc) :
    children.find? (fun ch => ch.letters.headD 0 == qc) = none := by
  rw [List.find?_eq_none]
  intro x hx hcon
  rw [beq_iff_eq] at hcon
  exact h x hx hcon

/-- One descent step through a naive child. -/
theorem search_step_naive (trie : CompiledTrie) (fuel qc : Nat)
    (w0 : List Nat) (children : List CompiledTrieNode)
    (child : CompiledTrieNode) (node : NaiveNode)
    (h : search_child trie children qc = some (child, .naive node)) :
    search_exact_children trie (fuel + 1) (qc :: w0) children =
      (if w0.isEmpty then node.word_freq
       else match node.index_first_child with
         | none => none
         | some i => search_exact_children trie fuel w0
             (trie.get_siblings i)) := by
  simp only [search_exact_children, List.head?_cons, h, List.drop_succ_cons,
    List.drop_zero]

/-- One descent step through a patricia child. -/
theorem search_step_patricia (trie : CompiledTrie) (fuel qc : Nat)
    (w0 : List Nat) (children : List CompiledTrieNode)
    (child : CompiledTrieNode) (node : PatriciaNode)
    (h : search_child trie children qc = some (child, .patricia node)) :
    search_exact_children trie (fuel + 1) (qc :: w0) children =
      (if (trie.get_chars child.patricia_range.1
            child.patricia_range.2).isPrefixOf (qc :: w0) then
        (if ((qc :: w0).drop (trie.get_chars child.patricia_range.1
              child.patricia_range.2).length).isEmpty then node.word_freq
         else match node.index_first_child with
           | none => none
           | some i => search_exact_children trie fuel
               ((qc :: w0).drop (trie.get_chars child.patricia_range.1
                 child.patricia_range.2).length) (trie.get_siblings i))
       else none) := by
  simp only [search_exact_children, List.head?_cons, h]
  by_cases hp : (trie.get_chars child.patricia_range.1
      child.patricia_range.2).isPrefixOf (qc :: w0)
  · rw [if_pos hp, if_pos hp]
  · rw [if_neg hp, if_neg hp]

/-- One descent step through a range child. -/
theorem search_step_range (trie : CompiledTrie) (fuel qc : Nat)
    (w0 : List Nat) (children : List CompiledTrieNode)
    (child : CompiledTrieNode) (node : RangeNode)
    (h : search_child trie children qc = some (child, .range node)) :
    search_exact_children trie (fuel + 1) (qc :: w0) children =
      (if w0.isEmpty then
        (trie.get_range_element_unchecked node.start_index
          (qc - node.first_char)).word_freq
       else match (trie.get_range_element_unchecked node.start_index
            (qc - node.first_char)).index_first_child with
         | none => none
         | some i => search_exact_children trie fuel w0
             (trie.get_siblings i)) := by
  simp only [search_exact_children, List.head?_cons, h, List.drop_succ_cons,
    List.drop_zero]

/-- A missed `search_child` answers absence for a non-empty word. -/
theorem search_step_none (trie : CompiledTrie) (fuel qc : Nat)
    (w0 : List Nat) (children : List CompiledTrieNode)
    (h : search_child trie children qc = none) :
    search_exact_children trie (fuel + 1) (qc :: w0) children = none := by
  simp only [search_exact_children, List.head?_cons, h]

/-- Joint destructuring of a segment's heuristic shape and its final
compiled form. -/
theorem seg_data (fin : CompiledTrie) (nlow rlow pos sib : Nat)
    (h : HeurNode) (kids : List Index.PatriciaNode) (rs re : Nat)
    (hsg : HSeg h kids) (hfin : SegFinalAt fin nlow rlow pos sib h rs re) :
    (∃ nd c ptr, h = .simple nd c ∧ kids = [nd] ∧ nd.letters = [c] ∧
      fin.nodes.getD pos default =
        CompiledTrieNode.new_naive ⟨ptr, nd.freq, c⟩ sib ∧
      CLink fin nlow rlow nd ptr) ∨
    (∃ nd s ptr start, h = .patricia nd s ∧ kids = [nd] ∧ nd.letters = s ∧
      s ≠ [] ∧
      fin.nodes.getD pos default =
        CompiledTrieNode.new_patricia ⟨ptr, nd.freq, start⟩ sib s.length ∧
      start + s.length ≤ fin.chars.length ∧
      (fin.chars.drop start).take s.length = s ∧
      CLink fin nlow rlow nd ptr) ∨
    (∃ cs cmax, h = .range kids cs ∧
      cs.length = kids.length ∧ 2 ≤ cs.length ∧
      (∀ k, k < cs.length → (kids.getD k default).letters = [cs.getD k 0]) ∧
      cs.Pairwise (· < ·) ∧ cmax ∈ cs ∧ (∀ c ∈ cs, c ≤ cmax) ∧
      re = rs + (cmax - cs.headD 0 + 1) ∧
      fin.nodes.getD pos default =
        CompiledTrieNode.new_range ⟨cs.headD 0, rs, re⟩ sib ∧
      re ≤ fin.ranges.length ∧
      (∀ k, k < cs.length → ∃ ptr,
        fin.ranges.getD (rs + (cs.getD k 0 - cs.headD 0)) default =
          ⟨ptr, (kids.getD k default).freq⟩ ∧
        CLink fin nlow rlow (kids.getD k default) ptr) ∧
      (∀ j, rs + j < re → (∀ c ∈ cs, c ≠ cs.headD 0 + j) →
        fin.ranges.getD (rs + j) default = ⟨none, none⟩)) := by
  cases hsg with
  | simple nd c hc =>
      obtain ⟨ptr, h1, h2⟩ := hfin
      exact Or.inl ⟨nd, c, ptr, rfl, rfl, hc, h1, h2⟩
  | patricia nd s hls h1 h2 =>
      obtain ⟨ptr, start, g1, g2, g3, g4⟩ := hfin
      exact Or.inr (Or.inl ⟨nd, s, ptr, start, rfl, rfl, hls, h2, g1, g2, g3,
        g4⟩)
  | range nds cs hlen h2 hlab hsort =>
      obtain ⟨cmax, g1, g2, g3, g4, g5, g6, g7⟩ := hfin
      exact Or.inr (Or.inr ⟨cs, cmax, rfl, hlen, h2, hlab, hsort, g1, g2, g3,
        g4, g5, g6, g7⟩)

def segLo (segs : List ((HeurNode × List Index.PatriciaNode) × (Nat × Nat)))
    (i : Nat) : Nat := heurLo (segs.getD i default).1.1

def segHi (segs : List ((HeurNode × List Index.PatriciaNode) × (Nat × Nat)))
    (i : Nat) : Nat := heurHi (segs.getD i default).1.1

theorem group_search
    (fin : CompiledTrie) (g0 nbH r1 : Nat)
    (segs : List ((HeurNode × List Index.PatriciaNode) × (Nat × Nat)))
    (L : List Nat) (children : List Index.PatriciaNode) (F : Option Nat)
    (hflat : (segs.map (fun q => q.1.2)).flatten = children)
    (hlen : segs.length = nbH)
    (hposn : 1 ≤ nbH) (hnb : nbH ≤ 2 ^ 18)
    (hsorted : SortedTrie (.mk L children F))
    (hkids : ∀ q ∈ segs, ∀ nd ∈ q.1.2, SortedTrie nd ∧ capOK nd = true)
    (hseg : ∀ q ∈ segs, HSeg q.1.1 q.1.2)
    (hbound : g0 + nbH ≤ fin.nodes.length)
    (hfinal : ∀ i, i < nbH →
      SegFinalAt fin (g0 + nbH) r1 (g0 + i) (nbH - 1 - i)
        (segs.getD i default).1.1
        (segs.getD i default).2.1 (segs.getD i default).2.2) :
    ∀ w, w ≠ [] → ∀ f, w.length ≤ f →
      search_exact_children fin f w (fin.get_siblings g0) =
        patLookup w.length (.mk L children F) w := by
  -- basic structural facts
  have hpair : children.Pairwise (fun a b => keyOf a < keyOf b) :=
    (SortedTrie.inv hsorted).1
  have hsub : ∀ x ∈ children, SortedTrie x := fun x hx =>
    ((SortedTrie.inv hsorted).2.2) x hx
  have hsegmem : ∀ i, i < nbH → segs.getD i default ∈ segs := fun i hi =>
    getD_mem _ _ (by omega)
  have hkidsmem : ∀ i, i < nbH → ∀ x ∈ (segs.getD i default).1.2,
      x ∈ children := by
    intro i hi x hx
    rw [← hflat]
    refine List.mem_flatten.mpr ⟨(segs.getD i default).1.2, ?_, hx⟩
    exact List.mem_map.mpr ⟨segs.getD i default, hsegmem i hi, rfl⟩
  have hdata := fun (i : Nat) (hi : i < nbH) =>
    seg_data fin (g0 + nbH) r1 (g0 + i) (nbH - 1 - i)
      (segs.getD i default).1.1 (segs.getD i default).1.2
      (segs.getD i default).2.1 (segs.getD i default).2.2
      (hseg _ (hsegmem i hi)) (hfinal i hi)
  -- membership decomposition of a child into its segment
  have hsplit : ∀ x ∈ children, ∃ i, i < nbH ∧
      x ∈ (segs.getD i default).1.2 := by
    intro x hx
    rw [← hflat] at hx
    obtain ⟨i, hi, hxi⟩ := mem_flatten_idx _ x hx
    rw [List.length_map] at hi
    rw [getD_map_lt (fun q => q.1.2) segs i [] hi] at hxi
    exact ⟨i, by omega, hxi⟩
  -- cross-segment key ordering
  have hpairF : ((segs.map (fun q => q.1.2)).flatten).Pairwise
      (fun a b => keyOf a < keyOf b) := by
    rw [hflat]
    exact hpair
  have hcross : ∀ i j, i < j → j < nbH →
      ∀ x ∈ (segs.getD i default).1.2, ∀ y ∈ (segs.getD j default).1.2,
      keyOf x < keyOf y := by
    intro i j hij hj x hx y hy
    have hjl : j < (segs.map (fun q => q.1.2)).length := by
      rw [List.length_map]
      omega
    refine flatten_cross _ (segs.map (fun q => q.1.2)) hpairF i j hij hjl
      x ?_ y ?_
    · rw [getD_map_lt (fun q => q.1.2) segs i [] (by omega)]
      exact hx
    · rw [getD_map_lt (fun q => q.1.2) segs j [] (by omega)]
      exact hy
  -- keys lie in their segment's interval
  have hbet : ∀ i, i < nbH → ∀ x ∈ (segs.getD i default).1.2,
      segLo segs i ≤ keyOf x ∧ keyOf x ≤ segHi segs i := by
    intro i hi x hx
    exact HSeg_key_between (hseg _ (hsegmem i hi)) x hx
  -- interval ordering
  have hmono : ∀ i j, i < j → j < nbH → segHi segs i < segLo segs j := by
    intro i j hij hj
    obtain ⟨x, hx, hxk⟩ := HSeg_hi_mem (hseg _ (hsegmem i (by omega)))
    obtain ⟨y, hy, hyk⟩ := HSeg_lo_mem (hseg _ (hsegmem j hj))
    have := hcross i j hij hj x hx y hy
    rw [hxk, hyk] at this
    exact this
  have hlohi : ∀ i, i < nbH → segLo segs i ≤ segHi segs i := by
    intro i hi
    obtain ⟨x, hx, hxk⟩ := HSeg_lo_mem (hseg _ (hsegmem i hi))
    have := (hbet i hi x hx).2
    rw [hxk] at this
    exact this
  intro w hw f hf
  obtain ⟨qc, w0, rfl⟩ : ∃ qc w0, w = qc :: w0 := by
    cases w with
    | nil => exact absurd rfl hw
    | cons a b => exact ⟨a, b, rfl⟩
  obtain ⟨f', rfl⟩ : ∃ f', f = f' + 1 := by
    cases f with
    | zero => simp at hf
    | succ f' => exact ⟨f', rfl⟩
  have hf' : w0.length ≤ f' := by
    simp only [List.length_cons] at hf
    omega
  -- the compare fact, per group entry
  have hcomp : ∀ i, i < nbH →
      compare_keys (fin.nodes.getD (g0 + i) default)
        ((fin.nodes.getD (g0 + i) default).node_value) qc fin =
      (if segHi segs i < qc then Ordering.lt
       else if qc < segLo segs i then Ordering.gt else Ordering.eq) := by
    intro i hi
    rcases hdata i hi with ⟨nd, c, ptr, hK, hKk, hlet, hnode, hcl⟩ |
      ⟨nd, s, ptr, start, hK, hKk, hlet, hsne, hnode, hblen, hslice, hcl⟩ |
      ⟨cs, cmax, hK, hclen, hc2, hlab, hcsort, hcmem, hcle, hre, hnode,
        hrlen, helems, hgaps⟩
    · rw [hnode]
      show compare c qc = _
      simp only [segLo, segHi, hK, heurLo, heurHi]
      exact nat_compare_iform c qc
    · have hcap := (hkids _ (hsegmem i hi) nd (by
        rw [hKk]
        exact List.mem_singleton_self _)).2
      have hs12 : s.length < 2 ^ 12 := by
        have := capOK_letters nd hcap
        rw [hlet] at this
        exact this
      have hs1 : 1 ≤ s.length := by
        cases s with
        | nil => exact absurd rfl hsne
        | cons a b => simp
      have hpr := patricia_range_new_patricia ⟨ptr, nd.freq, start⟩
        (nbH - 1 - i) s.length (by omega) hs12
      rw [hnode]
      show compare (fin.get_char_unchecked
        ((CompiledTrieNode.new_patricia ⟨ptr, nd.freq, start⟩
          (nbH - 1 - i) s.length).patricia_range).1) qc = _
      rw [hpr]
      have hchar : fin.get_char_unchecked start = s.headD 0 := by
        show (fin.chars.drop start).headD 0 = s.headD 0
        conv_rhs => rw [← hslice]
        rw [headD_take _ _ hs1]
      rw [hchar]
      simp only [segLo, segHi, hK, heurLo, heurHi]
      exact nat_compare_iform _ qc
    · have hcsne : cs ≠ [] := by
        intro hcon
        rw [hcon] at hc2
        simp at hc2
      have hmnmem : cs.headD 0 ∈ cs := by
        cases cs with
        | nil => exact absurd rfl hcsne
        | cons a b => exact List.mem_cons_self a b
      have hmncm : cs.headD 0 ≤ cmax := hcle _ hmnmem
      have hcm : cmax = cs.getD (cs.length - 1) 0 :=
        sorted_max_eq_last cs hcsort hcsne cmax hcmem hcle
      rw [hnode]
      show (if cs.headD 0 > qc then Ordering.gt
        else if cs.headD 0 + ((segs.getD i default).2.2 -
          (segs.getD i default).2.1) ≤ qc then Ordering.lt
        else Ordering.eq) = _
      simp only [segLo, segHi, hK, heurLo, heurHi]
      rw [← hcm]
      by_cases h1 : qc < cs.headD 0
      · rw [if_pos (by omega : cs.headD 0 > qc),
          if_neg (by omega : ¬ cmax < qc), if_pos h1]
      · by_cases h2 : cmax < qc
        · rw [if_neg (by omega : ¬ cs.headD 0 > qc),
            if_pos (by omega : cs.headD 0 + ((segs.getD i default).2.2 -
              (segs.getD i default).2.1) ≤ qc), if_pos h2]
        · rw [if_neg (by omega : ¬ cs.headD 0 > qc),
            if_neg (by omega : ¬ cs.headD 0 + ((segs.getD i default).2.2 -
              (segs.getD i default).2.1) ≤ qc), if_neg h2,
            if_neg (by omega : ¬ qc < cs.headD 0)]
  -- the sibling slice of the group
  have hsib0 : (fin.nodes.getD g0 default).nb_siblings = nbH - 1 := by
    have h0 : (0 : Nat) < nbH := hposn
    rcases hdata 0 h0 with ⟨nd, c, ptr, hK, hKk, hlet, hnode, hcl⟩ |
      ⟨nd, s, ptr, start, hK, hKk, hlet, hsne, hnode, hblen, hslice, hcl⟩ |
      ⟨cs, cmax, hK, hclen, hc2, hlab, hcsort, hcmem, hcle, hre, hnode,
        hrlen, helems, hgaps⟩
    · rw [Nat.add_zero] at hnode
      rw [hnode]
      have := nb_siblings_new_naive ⟨ptr, nd.freq, c⟩ (nbH - 1 - 0)
        (by omega)
      rw [this]
      omega
    · have hcap := (hkids _ (hsegmem 0 h0) nd (by
        rw [hKk]
        exact List.mem_singleton_self _)).2
      have hs12 : s.length < 2 ^ 12 := by
        have := capOK_letters nd hcap
        rw [hlet] at this
        exact this
      rw [Nat.add_zero] at hnode
      rw [hnode]
      have := nb_siblings_new_patricia ⟨ptr, nd.freq, start⟩ (nbH - 1 - 0)
        s.length (by omega) hs12
      rw [this]
      omega
    · rw [Nat.add_zero] at hnode
      rw [hnode]
      have := nb_siblings_new_range ⟨cs.headD 0, (segs.getD 0 default).2.1,
        (segs.getD 0 default).2.2⟩ (nbH - 1 - 0) (by omega)
      rw [this]
      omega
  have hsibs_eq : fin.get_siblings g0 = (fin.nodes.drop g0).take nbH := by
    show (fin.nodes.drop g0).take
      ((fin.nodes.getD g0 default).nb_siblings + 1) = _
    rw [hsib0]
    have he : nbH - 1 + 1 = nbH := by omega
    rw [he]
  have hsiblen : (fin.get_siblings g0).length = nbH := by
    rw [hsibs_eq]
    exact length_slice _ _ _ hbound
  have hsibget : ∀ m, m < nbH → (fin.get_siblings g0).getD m default =
      fin.nodes.getD (g0 + m) default := by
    intro m hm
    rw [hsibs_eq]
    exact getD_slice _ _ _ _ hm hbound
  have Hchar : ∀ m, m < (fin.get_siblings g0).length →
      compare_keys ((fin.get_siblings g0).getD m default)
        (((fin.get_siblings g0).getD m default).node_value) qc fin =
      (if segHi segs m < qc then Ordering.lt
       else if qc < segLo segs m then Ordering.gt else Ordering.eq) := by
    intro m hm
    rw [hsiblen] at hm
    rw [hsibget m hm]
    exact hcomp m hm
  have Hmono2 : ∀ m m', m < m' → m' < (fin.get_siblings g0).length →
      segHi segs m < segLo segs m' := by
    intro m m' h1 h2
    rw [hsiblen] at h2
    exact hmono m m' h1 h2
  have Hlohi2 : ∀ m, m < (fin.get_siblings g0).length →
      segLo segs m ≤ segHi segs m := by
    intro m hm
    rw [hsiblen] at hm
    exact hlohi m hm
  have hpatunfold : patLookup (qc :: w0).length
      (Index.PatriciaNode.mk L children F) (qc :: w0) =
      (match children.find? (fun ch => ch.letters.headD 0 == qc) with
       | none => none
       | some ch => lookChild w0.length ch (qc :: w0)) :=
    patLookup_cons_look w0.length (.mk L children F) qc w0
  by_cases hex : ∃ m, m < nbH ∧ segLo segs m ≤ qc ∧ qc ≤ segHi segs m
  · obtain ⟨m, hm, hlom, hhim⟩ := hex
    have hfound := search_child_found fin (fin.get_siblings g0) qc
      (segLo segs) (segHi segs) Hchar Hmono2 Hlohi2 m
      (by rw [hsiblen]; exact hm) hlom hhim
    rw [hsibget m hm] at hfound
    rcases hdata m hm with ⟨nd, c, ptr, hK, hKk, hlet, hnode, hcl⟩ |
      ⟨nd, s, ptr, start, hK, hKk, hlet, hsne, hnode, hblen, hslice, hcl⟩ |
      ⟨cs, cmax, hK, hclen, hc2, hlab, hcsort, hcmem, hcle, hre, hnode,
        hrlen, helems, hgaps⟩
    · -- simple segment
      have hqc : qc = c := by
        simp only [segLo, segHi, hK, heurLo, heurHi] at hlom hhim
        omega
      subst hqc
      rw [hnode] at hfound
      have hfound2 : search_child fin (fin.get_siblings g0) qc =
          some (CompiledTrieNode.new_naive ⟨ptr, nd.freq, qc⟩ (nbH - 1 - m),
            .naive ⟨ptr, nd.freq, qc⟩) := hfound
      rw [search_step_naive fin f' qc w0 _ _ _ hfound2, hpatunfold]
      have hndmem : nd ∈ children := hkidsmem m hm nd (by
        rw [hKk]
        exact List.mem_singleton_self _)
      have hndkey : keyOf nd = qc := by
        show nd.letters.headD 0 = qc
        rw [hlet]
        rfl
      rw [find?_key_of_mem children hpair nd qc hndmem hndkey]
      show _ = (if nd.letters.isPrefixOf (qc :: w0) then
          (if (qc :: w0).length == nd.letters.length then nd.freq
           else patLookup w0.length nd ((qc :: w0).drop nd.letters.length))
        else none)
      rw [hlet]
      have hpre : ([qc].isPrefixOf (qc :: w0)) = true := by
        simp [List.isPrefixOf]
      rw [hpre, if_pos rfl]
      cases w0 with
      | nil =>
          rw [if_pos (by rfl : ([] : List Nat).isEmpty = true)]
          rw [if_pos (by rfl : (([qc] : List Nat).length ==
            ([qc] : List Nat).length) = true)]
      | cons y ys =>
          rw [if_neg (by rw [List.isEmpty_cons] ; exact Bool.false_ne_true :
            ¬ ((y :: ys).isEmpty = true))]
          rw [if_neg (by
            simp only [beq_iff_eq, List.length_cons, List.length_nil]
            omega : ¬ (((qc :: y :: ys).length == ([qc] : List Nat).length) =
              true))]
          cases ptr with
          | none =>
              rw [patLookup_children_nil _ _ _ hcl]
          | some b =>
              exact hcl fin (Extends_refl fin _ _) (y :: ys) (by simp) f'
                (by simp only [List.length_cons] at hf' ⊢; omega)
    · -- patricia segment
      have hqc : qc = s.headD 0 := by
        simp only [segLo, segHi, hK, heurLo, heurHi] at hlom hhim
        omega
      have hcap := (hkids _ (hsegmem m hm) nd (by
        rw [hKk]
        exact List.mem_singleton_self _)).2
      have hsort_nd : SortedTrie nd := (hkids _ (hsegmem m hm) nd (by
        rw [hKk]
        exact List.mem_singleton_self _)).1
      have hs12 : s.length < 2 ^ 12 := by
        have := capOK_letters nd hcap
        rw [hlet] at this
        exact this
      have hs1 : 1 ≤ s.length := by
        cases s with
        | nil => exact absurd rfl hsne
        | cons a b => simp
      rw [hnode] at hfound
      have hfound2 : search_child fin (fin.get_siblings g0) qc =
          some (CompiledTrieNode.new_patricia ⟨ptr, nd.freq, start⟩
            (nbH - 1 - m) s.length, .patricia ⟨ptr, nd.freq, start⟩) := hfound
      rw [search_step_patricia fin f' qc w0 _ _ _ hfound2, hpatunfold]
      have hpr := patricia_range_new_patricia ⟨ptr, nd.freq, start⟩
        (nbH - 1 - m) s.length (by omega) hs12
      rw [hpr]
      have hgc : fin.get_chars (start, start + s.length).1
          (start, start + s.length).2 = s := by
        show fin.get_chars start (start + s.length) = s
        unfold CompiledTrie.get_chars
        rw [if_neg (by omega : ¬ start ≥ start + s.length)]
        have harg : start + s.length - start = s.length := by omega
        rw [harg, hslice]
      rw [hgc]
      have hndmem : nd ∈ children := hkidsmem m hm nd (by
        rw [hKk]
        exact List.mem_singleton_self _)
      have hndkey : keyOf nd = qc := by
        show nd.letters.headD 0 = qc
        rw [hlet, hqc]
      rw [find?_key_of_mem children hpair nd qc hndmem hndkey]
      show _ = (if nd.letters.isPrefixOf (qc :: w0) then
          (if (qc :: w0).length == nd.letters.length then nd.freq
           else patLookup w0.length nd ((qc :: w0).drop nd.letters.length))
        else none)
      rw [hlet]
      cases hpre : s.isPrefixOf (qc :: w0) with
      | false =>
          rw [if_neg Bool.false_ne_true, if_neg Bool.false_ne_true]
      | true =>
          rw [if_pos rfl, if_pos rfl]
          have hslen : s.length ≤ w0.length + 1 := by
            have := ((prefix_getD s (qc :: w0)).mp hpre).1
            simp only [List.length_cons] at this
            omega
          by_cases hlen2 : (qc :: w0).length = s.length
          · have hdempty : ((qc :: w0).drop s.length) = [] := by
              rw [List.drop_eq_nil_iff_le]
              omega
            rw [hdempty]
            rw [if_pos (by rfl : (([] : List Nat).isEmpty = true))]
            rw [if_pos (by
              rw [beq_iff_eq]
              exact hlen2 : (((qc :: w0).length == s.length) = true))]
          · have hdne : ((qc :: w0).drop s.length) ≠ [] := by
              rw [ne_eq, List.drop_eq_nil_iff_le]
              simp only [List.length_cons] at hlen2 ⊢
              omega
            rw [if_neg (by
              rw [List.isEmpty_iff]
              exact hdne : ¬ (((qc :: w0).drop s.length).isEmpty = true))]
            rw [if_neg (by
              rw [beq_iff_eq]
              exact hlen2 : ¬ (((qc :: w0).length == s.length) = true))]
            have hw'len : ((qc :: w0).drop s.length).length =
                w0.length + 1 - s.length := by
              rw [List.length_drop]
              simp only [List.length_cons]
            cases ptr with
            | none =>
                rw [patLookup_children_nil _ _ _ hcl]
            | some b =>
                have hcl2 := hcl fin (Extends_refl fin _ _)
                  ((qc :: w0).drop s.length) hdne f'
                  (by rw [hw'len]; omega)
                show search_exact_children fin f' ((qc :: w0).drop s.length)
                  (fin.get_siblings b) = _
                rw [hcl2]
                exact patLookup_fuel nd _ _ _ hsort_nd (Nat.le_refl _)
                  (by rw [hw'len]; omega)
    · -- range segment
      generalize hKD : (segs.getD m default).1.2 = kds at hclen hlab helems
      generalize hRS : (segs.getD m default).2.1 = rs at hnode hre helems hgaps
      generalize hRE : (segs.getD m default).2.2 = re at hnode hre hrlen hgaps
      have hcsne : cs ≠ [] := by
        intro hcon
        rw [hcon] at hc2
        simp at hc2
      have hmnmem : cs.headD 0 ∈ cs := by
        cases cs with
        | nil => exact absurd rfl hcsne
        | cons a b => exact List.mem_cons_self a b
      have hcm : cmax = cs.getD (cs.length - 1) 0 :=
        sorted_max_eq_last cs hcsort hcsne cmax hcmem hcle
      have hqlo : cs.headD 0 ≤ qc := by
        simp only [segLo, hK, heurLo] at hlom
        exact hlom
      have hqhi : qc ≤ cmax := by
        simp only [segHi, hK, heurHi] at hhim
        omega
      have hmncm : cs.headD 0 ≤ cmax := hcle _ hmnmem
      rw [hnode] at hfound
      have hfound2 : search_child fin (fin.get_siblings g0) qc =
          some (CompiledTrieNode.new_range ⟨cs.headD 0, rs, re⟩
            (nbH - 1 - m), .range ⟨cs.headD 0, rs, re⟩) := hfound
      rw [search_step_range fin f' qc w0 _ _ _ hfound2, hpatunfold]
      by_cases hqccs : qc ∈ cs
      · obtain ⟨k, hk, hcsk⟩ := (mem_iff_getD cs qc).mp hqccs
        obtain ⟨ptr, helemk, hclk⟩ := helems k hk
        have hrel2 : fin.get_range_element_unchecked
            (⟨cs.headD 0, rs, re⟩ : RangeNode).start_index
            (qc - (⟨cs.headD 0, rs, re⟩ : RangeNode).first_char) =
            ⟨ptr, (kds.getD k default).freq⟩ := by
          show fin.ranges.getD (rs + (qc - cs.headD 0)) default = _
          rw [← hcsk]
          exact helemk
        rw [hrel2]
        have hkk : k < kds.length := by omega
        have hmemk : kds.getD k default ∈ children := hkidsmem m hm _ (by
          rw [hKD]
          exact getD_mem kds k hkk)
        have hkeyk : keyOf (kds.getD k default) = qc := by
          show (kds.getD k default).letters.headD 0 = qc
          rw [hlab k hk]
          exact hcsk
        rw [find?_key_of_mem children hpair _ qc hmemk hkeyk]
        have hletk : (kds.getD k default).letters = [qc] := by
          rw [hlab k hk, hcsk]
        show _ = (if (kds.getD k default).letters.isPrefixOf (qc :: w0) then
            (if (qc :: w0).length == (kds.getD k default).letters.length then
              (kds.getD k default).freq
             else patLookup w0.length (kds.getD k default)
               ((qc :: w0).drop (kds.getD k default).letters.length))
          else none)
        rw [hletk]
        have hpre : ([qc].isPrefixOf (qc :: w0)) = true := by
          simp [List.isPrefixOf]
        rw [hpre, if_pos rfl]
        cases w0 with
        | nil =>
            rw [if_pos (by rfl : (([] : List Nat).isEmpty = true))]
            rw [if_pos (by rfl : (([qc] : List Nat).length ==
              ([qc] : List Nat).length) = true)]
        | cons y ys =>
            rw [if_neg (by rw [List.isEmpty_cons] ; exact Bool.false_ne_true :
              ¬ ((y :: ys).isEmpty = true))]
            rw [if_neg (by
              simp only [beq_iff_eq, List.length_cons, List.length_nil]
              omega : ¬ (((qc :: y :: ys).length ==
                ([qc] : List Nat).length) = true))]
            cases ptr with
            | none =>
                rw [patLookup_children_nil _ _ _ hclk]
            | some b =>
                exact hclk fin (Extends_refl fin _ _) (y :: ys) (by simp) f'
                  (by simp only [List.length_cons] at hf' ⊢; omega)
      · have hj : rs + (qc - cs.headD 0) < re := by omega
        have hgapel := hgaps (qc - cs.headD 0) hj (by
          intro c hc hcon
          have hq2 : cs.headD 0 + (qc - cs.headD 0) = qc := by omega
          rw [hq2] at hcon
          rw [hcon] at hc
          exact hqccs hc)
        have hrel2 : fin.get_range_element_unchecked
            (⟨cs.headD 0, rs, re⟩ : RangeNode).start_index
            (qc - (⟨cs.headD 0, rs, re⟩ : RangeNode).first_char) =
            ⟨none, none⟩ := by
          show fin.ranges.getD (rs + (qc - cs.headD 0)) default = _
          exact hgapel
        rw [hrel2]
        rw [find?_key_none_mem children qc (by
          intro x hx hcon
          obtain ⟨i, hi, hxi⟩ := hsplit x hx
          rcases Nat.lt_trichotomy i m with hlt | heq | hgt
          · have hb1 := (hbet i hi x hxi).2
            have hb2 := hmono i m hlt hm
            omega
          · subst heq
            rw [hKD] at hxi
            obtain ⟨k2, hk2, rfl⟩ := List.mem_iff_getElem.mp hxi
            have he2 : kds.getD k2 default = kds[k2] :=
              List.getD_eq_getElem kds default hk2
            rw [← he2] at hcon
            have hl2 := hlab k2 (by omega)
            apply hqccs
            have : cs.getD k2 0 = qc := by
              rw [← hcon]
              show _ = (kds.getD k2 default).letters.headD 0
              rw [hl2]
              rfl
            exact (mem_iff_getD cs qc).mpr ⟨k2, by omega, this⟩
          · have hb1 := (hbet i hi x hxi).1
            have hb2 := hmono m i hgt hi
            omega)]
        cases hw0 : w0.isEmpty with
        | true => rw [if_pos rfl]
        | false => rw [if_neg Bool.false_ne_true]
  · push_neg at hex
    have hnone := search_child_none fin (fin.get_siblings g0) qc
      (segLo segs) (segHi segs) Hchar Hlohi2
      (by rw [hsiblen]; omega)
      (fun m hm => by
        rw [hsiblen] at hm
        have := hex m hm
        omega)
    rw [search_step_none fin f' qc w0 _ hnone, hpatunfold]
    rw [find?_key_none_mem children qc (by
      intro x hx hcon
      obtain ⟨i, hi, hxi⟩ := hsplit x hx
      have hb := hbet i hi x hxi
      have := hex i hi
      omega)]

/-! ## Unfolding equations of the fill loop -/

/-- The empty child loop returns the state. -/
theorem fill_main_inr_nil (fuel : Nat) (st : CompiledTrie) (p : Nat)
    (r : Option Nat) : fill_main (fuel + 1) (.inr ([], st, p, r)) = st := rfl

/-- One child-loop step, with the intermediate values abstracted. -/
theorem fill_main_inr_cons (fuel : Nat) (child : Index.PatriciaNode)
    (rest : List Index.PatriciaNode) (st st' : CompiledTrie) (pend_i : Nat)
    (range_i : Option Nat) (ifc : Option Nat)
    (fin4 : List CompiledTrieNode × List RangeElement × Nat × Option Nat)
    (hst' : fill_main fuel (.inl (child, st)) = st')
    (hifc : ifc = (if st'.nodes.length == st.nodes.length then none
      else if st.nodes.length == 0 then none else some st.nodes.length))
    (hfin : finish_current_node st'.nodes st'.ranges ifc pend_i range_i =
      fin4) :
    fill_main (fuel + 1) (.inr (child :: rest, st, pend_i, range_i)) =
      fill_main fuel (.inr (rest, ⟨fin4.1, st'.chars, fin4.2.1⟩,
        fin4.2.2.1, fin4.2.2.2)) := by
  subst hst'
  subst hifc
  subst hfin
  rfl

/-- The node step pushes the heuristic group and enters the child loop. -/
theorem fill_main_inl_eq (fuel : Nat) (node : Index.PatriciaNode)
    (st : CompiledTrie) :
    fill_main (fuel + 1) (.inl (node, st)) =
      fill_main fuel (.inr (node.children,
        push_pending (node_type_heuristic node.children
          (node.children.map Index.PatriciaNode.letters)) st,
        st.nodes.length, none)) := rfl

/-- `drop` at an in-bounds index, as a cons on the `getD` element. -/
theorem drop_eq_getD_cons {α : Type} [Inhabited α] (l : List α) (k : Nat)
    (h : k < l.length) :
    l.drop k = l.getD k default :: l.drop (k + 1) := by
  rw [List.getD_eq_getElem _ _ h]
  exact List.drop_eq_getElem_cons h

/-- In a strictly sorted list, the maximum is attained only at the last
index. -/
theorem sorted_max_index (cs : List Nat) (hsort : cs.Pairwise (· < ·))
    (hne : cs ≠ []) (cmax : Nat) (hmem : cmax ∈ cs)
    (hle : ∀ c ∈ cs, c ≤ cmax) (k : Nat) (hk : k < cs.length) :
    cs.getD k 0 = cmax ↔ k = cs.length - 1 := by
  have hcm := sorted_max_eq_last cs hsort hne cmax hmem hle
  constructor
  · intro h
    by_contra hne2
    have := sorted_getD_lt cs hsort k (cs.length - 1) (by omega) (by omega)
    omega
  · intro h
    subst h
    omega

/-- The inner loop over one range segment's children: each child is
compiled recursively and its pointer patched into the next present range
element; the cursor walks the block left to right and the pending node
advances at the last element. -/
theorem fill_range_loop
    (N : Nat)
    (IH : ∀ c st2 f2, ptSize c ≤ N → SortedTrie c → capOK c = true →
      2 * ptSize c ≤ f2 → FillOK c st2 f2) :
    ∀ (kk k : Nat) (nds : List Index.PatriciaNode) (cs : List Nat)
      (cont : List Index.PatriciaNode) (fuel : Nat) (stc : CompiledTrie)
      (g0 nbH r1 d rs re sib cmax : Nat),
      kk = cs.length - k → k < cs.length →
      cs.length = nds.length → 2 ≤ cs.length →
      (∀ k2, k2 < cs.length →
        (nds.getD k2 default).letters = [cs.getD k2 0]) →
      cs.Pairwise (· < ·) →
      cmax ∈ cs → (∀ c ∈ cs, c ≤ cmax) →
      re = rs + (cmax - cs.headD 0 + 1) →
      re ≤ r1 →
      (∀ nd ∈ nds, ptSize nd ≤ N ∧ SortedTrie nd ∧ capOK nd = true) →
      g0 + nbH ≤ stc.nodes.length → r1 ≤ stc.ranges.length →
      d < nbH →
      sib = nbH - 1 - d →
      stc.nodes.getD (g0 + d) default =
        CompiledTrieNode.new_range ⟨cs.headD 0, rs, re⟩ sib →
      (∀ k2, k2 < k → ∃ ptr,
        stc.ranges.getD (rs + (cs.getD k2 0 - cs.headD 0)) default =
          ⟨ptr, (nds.getD k2 default).freq⟩ ∧
        CLink stc (g0 + nbH) r1 (nds.getD k2 default) ptr) →
      (∀ k2, k ≤ k2 → k2 < cs.length →
        stc.ranges.getD (rs + (cs.getD k2 0 - cs.headD 0)) default =
          ⟨dummy_index, (nds.getD k2 default).freq⟩) →
      (∀ j, rs + j < re → (∀ c ∈ cs, c ≠ cs.headD 0 + j) →
        stc.ranges.getD (rs + j) default = ⟨none, none⟩) →
      needL (nds.drop k ++ cont) ≤ fuel →
      ∃ stg,
        fill_main fuel (.inr (nds.drop k ++ cont, stc, g0 + d,
          (if k = 0 then none
           else some (rs + (cs.getD (k - 1) 0 - cs.headD 0) + 1)))) =
          fill_main (fuel - (cs.length - k))
            (.inr (cont, stg, g0 + d + 1, none)) ∧
        Extends stc stg (g0 + nbH) r1 ∧
        (∀ j, j < stc.nodes.length → stg.nodes.getD j default =
          stc.nodes.getD j default) ∧
        (∀ j, j < stc.ranges.length → ¬ (rs ≤ j ∧ j < re) →
          stg.ranges.getD j default = stc.ranges.getD j default) ∧
        stg.chars.take stc.chars.length = stc.chars ∧
        SegFinalAt stg (g0 + nbH) r1 (g0 + d) sib (.range nds cs) rs re := by
  intro kk
  induction kk with
  | zero =>
      intro k nds cs cont fuel stc g0 nbH r1 d rs re sib cmax hkk hk
      omega
  | succ kk ih =>
      intro k nds cs cont fuel stc g0 nbH r1 d rs re sib cmax hkk hk hclen
        hc2 hlab hcsort hcmem hcle hre hrer1 hnds hglen hrlen hd hsib hnode
        hdone hpend hgaps hfuel
      -- notation
      have hmn0 : cs.headD 0 = cs.getD 0 0 := headD_eq_getD cs
      have hmnk : ∀ k2, k2 < cs.length → cs.headD 0 ≤ cs.getD k2 0 := by
        intro k2 hk2
        rw [hmn0]
        rcases eq_or_ne k2 0 with rfl | hne
        · exact Nat.le_refl _
        · exact Nat.le_of_lt (sorted_getD_lt cs hcsort 0 k2 (by omega) hk2)
      have hkle : ∀ k2, k2 < cs.length → cs.getD k2 0 ≤ cmax := by
        intro k2 hk2
        refine hcle _ ?_
        exact (mem_iff_getD cs _).mpr ⟨k2, hk2, rfl⟩
      have hcsne : cs ≠ [] := by
        intro hcon
        rw [hcon] at hc2
        simp at hc2
      -- decompose the list
      have hkn : k < nds.length := by omega
      have hdropk : nds.drop k ++ cont =
          nds.getD k default :: (nds.drop (k + 1) ++ cont) := by
        rw [drop_eq_getD_cons nds k hkn, List.cons_append]
      -- the child facts
      have hchild := hnds (nds.getD k default) (getD_mem nds k hkn)
      -- fuel
      obtain ⟨f1, rfl⟩ : ∃ f1, fuel = f1 + 1 := by
        have h1 := needL_pos (nds.drop k ++ cont)
        cases fuel with
        | zero => omega
        | succ f => exact ⟨f, rfl⟩
      have hfuel2 : 2 * ptSize (nds.getD k default) ≤ f1 ∧
          needL (nds.drop (k + 1) ++ cont) ≤ f1 := by
        rw [hdropk] at hfuel
        simp only [needL] at hfuel
        omega
      -- the recursive child call
      have hFill := IH (nds.getD k default) stc f1 hchild.1 hchild.2.1
        hchild.2.2 hfuel2.1
      obtain ⟨hO1, hO2, hO3, hO4, hO5, hO6, hO7⟩ := hFill
      set st' := fill_main f1 (.inl (nds.getD k default, stc)) with hst'def
      have hifc : (if st'.nodes.length = stc.nodes.length then none
          else some stc.nodes.length) =
          (if st'.nodes.length == stc.nodes.length then none
           else if stc.nodes.length == 0 then none
           else some stc.nodes.length) := by
        by_cases hg : st'.nodes.length = stc.nodes.length
        · have hb : (st'.nodes.length == stc.nodes.length) = true := by
            rw [beq_iff_eq]
            exact hg
          rw [hb, if_pos rfl, if_pos hg]
        · have hb : (st'.nodes.length == stc.nodes.length) = false := by
            rw [beq_eq_false_iff_ne]
            exact hg
          have hb0 : (stc.nodes.length == 0) = false := by
            rw [beq_eq_false_iff_ne]
            omega
          rw [hb, hb0, if_neg Bool.false_ne_true, if_neg Bool.false_ne_true,
            if_neg hg]
      set ifcv := (if st'.nodes.length = stc.nodes.length then none
        else some stc.nodes.length) with hifcvdef
      set tgt := rs + (cs.getD k 0 - cs.headD 0) with htgtdef
      set cursor := (if k = 0 then (none : Option Nat)
        else some (rs + (cs.getD (k - 1) 0 - cs.headD 0) + 1)) with hcurdef
      have htgtre : tgt < re := by
        have h1 := hkle k hk
        have h2 := hmnk k hk
        omega
      have hnodest' : st'.nodes.getD (g0 + d) default =
          CompiledTrieNode.new_range ⟨cs.headD 0, rs, re⟩ sib := by
        rw [hO3 (g0 + d) (by omega)]
        exact hnode
      have helemdummy : st'.ranges.getD tgt default =
          ⟨dummy_index, (nds.getD k default).freq⟩ := by
        rw [hO5 tgt (by omega)]
        exact hpend k (Nat.le_refl _) hk
      have hfind : find_next_dummy_range_node st'.ranges (cursor.getD rs) =
          tgt := by
        rcases eq_or_ne k 0 with rfl | hk0
        · rw [hcurdef]
          rw [if_pos rfl]
          show find_next_dummy_range_node st'.ranges rs = tgt
          refine find_next_dummy_spec st'.ranges rs tgt (by omega)
            (by omega) ?_ ?_
          · intro j hj1 hj2
            exfalso
            omega
          · rw [helemdummy]
            rfl
        · rw [hcurdef]
          rw [if_neg hk0]
          show find_next_dummy_range_node st'.ranges
            (rs + (cs.getD (k - 1) 0 - cs.headD 0) + 1) = tgt
          have hprev : cs.getD (k - 1) 0 < cs.getD k 0 :=
            sorted_getD_lt cs hcsort (k - 1) k (by omega) hk
          have hprevmn := hmnk (k - 1) (by omega)
          refine find_next_dummy_spec st'.ranges _ tgt (by omega)
            (by omega) ?_ ?_
          · intro j hj1 hj2
            rw [hO5 j (by omega)]
            have hgapj := hgaps (j - rs) (by omega) ?_
            · rw [show rs + (j - rs) = j from by omega] at hgapj
              rw [hgapj]
            · intro c hc hcon
              obtain ⟨k2, hk2, hck2⟩ := (mem_iff_getD cs c).mp hc
              have h1 : cs.getD (k - 1) 0 < c := by omega
              have h2 : c < cs.getD k 0 := by omega
              rcases Nat.lt_trichotomy k2 k with hlt | heq | hgt
              · rcases Nat.lt_trichotomy k2 (k - 1) with h3 | h3 | h3
                · have := sorted_getD_lt cs hcsort k2 (k - 1) h3 (by omega)
                  omega
                · rw [h3] at hck2
                  omega
                · omega
              · rw [heq] at hck2
                omega
              · have := sorted_getD_lt cs hcsort k k2 hgt hk2
                omega
          · rw [helemdummy]
            rfl
      -- the loop step equation
      have hfinish := finish_range_step st'.nodes st'.ranges ifcv (g0 + d)
        cursor (cs.headD 0) rs re sib tgt ((nds.getD k default).freq)
        hnodest' hfind helemdummy
      have hEq0 : fill_main (f1 + 1)
          (.inr (nds.drop k ++ cont, stc, g0 + d, cursor)) =
          fill_main f1 (.inr (nds.drop (k + 1) ++ cont,
            ⟨st'.nodes, st'.chars,
              st'.ranges.set tgt ⟨ifcv, (nds.getD k default).freq⟩⟩,
            (if tgt + 1 ≥ re then g0 + d + 1 else g0 + d),
            (if tgt + 1 ≥ re then none else some (tgt + 1)))) := by
        rw [hdropk]
        exact fill_main_inr_cons f1 (nds.getD k default)
          (nds.drop (k + 1) ++ cont) stc st' (g0 + d) cursor ifcv
          (st'.nodes,
            st'.ranges.set tgt ⟨ifcv, (nds.getD k default).freq⟩,
            (if tgt + 1 ≥ re then g0 + d + 1 else g0 + d),
            (if tgt + 1 ≥ re then none else some (tgt + 1)))
          hst'def.symm hifc hfinish
      -- the patched state
      set stc1 : CompiledTrie := ⟨st'.nodes, st'.chars,
        st'.ranges.set tgt ⟨ifcv, (nds.getD k default).freq⟩⟩ with hstc1def
      have hlen1n : stc1.nodes.length = st'.nodes.length := rfl
      have hlen1r : stc1.ranges.length = st'.ranges.length :=
        List.length_set ..
      have hExtg : Extends stc stc1 (g0 + nbH) r1 := by
        refine ⟨by rw [hlen1n]; omega, hO2, ?_, by rw [hlen1r]; omega, ?_⟩
        · intro j hj1 hj2
          exact hO3 j hj2
        · intro j hj1 hj2
          show (st'.ranges.set tgt _).getD j default = _
          rw [getD_set_ne _ _ _ _ _ (by omega)]
          exact hO5 j hj2
      have hndpres1 : ∀ j, j < stc.nodes.length →
          stc1.nodes.getD j default = stc.nodes.getD j default := by
        intro j hj
        exact hO3 j hj
      have hrpres1 : ∀ j, j < stc.ranges.length → ¬ (rs ≤ j ∧ j < re) →
          stc1.ranges.getD j default = stc.ranges.getD j default := by
        intro j hj hout
        show (st'.ranges.set tgt _).getD j default = _
        rw [getD_set_ne _ _ _ _ _ (by omega)]
        exact hO5 j hj
      have hnode1 : stc1.nodes.getD (g0 + d) default =
          CompiledTrieNode.new_range ⟨cs.headD 0, rs, re⟩ sib := hnodest'
      -- CLink of the freshly patched pointer
      have hclk : CLink stc1 (g0 + nbH) r1 (nds.getD k default) ifcv := by
        rw [hifcvdef]
        by_cases hg : st'.nodes.length = stc.nodes.length
        · rw [if_pos hg]
          exact hO6.mp hg
        · rw [if_neg hg]
          intro fin hfin w hw f hfw
          have hne : (nds.getD k default).children ≠ [] := by
            intro hcon
            exact hg (hO6.mpr hcon)
          refine hO7 hne fin ?_ w hw f hfw
          have hmid : Extends st' stc1 stc.nodes.length
              stc.ranges.length := by
            refine ⟨by rw [hlen1n], List.take_length _, fun j _ _ => rfl,
              by rw [hlen1r], ?_⟩
            intro j hj1 hj2
            show (st'.ranges.set tgt _).getD j default = _
            rw [getD_set_ne _ _ _ _ _ (by omega)]
          exact Extends_trans hmid hfin (by omega) (by omega)
      -- element facts at the patched state
      have hdone1 : ∀ k2, k2 < k + 1 → ∃ ptr,
          stc1.ranges.getD (rs + (cs.getD k2 0 - cs.headD 0)) default =
            ⟨ptr, (nds.getD k2 default).freq⟩ ∧
          CLink stc1 (g0 + nbH) r1 (nds.getD k2 default) ptr := by
        intro k2 hk2
        rcases Nat.lt_trichotomy k2 k with hlt | heq | hgt
        · obtain ⟨ptr, hp1, hp2⟩ := hdone k2 hlt
          have hposne : rs + (cs.getD k2 0 - cs.headD 0) ≠ tgt := by
            have := sorted_getD_lt cs hcsort k2 k hlt hk
            have := hmnk k2 (by omega)
            have := hmnk k hk
            omega
          refine ⟨ptr, ?_, CLink_mono hp2 hExtg⟩
          show (st'.ranges.set tgt _).getD _ default = _
          rw [getD_set_ne _ _ _ _ _ hposne]
          have hposlt : rs + (cs.getD k2 0 - cs.headD 0) <
              stc.ranges.length := by
            have := hkle k2 (by omega)
            have := hmnk k2 (by omega)
            omega
          rw [hO5 _ hposlt]
          exact hp1
        · subst heq
          refine ⟨ifcv, ?_, hclk⟩
          show (st'.ranges.set tgt _).getD _ default = _
          rw [← htgtdef]
          rw [getD_set_self _ _ _ _ (by omega)]
        · omega
      have hpend1 : ∀ k2, k + 1 ≤ k2 → k2 < cs.length →
          stc1.ranges.getD (rs + (cs.getD k2 0 - cs.headD 0)) default =
            ⟨dummy_index, (nds.getD k2 default).freq⟩ := by
        intro k2 hk2a hk2b
        have hposne : rs + (cs.getD k2 0 - cs.headD 0) ≠ tgt := by
          have := sorted_getD_lt cs hcsort k k2 (by omega) hk2b
          have := hmnk k hk
          have := hmnk k2 hk2b
          omega
        show (st'.ranges.set tgt _).getD _ default = _
        rw [getD_set_ne _ _ _ _ _ hposne]
        have hposlt : rs + (cs.getD k2 0 - cs.headD 0) <
            stc.ranges.length := by
          have := hkle k2 hk2b
          have := hmnk k2 hk2b
          omega
        rw [hO5 _ hposlt]
        exact hpend k2 (by omega) hk2b
      have hgaps1 : ∀ j, rs + j < re → (∀ c ∈ cs, c ≠ cs.headD 0 + j) →
          stc1.ranges.getD (rs + j) default = ⟨none, none⟩ := by
        intro j hj hgap2
        have hposne : rs + j ≠ tgt := by
          intro hcon
          have hck : cs.getD k 0 ∈ cs := (mem_iff_getD cs _).mpr ⟨k, hk, rfl⟩
          refine hgap2 _ hck ?_
          have := hmnk k hk
          omega
        show (st'.ranges.set tgt _).getD _ default = _
        rw [getD_set_ne _ _ _ _ _ hposne]
        rw [hO5 _ (by omega)]
        exact hgaps j hj hgap2
      by_cases hlast : k = cs.length - 1
      · have hkcm : cs.getD k 0 = cmax :=
          (sorted_max_index cs hcsort hcsne cmax hcmem hcle k hk).mpr hlast
        have hge : tgt + 1 ≥ re := by
          have := hmnk k hk
          omega
        refine ⟨stc1, ?_, hExtg, hndpres1, hrpres1, hO2, ?_⟩
        · rw [hEq0]
          rw [if_pos hge, if_pos hge]
          have hdropnil : nds.drop (k + 1) = [] := by
            apply List.drop_eq_nil_of_le
            omega
          rw [hdropnil, List.nil_append]
          have hfuelr : f1 + 1 - (cs.length - k) = f1 := by omega
          rw [hfuelr]
        · refine ⟨cmax, hcmem, hcle, hre, hnode1, ?_, ?_, hgaps1⟩
          · rw [hlen1r]
            omega
          · intro k2 hk2
            exact hdone1 k2 (by omega)
      · have hltcm : cs.getD k 0 < cmax := by
          have hle2 := hkle k hk
          rcases Nat.lt_or_ge (cs.getD k 0) cmax with h | h
          · exact h
          · exact absurd ((sorted_max_index cs hcsort hcsne cmax hcmem hcle
              k hk).mp (by omega)) hlast
        have hgeF : ¬ (tgt + 1 ≥ re) := by
          have := hmnk k hk
          omega
        obtain ⟨stg, hEq2, hExt2, hN2, hR2, hC2, hSeg2⟩ :=
          ih (k + 1) nds cs cont f1 stc1 g0 nbH r1 d rs re sib cmax
            (by omega) (by omega) hclen hc2 hlab hcsort hcmem hcle hre hrer1
            hnds (by rw [hlen1n]; omega) (by rw [hlen1r]; omega) hd hsib
            hnode1 hdone1 hpend1 hgaps1 hfuel2.2
        have hcur2 : (if k + 1 = 0 then (none : Option Nat)
            else some (rs + (cs.getD (k + 1 - 1) 0 - cs.headD 0) + 1)) =
            some (tgt + 1) := by
          rw [if_neg (Nat.succ_ne_zero k), Nat.add_sub_cancel]
        rw [hcur2] at hEq2
        refine ⟨stg, ?_, Extends_trans hExtg hExt2 (Nat.le_refl _)
          (Nat.le_refl _), ?_, ?_, ?_, hSeg2⟩
        · rw [hEq0, if_neg hgeF, if_neg hgeF]
          rw [hEq2]
          have hfuelr : f1 + 1 - (cs.length - k) =
              f1 - (cs.length - (k + 1)) := by omega
          rw [hfuelr]
        · intro j hj
          rw [hN2 j (by rw [hlen1n]; omega), hndpres1 j hj]
        · intro j hj hout
          rw [hR2 j (by rw [hlen1r]; omega) hout, hrpres1 j hj hout]
        · refine take_prefix_trans hC2 hO2 ?_
          show stc.chars.length ≤ st'.chars.length
          have := congrArg List.length hO2
          rw [List.length_take] at this
          omega

/-- The two forms of the first-child pointer computation agree for a
non-empty node array. -/
theorem ifc_eq (a b : Nat) (hb : 1 ≤ b) :
    (if a = b then (none : Option Nat) else some b) =
    (if a == b then none else if b == 0 then none else some b) := by
  by_cases hg : a = b
  · have hab : (a == b) = true := by
      rw [beq_iff_eq]
      exact hg
    rw [hab, if_pos rfl, if_pos hg]
  · have hab : (a == b) = false := by
      rw [beq_eq_false_iff_ne]
      exact hg
    have hb0 : (b == 0) = false := by
      rw [beq_eq_false_iff_ne]
      omega
    rw [hab, hb0, if_neg Bool.false_ne_true, if_neg Bool.false_ne_true,
      if_neg hg]

/-- Builds the semantically correct pointer for one processed child. -/
theorem CLink_of_step (stc stc1 : CompiledTrie) (child : Index.PatriciaNode)
    (g0 nbH r1 f1 : Nat)
    (hFill : FillOK child stc f1)
    (hmid : Extends (fill_main f1 (.inl (child, stc))) stc1
      stc.nodes.length stc.ranges.length)
    (hn : g0 + nbH ≤ stc.nodes.length) (hr : r1 ≤ stc.ranges.length) :
    CLink stc1 (g0 + nbH) r1 child
      (if (fill_main f1 (.inl (child, stc))).nodes.length =
          stc.nodes.length then none
       else some stc.nodes.length) := by
  obtain ⟨hO1, hO2, hO3, hO4, hO5, hO6, hO7⟩ := hFill
  by_cases hg : (fill_main f1 (.inl (child, stc))).nodes.length =
      stc.nodes.length
  · rw [if_pos hg]
    exact hO6.mp hg
  · rw [if_neg hg]
    intro fin hfin w hw f hfw
    exact hO7 (fun hcon => hg (hO6.mpr hcon)) fin
      (Extends_trans hmid hfin (by omega) (by omega)) w hw f hfw

/-- The outer loop over the segments of one pushed group: every pending
entry is back-patched into its final form, and only the group entries, the
group's range blocks and fresh tail space are written. -/
theorem fill_children_loop
    (N : Nat)
    (IH : ∀ c st2 f2, ptSize c ≤ N → SortedTrie c → capOK c = true →
      2 * ptSize c ≤ f2 → FillOK c st2 f2) :
    ∀ (Q : List ((HeurNode × List Index.PatriciaNode) × (Nat × Nat)))
      (fuel : Nat) (stc : CompiledTrie) (g0 nbH r1 d : Nat),
      d + Q.length = nbH →
      (∀ q ∈ Q, HSeg q.1.1 q.1.2) →
      (∀ q ∈ Q, ∀ nd ∈ q.1.2, ptSize nd ≤ N ∧ SortedTrie nd ∧
        capOK nd = true) →
      (∀ i, i < Q.length →
        PendingNodeAt stc (g0 + d + i) (nbH - 1 - (d + i))
          (Q.getD i default).1.1 (Q.getD i default).2.1
          (Q.getD i default).2.2) →
      (∀ i i2, i < i2 → i2 < Q.length →
        (Q.getD i default).2.2 ≤ (Q.getD i2 default).2.1) →
      (∀ i, i < Q.length → (Q.getD i default).2.1 ≤
        (Q.getD i default).2.2 ∧ (Q.getD i default).2.2 ≤ r1) →
      g0 + nbH ≤ stc.nodes.length → r1 ≤ stc.ranges.length →
      needL (Q.map (fun q => q.1.2)).flatten ≤ fuel →
      ∃ stL,
        fill_main fuel (.inr ((Q.map (fun q => q.1.2)).flatten, stc,
          g0 + d, none)) = stL ∧
        Extends stc stL (g0 + nbH) r1 ∧
        (∀ j, j < stc.nodes.length → j < g0 + d →
          stL.nodes.getD j default = stc.nodes.getD j default) ∧
        (∀ j, j < stc.ranges.length →
          (∀ i, i < Q.length → ¬ ((Q.getD i default).2.1 ≤ j ∧
            j < (Q.getD i default).2.2)) →
          stL.ranges.getD j default = stc.ranges.getD j default) ∧
        stL.chars.take stc.chars.length = stc.chars ∧
        (∀ i, i < Q.length →
          SegFinalAt stL (g0 + nbH) r1 (g0 + d + i) (nbH - 1 - (d + i))
            (Q.getD i default).1.1 (Q.getD i default).2.1
            (Q.getD i default).2.2) := by
  intro Q
  induction Q with
  | nil =>
      intro fuel stc g0 nbH r1 d hd hsg hkid hpnd hord hblk hgn hgr hfl
      obtain ⟨f1, rfl⟩ : ∃ f1, fuel = f1 + 1 := by
        have := needL_pos (([] : List (List Index.PatriciaNode)).flatten)
        cases fuel with
        | zero => simp only [List.map_nil] at hfl; omega
        | succ f => exact ⟨f, rfl⟩
      refine ⟨stc, ?_, Extends_refl _ _ _, fun _ _ _ => rfl,
        fun _ _ _ => rfl, List.take_length _, fun i hi => absurd hi
          (by simp)⟩
      show fill_main (f1 + 1) (.inr ([], stc, g0 + d, none)) = stc
      exact fill_main_inr_nil f1 stc (g0 + d) none
  | cons q Q' ih =>
      intro fuel stc g0 nbH r1 d hd hsg hkid hpnd hord hblk hgn hgr hfl
      obtain ⟨⟨hh, kids⟩, rs, re⟩ := q
      simp only [List.length_cons] at hd
      have hp0' := hpnd 0 (by simp)
      simp only [List.getD_cons_zero, Nat.add_zero] at hp0'
      have hp0 : PendingNodeAt stc (g0 + d) (nbH - 1 - d) hh rs re := hp0'
      have hblk0' := hblk 0 (by simp)
      simp only [List.getD_cons_zero] at hblk0'
      have hblk0 : rs ≤ re ∧ re ≤ r1 := hblk0'
      have hsg0 : HSeg hh kids := hsg _ (List.mem_cons_self _ _)
      have hkid0 : ∀ nd ∈ kids, ptSize nd ≤ N ∧ SortedTrie nd ∧
          capOK nd = true := hkid _ (List.mem_cons_self _ _)
      clear hp0' hblk0'
      cases hsg0 with
      | simple nd c hc =>
          have hnode0 : stc.nodes.getD (g0 + d) default =
              CompiledTrieNode.new_naive ⟨none, nd.freq, c⟩ (nbH - 1 - d) :=
            hp0
          obtain ⟨f1, rfl⟩ : ∃ f1, fuel = f1 + 1 := by
            have := needL_pos
              (((((HeurNode.simple nd c, [nd]), rs, re) :: Q').map
                (fun q => q.1.2)).flatten)
            cases fuel with
            | zero => omega
            | succ f => exact ⟨f, rfl⟩
          have hfl2 : 2 * ptSize nd ≤ f1 ∧
              needL (Q'.map (fun q => q.1.2)).flatten ≤ f1 := by
            simp only [List.map_cons, List.flatten_cons,
              List.singleton_append, List.append_eq, List.nil_append,
              needL] at hfl
            omega
          have hk1 := hkid0 nd (List.mem_singleton_self _)
          have hFill := IH nd stc f1 hk1.1 hk1.2.1 hk1.2.2 hfl2.1
          obtain ⟨hO1, hO2, hO3, hO4, hO5, hO6, hO7⟩ := hFill
          set st' := fill_main f1 (.inl (nd, stc)) with hst'def
          set ifcv := (if st'.nodes.length = stc.nodes.length then none
            else some stc.nodes.length) with hifcvdef
          have hclen' : stc.chars.length ≤ st'.chars.length := by
            have := congrArg List.length hO2
            rw [List.length_take] at this
            omega
          have hnodest' : st'.nodes.getD (g0 + d) default =
              CompiledTrieNode.new_naive ⟨none, nd.freq, c⟩ (nbH - 1 - d) := by
            rw [hO3 _ (by omega)]
            exact hnode0
          have hfinish := finish_naive_step st'.nodes st'.ranges ifcv
            (g0 + d) none nd.freq c (nbH - 1 - d) hnodest'
          set stc1 : CompiledTrie := ⟨st'.nodes.set (g0 + d)
            (CompiledTrieNode.new_naive ⟨ifcv, nd.freq, c⟩ (nbH - 1 - d)),
            st'.chars, st'.ranges⟩ with hstc1def
          have hEq0 : fill_main (f1 + 1)
              (.inr (nd :: (Q'.map (fun q => q.1.2)).flatten, stc,
                g0 + d, none)) =
              fill_main f1 (.inr ((Q'.map (fun q => q.1.2)).flatten, stc1,
                g0 + d + 1, none)) :=
            fill_main_inr_cons f1 nd _ stc st' (g0 + d) none ifcv
              (st'.nodes.set (g0 + d)
                (CompiledTrieNode.new_naive ⟨ifcv, nd.freq, c⟩
                  (nbH - 1 - d)),
                st'.ranges, g0 + d + 1, none)
              hst'def.symm (ifc_eq _ _ (by omega)) hfinish
          have hlen1n : stc1.nodes.length = st'.nodes.length :=
            List.length_set ..
          have hExt1 : Extends stc stc1 (g0 + nbH) r1 := by
            refine ⟨by rw [hlen1n]; omega, hO2, ?_, hO4, ?_⟩
            · intro j hj1 hj2
              show (st'.nodes.set _ _).getD j default = _
              rw [getD_set_ne _ _ _ _ _ (by omega)]
              exact hO3 j hj2
            · intro j hj1 hj2
              exact hO5 j hj2
          have hmid : Extends st' stc1 stc.nodes.length
              stc.ranges.length := by
            refine ⟨by rw [hlen1n], List.take_length _, ?_, Nat.le_refl _,
              fun j _ _ => rfl⟩
            intro j hj1 hj2
            show (st'.nodes.set _ _).getD j default = _
            rw [getD_set_ne _ _ _ _ _ (by omega)]
          have hclk : CLink stc1 (g0 + nbH) r1 nd ifcv := by
            rw [hifcvdef, hst'def]
            exact CLink_of_step stc stc1 nd g0 nbH r1 f1
              (IH nd stc f1 hk1.1 hk1.2.1 hk1.2.2 hfl2.1)
              (by rw [← hst'def]; exact hmid) hgn hgr
          have hpnd1 : ∀ i, i < Q'.length →
              PendingNodeAt stc1 (g0 + (d + 1) + i)
                (nbH - 1 - ((d + 1) + i)) (Q'.getD i default).1.1
                (Q'.getD i default).2.1 (Q'.getD i default).2.2 := by
            intro i hi
            have hpi := hpnd (i + 1) (by
              simp only [List.length_cons]
              omega)
            simp only [List.getD_cons_succ] at hpi
            have harr : g0 + d + (i + 1) = g0 + (d + 1) + i := by omega
            have harr2 : nbH - 1 - (d + (i + 1)) =
                nbH - 1 - ((d + 1) + i) := by omega
            rw [harr, harr2] at hpi
            have hbi := hblk (i + 1) (by
              simp only [List.length_cons]
              omega)
            simp only [List.getD_cons_succ] at hbi
            refine PendingNodeAt_mono hpi ?_ hO2 hclen' ?_ ?_
            · show (st'.nodes.set _ _).getD _ default = _
              rw [getD_set_ne _ _ _ _ _ (by omega)]
              exact hO3 _ (by omega)
            · intro j hj1 hj2
              show st'.ranges.getD j default = _
              exact hO5 j (by omega)
            · show _ ≤ st'.ranges.length
              omega
          obtain ⟨stL, hEqL, hExtL, hNL, hRL, hCL, hSegL⟩ :=
            ih f1 stc1 g0 nbH r1 (d + 1) (by omega)
              (fun q hq => hsg q (List.mem_cons_of_mem _ hq))
              (fun q hq => hkid q (List.mem_cons_of_mem _ hq))
              hpnd1
              (fun i i2 h1 h2 => by
                have := hord (i + 1) (i2 + 1) (by omega) (by
                  simp only [List.length_cons]
                  omega)
                simpa using this)
              (fun i hi => by
                have := hblk (i + 1) (by
                  simp only [List.length_cons]
                  omega)
                simpa using this)
              (by rw [hlen1n]; omega) (by show r1 ≤ st'.ranges.length; omega)
              hfl2.2
          refine ⟨stL, ?_, Extends_trans hExt1 hExtL (Nat.le_refl _)
            (Nat.le_refl _), ?_, ?_, ?_, ?_⟩
          · simp only [List.map_cons, List.flatten_cons,
              List.singleton_append]
            rw [hEq0]
            exact hEqL
          · intro j hj1 hj2
            rw [hNL j (by rw [hlen1n]; omega) (by omega)]
            show (st'.nodes.set _ _).getD j default = _
            rw [getD_set_ne _ _ _ _ _ (by omega)]
            exact hO3 j hj1
          · intro j hj1 hout
            have hout' : ∀ i, i < Q'.length →
                ¬ ((Q'.getD i default).2.1 ≤ j ∧
                  j < (Q'.getD i default).2.2) := by
              intro i hi
              have := hout (i + 1) (by
                simp only [List.length_cons]
                omega)
              simpa using this
            rw [hRL j (by show j < st'.ranges.length; omega) hout']
            show st'.ranges.getD j default = _
            exact hO5 j hj1
          · refine take_prefix_trans hCL hO2 hclen'
          · intro i hi
            cases i with
            | zero =>
                simp only [List.getD_cons_zero, Nat.add_zero]
                refine ⟨ifcv, ?_, CLink_mono hclk hExtL⟩
                rw [hNL (g0 + d) (by rw [hlen1n]; omega) (by omega)]
                show (st'.nodes.set _ _).getD _ default = _
                rw [getD_set_self _ _ _ _ (by omega)]
            | succ i2 =>
                simp only [List.getD_cons_succ, List.length_cons] at hi ⊢
                have hS := hSegL i2 (by omega)
                have harr : g0 + (d + 1) + i2 = g0 + d + (i2 + 1) := by omega
                have harr2 : nbH - 1 - ((d + 1) + i2) =
                    nbH - 1 - (d + (i2 + 1)) := by omega
                rw [harr, harr2] at hS
                exact hS
      | patricia nd s hls hl1 hl2 =>
          obtain ⟨start, hnode0, hblen0, hslice0⟩ := hp0
          obtain ⟨f1, rfl⟩ : ∃ f1, fuel = f1 + 1 := by
            have := needL_pos
              (((((HeurNode.patricia nd s, [nd]), rs, re) :: Q').map
                (fun q => q.1.2)).flatten)
            cases fuel with
            | zero => omega
            | succ f => exact ⟨f, rfl⟩
          have hfl2 : 2 * ptSize nd ≤ f1 ∧
              needL (Q'.map (fun q => q.1.2)).flatten ≤ f1 := by
            simp only [List.map_cons, List.flatten_cons,
              List.singleton_append, List.append_eq, List.nil_append,
              needL] at hfl
            omega
          have hk1 := hkid0 nd (List.mem_singleton_self _)
          have hFill := IH nd stc f1 hk1.1 hk1.2.1 hk1.2.2 hfl2.1
          obtain ⟨hO1, hO2, hO3, hO4, hO5, hO6, hO7⟩ := hFill
          set st' := fill_main f1 (.inl (nd, stc)) with hst'def
          set ifcv := (if st'.nodes.length = stc.nodes.length then none
            else some stc.nodes.length) with hifcvdef
          have hclen' : stc.chars.length ≤ st'.chars.length := by
            have := congrArg List.length hO2
            rw [List.length_take] at this
            omega
          have hnodest' : st'.nodes.getD (g0 + d) default =
              CompiledTrieNode.new_patricia ⟨none, nd.freq, start⟩
                (nbH - 1 - d) s.length := by
            rw [hO3 _ (by omega)]
            exact hnode0
          have hfinish := finish_patricia_step st'.nodes st'.ranges ifcv
            (g0 + d) none nd.freq start (nbH - 1 - d) s.length hnodest'
          set stc1 : CompiledTrie := ⟨st'.nodes.set (g0 + d)
            (CompiledTrieNode.new_patricia ⟨ifcv, nd.freq, start⟩
              (nbH - 1 - d) s.length),
            st'.chars, st'.ranges⟩ with hstc1def
          have hEq0 : fill_main (f1 + 1)
              (.inr (nd :: (Q'.map (fun q => q.1.2)).flatten, stc,
                g0 + d, none)) =
              fill_main f1 (.inr ((Q'.map (fun q => q.1.2)).flatten, stc1,
                g0 + d + 1, none)) :=
            fill_main_inr_cons f1 nd _ stc st' (g0 + d) none ifcv
              (st'.nodes.set (g0 + d)
                (CompiledTrieNode.new_patricia ⟨ifcv, nd.freq, start⟩
                  (nbH - 1 - d) s.length),
                st'.ranges, g0 + d + 1, none)
              hst'def.symm (ifc_eq _ _ (by omega)) hfinish
          have hlen1n : stc1.nodes.length = st'.nodes.length :=
            List.length_set ..
          have hExt1 : Extends stc stc1 (g0 + nbH) r1 := by
            refine ⟨by rw [hlen1n]; omega, hO2, ?_, hO4, ?_⟩
            · intro j hj1 hj2
              show (st'.nodes.set _ _).getD j default = _
              rw [getD_set_ne _ _ _ _ _ (by omega)]
              exact hO3 j hj2
            · intro j hj1 hj2
              exact hO5 j hj2
          have hmid : Extends st' stc1 stc.nodes.length
              stc.ranges.length := by
            refine ⟨by rw [hlen1n], List.take_length _, ?_, Nat.le_refl _,
              fun j _ _ => rfl⟩
            intro j hj1 hj2
            show (st'.nodes.set _ _).getD j default = _
            rw [getD_set_ne _ _ _ _ _ (by omega)]
          have hclk : CLink stc1 (g0 + nbH) r1 nd ifcv := by
            rw [hifcvdef, hst'def]
            exact CLink_of_step stc stc1 nd g0 nbH r1 f1
              (IH nd stc f1 hk1.1 hk1.2.1 hk1.2.2 hfl2.1)
              (by rw [← hst'def]; exact hmid) hgn hgr
          have hpnd1 : ∀ i, i < Q'.length →
              PendingNodeAt stc1 (g0 + (d + 1) + i)
                (nbH - 1 - ((d + 1) + i)) (Q'.getD i default).1.1
                (Q'.getD i default).2.1 (Q'.getD i default).2.2 := by
            intro i hi
            have hpi := hpnd (i + 1) (by
              simp only [List.length_cons]
              omega)
            simp only [List.getD_cons_succ] at hpi
            have harr : g0 + d + (i + 1) = g0 + (d + 1) + i := by omega
            have harr2 : nbH - 1 - (d + (i + 1)) =
                nbH - 1 - ((d + 1) + i) := by omega
            rw [harr, harr2] at hpi
            have hbi := hblk (i + 1) (by
              simp only [List.length_cons]
              omega)
            simp only [List.getD_cons_succ] at hbi
            refine PendingNodeAt_mono hpi ?_ hO2 hclen' ?_ ?_
            · show (st'.nodes.set _ _).getD _ default = _
              rw [getD_set_ne _ _ _ _ _ (by omega)]
              exact hO3 _ (by omega)
            · intro j hj1 hj2
              show st'.ranges.getD j default = _
              exact hO5 j (by omega)
            · show _ ≤ st'.ranges.length
              omega
          obtain ⟨stL, hEqL, hExtL, hNL, hRL, hCL, hSegL⟩ :=
            ih f1 stc1 g0 nbH r1 (d + 1) (by omega)
              (fun q hq => hsg q (List.mem_cons_of_mem _ hq))
              (fun q hq => hkid q (List.mem_cons_of_mem _ hq))
              hpnd1
              (fun i i2 h1 h2 => by
                have := hord (i + 1) (i2 + 1) (by omega) (by
                  simp only [List.length_cons]
                  omega)
                simpa using this)
              (fun i hi => by
                have := hblk (i + 1) (by
                  simp only [List.length_cons]
                  omega)
                simpa using this)
              (by rw [hlen1n]; omega) (by show r1 ≤ st'.ranges.length; omega)
              hfl2.2
          have hCfull : stL.chars.take stc.chars.length = stc.chars :=
            take_prefix_trans hCL hO2 hclen'
          have hCfulllen : stc.chars.length ≤ stL.chars.length := by
            have := congrArg List.length hCfull
            rw [List.length_take] at this
            omega
          refine ⟨stL, ?_, Extends_trans hExt1 hExtL (Nat.le_refl _)
            (Nat.le_refl _), ?_, ?_, hCfull, ?_⟩
          · simp only [List.map_cons, List.flatten_cons,
              List.singleton_append]
            rw [hEq0]
            exact hEqL
          · intro j hj1 hj2
            rw [hNL j (by rw [hlen1n]; omega) (by omega)]
            show (st'.nodes.set _ _).getD j default = _
            rw [getD_set_ne _ _ _ _ _ (by omega)]
            exact hO3 j hj1
          · intro j hj1 hout
            have hout' : ∀ i, i < Q'.length →
                ¬ ((Q'.getD i default).2.1 ≤ j ∧
                  j < (Q'.getD i default).2.2) := by
              intro i hi
              have := hout (i + 1) (by
                simp only [List.length_cons]
                omega)
              simpa using this
            rw [hRL j (by show j < st'.ranges.length; omega) hout']
            show st'.ranges.getD j default = _
            exact hO5 j hj1
          · intro i hi
            cases i with
            | zero =>
                simp only [List.getD_cons_zero, Nat.add_zero]
                refine ⟨ifcv, start, ?_, by omega, ?_,
                  CLink_mono hclk hExtL⟩
                · rw [hNL (g0 + d) (by rw [hlen1n]; omega) (by omega)]
                  show (st'.nodes.set _ _).getD _ default = _
                  rw [getD_set_self _ _ _ _ (by omega)]
                · exact (slice_of_take_stable stL.chars stc.chars
                    stc.chars.length start s.length hCfull hblen0).trans
                    hslice0
            | succ i2 =>
                simp only [List.getD_cons_succ, List.length_cons] at hi ⊢
                have hS := hSegL i2 (by omega)
                have harr : g0 + (d + 1) + i2 = g0 + d + (i2 + 1) := by omega
                have harr2 : nbH - 1 - ((d + 1) + i2) =
                    nbH - 1 - (d + (i2 + 1)) := by omega
                rw [harr, harr2] at hS
                exact hS
      | range nds cs hclen2 hc2 hlab hcsort =>
          obtain ⟨cmax, hcmem, hcle, hre, hnode0, hreln, helems0, hgaps0⟩ :=
            hp0
          have hfl' : needL (kids ++ (Q'.map (fun q => q.1.2)).flatten) ≤
              fuel := by
            simp only [List.map_cons, List.flatten_cons] at hfl
            exact hfl
          obtain ⟨stg, hEqg, hExtg, hNg, hRg, hCg, hSegg⟩ :=
            fill_range_loop N IH (cs.length - 0) 0 kids cs
              ((Q'.map (fun q => q.1.2)).flatten) fuel stc g0 nbH r1 d rs re
              (nbH - 1 - d) cmax rfl (by omega) hclen2 hc2 hlab hcsort hcmem
              hcle hre hblk0.2 hkid0 hgn hgr (by omega) rfl hnode0
              (fun k2 h => absurd h (by omega))
              (fun k2 _ h => helems0 k2 h) hgaps0
              (by rw [List.drop_zero]; exact hfl')
          rw [List.drop_zero, if_pos rfl, Nat.sub_zero] at hEqg
          have hgl : stc.nodes.length ≤ stg.nodes.length := hExtg.1
          have hgr2 : stc.ranges.length ≤ stg.ranges.length :=
            hExtg.2.2.2.1
          have hclg : stc.chars.length ≤ stg.chars.length := by
            have := congrArg List.length hCg
            rw [List.length_take] at this
            omega
          have hfl2 : needL (Q'.map (fun q => q.1.2)).flatten ≤
              fuel - cs.length := by
            have := needL_append_ge kids ((Q'.map (fun q => q.1.2)).flatten)
            omega
          have hpnd1 : ∀ i, i < Q'.length →
              PendingNodeAt stg (g0 + (d + 1) + i)
                (nbH - 1 - ((d + 1) + i)) (Q'.getD i default).1.1
                (Q'.getD i default).2.1 (Q'.getD i default).2.2 := by
            intro i hi
            have hpi := hpnd (i + 1) (by
              simp only [List.length_cons]
              omega)
            simp only [List.getD_cons_succ] at hpi
            have harr : g0 + d + (i + 1) = g0 + (d + 1) + i := by omega
            have harr2 : nbH - 1 - (d + (i + 1)) =
                nbH - 1 - ((d + 1) + i) := by omega
            rw [harr, harr2] at hpi
            have hbi := hblk (i + 1) (by
              simp only [List.length_cons]
              omega)
            simp only [List.getD_cons_succ] at hbi
            have hoi := hord 0 (i + 1) (by omega) (by
              simp only [List.length_cons]
              omega)
            simp only [List.getD_cons_zero, List.getD_cons_succ] at hoi
            refine PendingNodeAt_mono hpi ?_ hCg hclg ?_ ?_
            · exact hNg _ (by omega)
            · intro j hj1 hj2
              exact hRg j (by omega) (by omega)
            · omega
          obtain ⟨stL, hEqL, hExtL, hNL, hRL, hCL, hSegL⟩ :=
            ih (fuel - cs.length) stg g0 nbH r1 (d + 1) (by omega)
              (fun q hq => hsg q (List.mem_cons_of_mem _ hq))
              (fun q hq => hkid q (List.mem_cons_of_mem _ hq))
              hpnd1
              (fun i i2 h1 h2 => by
                have := hord (i + 1) (i2 + 1) (by omega) (by
                  simp only [List.length_cons]
                  omega)
                simpa using this)
              (fun i hi => by
                have := hblk (i + 1) (by
                  simp only [List.length_cons]
                  omega)
                simpa using this)
              (by omega) (by omega) hfl2
          have hCfull : stL.chars.take stc.chars.length = stc.chars :=
            take_prefix_trans hCL hCg hclg
          refine ⟨stL, ?_, Extends_trans hExtg hExtL (Nat.le_refl _)
            (Nat.le_refl _), ?_, ?_, hCfull, ?_⟩
          · simp only [List.map_cons, List.flatten_cons]
            rw [hEqg]
            exact hEqL
          · intro j hj1 hj2
            rw [hNL j (by omega) (by omega)]
            exact hNg j hj1
          · intro j hj1 hout
            have hout0 := hout 0 (by simp)
            simp only [List.getD_cons_zero] at hout0
            have hout' : ∀ i, i < Q'.length →
                ¬ ((Q'.getD i default).2.1 ≤ j ∧
                  j < (Q'.getD i default).2.2) := by
              intro i hi
              have := hout (i + 1) (by
                simp only [List.length_cons]
                omega)
              simpa using this
            rw [hRL j (by omega) hout']
            exact hRg j hj1 hout0
          · intro i hi
            cases i with
            | zero =>
                simp only [List.getD_cons_zero, Nat.add_zero]
                refine SegFinalAt_mono hSegg hExtL ?_ ?_
                · exact hNL (g0 + d) (by omega) (by omega)
                · intro j hj1 hj2
                  refine hRL j (by omega) ?_
                  intro i2 hi2
                  have := hord 0 (i2 + 1) (by omega) (by
                    simp only [List.length_cons]
                    omega)
                  simp only [List.getD_cons_zero, List.getD_cons_succ]
                    at this
                  omega
            | succ i2 =>
                simp only [List.getD_cons_succ, List.length_cons] at hi ⊢
                have hS := hSegL i2 (by omega)
                have harr : g0 + (d + 1) + i2 = g0 + d + (i2 + 1) := by omega
                have harr2 : nbH - 1 - ((d + 1) + i2) =
                    nbH - 1 - (d + (i2 + 1)) := by omega
                rw [harr, harr2] at hS
                exact hS

/-- A flattened list of non-empty sections is at least as long as the list
of sections. -/
theorem length_le_flatten {α : Type} :
    ∀ ll : List (List α), (∀ l ∈ ll, l ≠ []) →
      ll.length ≤ ll.flatten.length
  | [], _ => Nat.le_refl _
  | l :: ls, h => by
      have h1 := length_le_flatten ls (fun x hx => h x
        (List.mem_cons_of_mem _ hx))
      have h2 : 1 ≤ l.length := by
        cases l with
        | nil => exact absurd rfl (h [] (List.mem_cons_self _ _))
        | cons a b => simp
      simp only [List.flatten_cons, List.length_cons, List.length_append]
      omega

/-- `getD` through `zip` at an in-bounds index. -/
theorem getD_zip {α β : Type} [Inhabited α] [Inhabited β] (a : List α)
    (b : List β) (i : Nat) (ha : i < a.length) (hb : i < b.length) :
    (a.zip b).getD i default = (a.getD i default, b.getD i default) := by
  have hz : i < (a.zip b).length := by
    rw [List.length_zip]
    omega
  rw [List.getD_eq_getElem _ _ hz, List.getD_eq_getElem _ _ ha,
    List.getD_eq_getElem _ _ hb]
  exact List.getElem_zip ..

/-- Mapping a first-component projection over a `zip` ignores the second
list. -/
theorem zip_map_fst_fun {α β γ : Type} (f : α → γ) :
    ∀ (a : List α) (b : List β), a.length ≤ b.length →
      (a.zip b).map (fun q => f q.1) = a.map f
  | [], _, _ => rfl
  | x :: xs, [], h => by simp at h
  | x :: xs, y :: ys, h => by
      simp only [List.zip_cons_cons, List.map_cons]
      rw [zip_map_fst_fun f xs ys (by simpa using h)]

/-- Introduction rule for `FillOK` via an explicit result state. -/
theorem FillOK_intro (c : Index.PatriciaNode) (st : CompiledTrie)
    (fuel : Nat) (stX : CompiledTrie)
    (hX : fill_main fuel (.inl (c, st)) = stX)
    (h1 : st.nodes.length ≤ stX.nodes.length)
    (h2 : stX.chars.take st.chars.length = st.chars)
    (h3 : ∀ j, j < st.nodes.length →
      stX.nodes.getD j default = st.nodes.getD j default)
    (h4 : st.ranges.length ≤ stX.ranges.length)
    (h5 : ∀ j, j < st.ranges.length →
      stX.ranges.getD j default = st.ranges.getD j default)
    (h6 : stX.nodes.length = st.nodes.length ↔ c.children = [])
    (h7 : c.children ≠ [] → ∀ fin,
      Extends stX fin st.nodes.length st.ranges.length →
      ∀ w, w ≠ [] → ∀ f, w.length ≤ f →
      search_exact_children fin f w (fin.get_siblings st.nodes.length) =
        patLookup w.length c w) :
    FillOK c st fuel := by
  subst hX
  exact ⟨h1, h2, h3, h4, h5, h6, h7⟩

/-- Main correctness of the compiler recursion: one `fill_main` node step
only appends to the state, appends exactly when the node has children, and
in every stable extension exact search from the pushed group computes
`patLookup` on the node. -/
theorem fill_correct :
    ∀ (N : Nat) (t : Index.PatriciaNode) (st : CompiledTrie) (fuel : Nat),
      ptSize t ≤ N → SortedTrie t → capOK t = true → 2 * ptSize t ≤ fuel →
      FillOK t st fuel := by
  intro N
  induction N with
  | zero =>
      intro t st fuel hsz _ _ _
      have := ptSize_pos t
      omega
  | succ N ihN =>
      intro t st fuel hsz hsort hcap hfuel
      obtain ⟨L, C, F⟩ := t
      have hpt : ptSize (Index.PatriciaNode.mk L C F) = 1 + ptSizeL C := rfl
      rw [hpt] at hsz hfuel
      obtain ⟨hcapL, hcapC, hcapKids⟩ := capOK_inv L C F hcap
      obtain ⟨f1, rfl⟩ : ∃ f1, fuel = f1 + 1 := by
        cases fuel with
        | zero => omega
        | succ f => exact ⟨f, rfl⟩
      by_cases hC : C = []
      · subst hC
        obtain ⟨f2, rfl⟩ : ∃ f2, f1 = f2 + 1 := by
          simp only [ptSizeL] at hfuel
          cases f1 with
          | zero => omega
          | succ f => exact ⟨f, rfl⟩
        refine FillOK_intro _ _ _ st ?_ (Nat.le_refl _) (List.take_length _)
          (fun _ _ => rfl) (Nat.le_refl _) (fun _ _ => rfl)
          (iff_of_true rfl rfl) (fun hne => absurd rfl hne)
        show fill_main (f2 + 1 + 1)
          (.inl (Index.PatriciaNode.mk L [] F, st)) = st
        have hinl : fill_main (f2 + 1 + 1)
            (.inl (Index.PatriciaNode.mk L [] F, st)) =
            fill_main (f2 + 1) (.inr ([], st, st.nodes.length, none)) := rfl
        rw [hinl]
        exact fill_main_inr_nil f2 st st.nodes.length none
      · have hpair : C.Pairwise (fun a b => keyOf a < keyOf b) :=
          (SortedTrie.inv hsort).1
        have hlabne : ∀ c ∈ C, c.letters ≠ [] := (SortedTrie.inv hsort).2.1
        have hsub : ∀ c ∈ C, SortedTrie c := (SortedTrie.inv hsort).2.2
        obtain ⟨segs, hsegsH, hsegsFlat, hsegsAll⟩ :=
          node_type_heuristic_segs C hpair hlabne
        have hwf : ∀ h ∈ node_type_heuristic C
            (C.map Index.PatriciaNode.letters), HeurWF h := by
          intro h hh
          rw [hsegsH] at hh
          obtain ⟨⟨qh, qk⟩, hq, rfl⟩ := List.mem_map.mp hh
          show HeurWF qh
          have hsq : HSeg qh qk := hsegsAll _ hq
          cases hsq with
          | simple nd c hc => trivial
          | patricia nd s hls h1 h2 => exact h2
          | range nds cs hlen h2 hlab hsort2 =>
              refine ⟨hlen, hsort2, ?_⟩
              intro hcon
              rw [hcon] at h2
              simp at h2
        obtain ⟨metas, hm1, hm2, hm3, hm4, hm5, hm6, hm7, hm8, hm9⟩ :=
          push_pending_spec (node_type_heuristic C
            (C.map Index.PatriciaNode.letters)) st hwf
        have hHlen : (node_type_heuristic C
            (C.map Index.PatriciaNode.letters)).length = segs.length := by
          rw [hsegsH, List.length_map]
        have hnbH1 : 1 ≤ segs.length := by
          cases segs with
          | nil => simp at hsegsFlat; exact absurd hsegsFlat hC
          | cons a b => simp
        have hsegsne : ∀ q ∈ segs, q.2 ≠ [] := fun q hq =>
          HSeg_ne (hsegsAll q hq)
        have hnb18 : segs.length ≤ 2 ^ 18 := by
          have h1 := length_le_flatten (segs.map Prod.snd) (by
            intro l hl
            obtain ⟨q, hq, rfl⟩ := List.mem_map.mp hl
            exact hsegsne q hq)
          rw [List.length_map, hsegsFlat] at h1
          omega
        have hmlen : metas.length = segs.length := by rw [hm1, hHlen]
        have hQlen : (segs.zip metas).length = segs.length := by
          rw [List.length_zip, hmlen]
          omega
        have hQget : ∀ i, i < segs.length →
            (segs.zip metas).getD i default =
            (segs.getD i default, metas.getD i default) := fun i hi =>
          getD_zip segs metas i hi (by omega)
        have hQmap : (((segs.zip metas)).map (fun q => q.1.2)).flatten =
            C := by
          rw [zip_map_fst_fun Prod.snd segs metas (by omega)]
          exact hsegsFlat
        have hkidC : ∀ q ∈ segs.zip metas, ∀ nd ∈ q.1.2, nd ∈ C := by
          intro q hq nd hnd
          rcases q with ⟨qs, qm⟩
          rw [← hsegsFlat]
          exact List.mem_flatten.mpr ⟨qs.2,
            List.mem_map.mpr ⟨qs, (List.of_mem_zip hq).1, rfl⟩, hnd⟩
        have hkidAll : ∀ q ∈ segs.zip metas, ∀ nd ∈ q.1.2,
            ptSize nd ≤ N ∧ SortedTrie nd ∧ capOK nd = true := by
          intro q hq nd hnd
          have hmem := hkidC q hq nd hnd
          refine ⟨?_, hsub nd hmem, capOKL_mem C nd hcapKids hmem⟩
          have := ptSize_mem_le C nd hmem
          omega
        have hsegQ : ∀ q ∈ segs.zip metas, HSeg q.1.1 q.1.2 := by
          intro q hq
          rcases q with ⟨qs, qm⟩
          exact hsegsAll qs (List.of_mem_zip hq).1
        have hpndQ : ∀ i, i < (segs.zip metas).length →
            PendingNodeAt (push_pending (node_type_heuristic C
              (C.map Index.PatriciaNode.letters)) st)
              (st.nodes.length + 0 + i) (segs.length - 1 - (0 + i))
              ((segs.zip metas).getD i default).1.1
              ((segs.zip metas).getD i default).2.1
              ((segs.zip metas).getD i default).2.2 := by
          intro i hi
          rw [hQlen] at hi
          rw [hQget i hi]
          have hp := hm9 i (by omega)
          have hHgetD : (node_type_heuristic C
              (C.map Index.PatriciaNode.letters)).getD i default =
              (segs.getD i default).1 := by
            rw [hsegsH]
            exact getD_map_lt Prod.fst segs i default hi
          rw [hHgetD, hHlen] at hp
          have harr : st.nodes.length + i = st.nodes.length + 0 + i := by
            omega
          have harr2 : segs.length - 1 - i = segs.length - 1 - (0 + i) := by
            omega
          rw [harr, harr2] at hp
          exact hp
        have hordQ : ∀ i i2, i < i2 → i2 < (segs.zip metas).length →
            ((segs.zip metas).getD i default).2.2 ≤
            ((segs.zip metas).getD i2 default).2.1 := by
          intro i i2 h1 h2
          rw [hQlen] at h2
          rw [hQget i (by omega), hQget i2 h2]
          exact hm8 i i2 h1 (by omega)
        have hblkQ : ∀ i, i < (segs.zip metas).length →
            ((segs.zip metas).getD i default).2.1 ≤
              ((segs.zip metas).getD i default).2.2 ∧
            ((segs.zip metas).getD i default).2.2 ≤
              (push_pending (node_type_heuristic C
                (C.map Index.PatriciaNode.letters)) st).ranges.length := by
          intro i hi
          rw [hQlen] at hi
          rw [hQget i hi]
          have := hm7 i (by omega)
          exact ⟨this.2.1, this.2.2⟩
        have hgnQ : st.nodes.length + segs.length ≤
            (push_pending (node_type_heuristic C
              (C.map Index.PatriciaNode.letters)) st).nodes.length := by
          rw [hm2]
          omega
        have hflQ : needL (((segs.zip metas).map
            (fun q => q.1.2)).flatten) ≤ f1 := by
          rw [hQmap]
          have := needL_le C
          omega
        obtain ⟨stL, hEqL, hExtL, hNL, hRL, hCL, hSegL⟩ :=
          fill_children_loop N ihN (segs.zip metas) f1
            (push_pending (node_type_heuristic C
              (C.map Index.PatriciaNode.letters)) st)
            st.nodes.length segs.length
            (push_pending (node_type_heuristic C
              (C.map Index.PatriciaNode.letters)) st).ranges.length 0
            (by rw [hQlen]; omega) hsegQ hkidAll hpndQ hordQ hblkQ hgnQ
            (Nat.le_refl _) hflQ
        have hclen1 : st.chars.length ≤ (push_pending (node_type_heuristic
            C (C.map Index.PatriciaNode.letters)) st).chars.length := by
          have := congrArg List.length hm4
          rw [List.length_take] at this
          omega
        have hstLlen : st.nodes.length + segs.length ≤ stL.nodes.length := by
          have := hExtL.1
          omega
        have hstLrlen : (push_pending (node_type_heuristic C
            (C.map Index.PatriciaNode.letters)) st).ranges.length ≤
            stL.ranges.length := hExtL.2.2.2.1
        refine FillOK_intro _ _ _ stL ?_ (by omega) ?_ ?_ ?_ ?_ ?_ ?_
        · show fill_main (f1 + 1)
            (.inl (Index.PatriciaNode.mk L C F, st)) = stL
          have hinl : fill_main (f1 + 1)
              (.inl (Index.PatriciaNode.mk L C F, st)) =
              fill_main f1 (.inr (C, push_pending (node_type_heuristic C
                (C.map Index.PatriciaNode.letters)) st,
                st.nodes.length, none)) := rfl
          rw [hQmap, Nat.add_zero] at hEqL
          rw [hinl]
          exact hEqL
        · exact take_prefix_trans hCL hm4 hclen1
        · intro j hj
          rw [hNL j (by omega) (by omega), hm3 j hj]
        · exact le_trans hm5 hstLrlen
        · intro j hj
          rw [hRL j (by omega) ?_, hm6 j hj]
          intro i hi
          rw [hQlen] at hi
          have hb2 : st.ranges.length ≤
              ((segs.zip metas).getD i default).2.1 := by
            rw [hQget i hi]
            exact (hm7 i (by omega)).1
          omega
        · constructor
          · intro hcon
            exfalso
            omega
          · intro hcon
            exact absurd hcon hC
        · intro hne fin hfin w hw f hf
          have hbound : st.nodes.length + segs.length ≤
              fin.nodes.length := by
            have := hfin.1
            omega
          have hfinal : ∀ i, i < segs.length →
              SegFinalAt fin (st.nodes.length + segs.length)
                ((push_pending (node_type_heuristic C
                  (C.map Index.PatriciaNode.letters)) st).ranges.length)
                (st.nodes.length + i) (segs.length - 1 - i)
                ((segs.zip metas).getD i default).1.1
                ((segs.zip metas).getD i default).2.1
                ((segs.zip metas).getD i default).2.2 := by
            intro i hi
            have hS := hSegL i (by rw [hQlen]; omega)
            have harr : st.nodes.length + 0 + i = st.nodes.length + i := by
              omega
            have harr2 : segs.length - 1 - (0 + i) =
                segs.length - 1 - i := by omega
            rw [harr, harr2] at hS
            have hblki := hm7 i (by omega)
            refine SegFinalAt_mono hS (Extends_weaken hfin (by omega)
              (by omega)) ?_ ?_
            · exact hfin.2.2.1 _ (by omega) (by omega)
            · intro j hj1 hj2
              have hb2 : st.ranges.length ≤
                  ((segs.zip metas).getD i default).2.1 ∧
                  ((segs.zip metas).getD i default).2.2 ≤
                  (push_pending (node_type_heuristic C
                    (C.map Index.PatriciaNode.letters)) st).ranges.length := by
                rw [hQget i hi]
                exact ⟨(hm7 i (by omega)).1, (hm7 i (by omega)).2.2⟩
              refine hfin.2.2.2.2 j (by omega) (by omega)
          exact group_search fin st.nodes.length segs.length
            ((push_pending (node_type_heuristic C
              (C.map Index.PatriciaNode.letters)) st).ranges.length)
            (segs.zip metas) L C F hQmap hQlen hnbH1 hnb18 hsort
            (fun q hq nd hnd => ⟨(hkidAll q hq nd hnd).2.1,
              (hkidAll q hq nd hnd).2.2⟩)
            hsegQ hbound hfinal w hw f hf

/-- Every built trie satisfies the sortedness invariant. -/
theorem buildTrie_sorted (pairs : List (List Nat × Nat)) :
    SortedTrie (buildTrie pairs) := by
  unfold buildTrie
  have hgen : ∀ (ps : List (List Nat × Nat)) (t : Index.PatriciaNode),
      SortedTrie t →
      SortedTrie (ps.foldl (fun t p => t.insert p.1 p.2) t) := by
    intro ps
    induction ps with
    | nil => intro t ht; exact ht
    | cons p ps ih => intro t ht; exact ih _ (insert_sorted t p.1 p.2 ht)
  exact hgen pairs _ (SortedTrie.mk _ _ _ List.Pairwise.nil (by simp)
    (by simp))

/-- C2: for every intermediate trie built by inserting (word, positive
frequency) pairs into the empty patricia trie and then compiling it (with
the capacity constraints satisfied and enough loop fuel), exact search on
the compiled trie of every non-empty word returns exactly the word's last
inserted frequency, and absence (`none`) for every non-inserted word. -/
theorem claim_C2_compile_exact_search
    (pairs : List (List Nat × Nat)) (fuel : Nat)
    (hfreq : ∀ p ∈ pairs, 0 < p.2)
    (hcap : capOK (buildTrie pairs) = true)
    (hfuel : 2 * ptSize (buildTrie pairs) ≤ fuel)
    (w : List Nat) (hw : w ≠ []) :
    search_exact (compileTrie fuel (buildTrie pairs)) w none =
      expectedFreq pairs w := by
  have hsort := buildTrie_sorted pairs
  obtain ⟨h1, h2, h3, h4, h5, h6, h7⟩ :=
    fill_correct (ptSize (buildTrie pairs)) (buildTrie pairs)
      ⟨[], [], []⟩ fuel (Nat.le_refl _) hsort hcap hfuel
  rw [← buildTrie_lookup pairs w hw]
  by_cases hchild : (buildTrie pairs).children = []
  · have hlen0 : (fill_main fuel
        (.inl (buildTrie pairs, (⟨[], [], []⟩ : CompiledTrie)))).nodes.length
        = 0 := h6.mpr hchild
    have hroot : (fill_main fuel (.inl (buildTrie pairs,
        (⟨[], [], []⟩ : CompiledTrie)))).get_root_siblings = none := by
      unfold CompiledTrie.get_root_siblings
      rw [if_pos ?_]
      rw [List.isEmpty_iff, ← List.length_eq_zero]
      exact hlen0
    show (match (fill_main fuel (.inl (buildTrie pairs,
        (⟨[], [], []⟩ : CompiledTrie)))).get_root_siblings with
      | none => none
      | some children => search_exact_children _ w.length w children) = _
    rw [hroot, patLookup_children_nil _ _ _ hchild]
  · have hsearch := h7 hchild
      (fill_main fuel (.inl (buildTrie pairs, (⟨[], [], []⟩ : CompiledTrie))))
      (Extends_refl _ _ _) w hw w.length (Nat.le_refl _)
    have hlenne : (fill_main fuel (.inl (buildTrie pairs,
        (⟨[], [], []⟩ : CompiledTrie)))).nodes.length ≠ 0 := by
      intro hcon
      exact hchild (h6.mp hcon)
    have hroot : (fill_main fuel (.inl (buildTrie pairs,
        (⟨[], [], []⟩ : CompiledTrie)))).get_root_siblings =
        some ((fill_main fuel (.inl (buildTrie pairs,
          (⟨[], [], []⟩ : CompiledTrie)))).get_siblings_unchecked 0) := by
      unfold CompiledTrie.get_root_siblings
      rw [if_neg ?_]
      rw [List.isEmpty_iff, ← List.length_eq_zero]
      exact hlenne
    show (match (fill_main fuel (.inl (buildTrie pairs,
        (⟨[], [], []⟩ : CompiledTrie)))).get_root_siblings with
      | none => none
      | some children => search_exact_children _ w.length w children) = _
    rw [hroot]
    exact hsearch

/-- Witness for C2 at a concrete dictionary and query. -/
theorem claim_C2_compile_exact_search_witness :
    ((∀ p ∈ [([97, 98], 5), ([99], 7)], 0 < p.2) ∧
      capOK (buildTrie [([97, 98], 5), ([99], 7)]) = true ∧
      2 * ptSize (buildTrie [([97, 98], 5), ([99], 7)]) ≤ 20 ∧
      ([97, 98] : List Nat) ≠ []) ∧
    search_exact (compileTrie 20 (buildTrie [([97, 98], 5), ([99], 7)]))
      [97, 98] none = expectedFreq [([97, 98], 5), ([99], 7)] [97, 98] :=
  ⟨⟨by decide, by decide, by decide, by decide⟩,
    claim_C2_compile_exact_search [([97, 98], 5), ([99], 7)] 20 (by decide)
      (by decide) (by decide) [97, 98] (by decide)⟩
